import Mathlib

/-!
# Position heap with maximal-reach pointers (`heap.cpp`, `downNode.cpp`)

A shallow embedding of the `heap` class: the linear-time construction of the
primal and dual position heap (`build`), the installation of the maximal-reach
pointers (`installMaxReaches`), the conversion to a downward tree with DFS
discovery and finishing times, and the query `search`.

C `int` values are modelled by `Int`, arrays by lists.  Every array access is
checked: an index outside `0 .. length-1` is the fault `outOfBounds`, a read of
a cell of a `new int[n]` array that was never written is the fault
`uninitialised`.  Loops whose termination depends on the data carry a fuel
counter; running out of it is the fault `outOfFuel`.
-/

set_option linter.unusedSectionVars false

namespace PositionHeap

/-- Ways in which a run of the embedded program can go wrong. -/
inductive Fault where
  | outOfBounds
  | uninitialised
  | outOfFuel
  deriving DecidableEq, Repr

deriving instance DecidableEq for Except

/-- The sentinel `ROOT` of `heap.h`. -/
@[reducible] def ROOT : Int := 0

/-- The sentinel `NOCHILD` of `heap.h`. -/
@[reducible] def NOCHILD : Int := -1

/-- Read of `a[i]` in a C array of `a.length` cells. -/
def readAt {β : Type} (a : List β) (i : Int) : Except Fault β :=
  if i < 0 then Except.error Fault.outOfBounds
  else match a[i.toNat]? with
    | some v => Except.ok v
    | none => Except.error Fault.outOfBounds

/-- Write `a[i] = v` in a C array of `a.length` cells. -/
def writeAt {β : Type} (a : List β) (i : Int) (v : β) : Except Fault (List β) :=
  if i < 0 then Except.error Fault.outOfBounds
  else if i.toNat < a.length then Except.ok (a.set i.toNat v)
  else Except.error Fault.outOfBounds

/-- Read of a local variable or array cell that may not have been assigned yet. -/
def initialised {β : Type} (v : Option β) : Except Fault β :=
  match v with
  | some x => Except.ok x
  | none => Except.error Fault.uninitialised

/-- Read of `a[i]` in an array allocated by `new int[n]`, whose cells start
uninitialised (`none`). -/
def readInit (a : List (Option Int)) (i : Int) : Except Fault Int :=
  readAt a i >>= initialised

/-- The loop `for (int i = lo; count-- > 0; i++) body`. -/
def forLoop {σ : Type} (body : Int → σ → Except Fault σ) : Nat → Int → σ → Except Fault σ
  | 0, _, s => Except.ok s
  | k + 1, i, s => body i s >>= fun s1 => forLoop body k (i + 1) s1

/-- The loop `for (int i = lo; i < hi; i++) body`. -/
def forRange {σ : Type} (lo hi : Int) (body : Int → σ → Except Fault σ) (s : σ) :
    Except Fault σ :=
  forLoop body (hi - lo).toNat lo s

/-- The class `downNode` of `downNode.h`: first child and next sibling. -/
structure downNode where
  child : Int
  sibling : Int
  deriving DecidableEq, Repr

/-- The constructor `downNode::downNode`. -/
def downNode.new : downNode := { child := -1, sibling := -1 }

/-- The method `downNode::getChild`. -/
def downNode.getChild (d : downNode) : Int := d.child

/-- The method `downNode::getSibling`. -/
def downNode.getSibling (d : downNode) : Int := d.sibling

/-- The method `downNode::setChild`. -/
def downNode.setChild (d : downNode) (c : Int) : downNode := { d with child := c }

/-- The method `downNode::setSibling`. -/
def downNode.setSibling (d : downNode) (s : Int) : downNode := { d with sibling := s }

/-- Modelled from the spec: the integer sequence container `mylist` (`mylist.h` is not
among the sources): an ordered, appendable, indexable sequence of integers. -/
abbrev mylist := List Int

/-- Modelled from the spec: `mylist::add` appends one element. -/
def mylist.add (l : mylist) (x : Int) : mylist := l ++ [x]

/-- Modelled from the spec: `mylist::size`. -/
def mylist.size (l : mylist) : Int := l.length

/-- Modelled from the spec: `mylist::compact` eliminates the elements equal to the
reserved marker `INVALID`; the spec does not give the marker, so it is a parameter. -/
def mylist.compact (INVALID : Int) (l : mylist) : mylist := l.filter (fun x => x ≠ INVALID)

/-- Modelled from the spec: `reverse (pattern, patternLength)` of `generic.h` (not among
the sources) reverses the first `patternLength` characters of the buffer in place. -/
def reverse {α : Type} (pattern : List α) (patternLength : Int) : List α :=
  (pattern.take patternLength.toNat).reverse ++ pattern.drop patternLength.toNat

/-- The members of the class `heap` (`heap.h`).  `parent`, `maxReach`, `discoveryTime`
and `finishingTime` are allocated by `new int[n]`, so their cells start uninitialised. -/
structure heap (α : Type) where
  parent : List (Option Int)
  downArray : List downNode
  maxReach : List (Option Int)
  discoveryTime : List (Option Int)
  finishingTime : List (Option Int)
  text : List α
  textLength : Int
  deriving DecidableEq, Repr

variable {α : Type} [DecidableEq α]

/-- Bound on the iterations of a loop that walks a sibling chain or climbs a parent
chain of a tree with `textLength` nodes. -/
def heap.fuel (h : heap α) : Nat := h.textLength.toNat + 1

/-- Bound on the nesting of the recursive traversals (`setDFAux`,
`appendSubtreeOccurrences`): they descend at most `textLength` levels and walk at most
`textLength` siblings on each level. -/
def heap.deepFuel (h : heap α) : Nat := (h.textLength.toNat + 1) * (h.textLength.toNat + 1)

/-- Bound on the iterations of a loop that consumes a pattern of the given length. -/
def patternFuel (patternLength : Int) : Nat := patternLength.toNat + 2

/-- The loop of `heap::childOnLetter`:
`while (child != NOCHILD && text[child - nodeDepth] != c) child = sibling`. -/
def childOnLetter.scan (h : heap α) (nodeDepth : Int) (c : α) : Nat → Int → Except Fault Int
  | 0, _ => Except.error Fault.outOfFuel
  | fuel + 1, child =>
    if child = NOCHILD then Except.ok child
    else readAt h.text (child - nodeDepth) >>= fun t =>
      if t ≠ c then
        readAt h.downArray child >>= fun nd => childOnLetter.scan h nodeDepth c fuel nd.getSibling
      else Except.ok child

/-- The method `heap::childOnLetter`: the child reachable from `node` on character `c`. -/
def childOnLetter (h : heap α) (node nodeDepth : Int) (c : α) : Except Fault Int :=
  readAt h.downArray node >>= fun nd => childOnLetter.scan h nodeDepth c h.fuel nd.getChild

/-- The method `heap::insertChild`. -/
def insertChild (h : heap α) (child parent : Int) : Except Fault (heap α) :=
  readAt h.downArray parent >>= fun pn =>
  readAt h.downArray child >>= fun cn =>
  writeAt h.downArray child (cn.setSibling pn.getChild) >>= fun da1 =>
  readAt da1 parent >>= fun pn1 =>
  writeAt da1 parent (pn1.setChild child) >>= fun da2 =>
  Except.ok { h with downArray := da2 }

/-- The loop of `heap::indexIntoTrie`; the state is `(child, depth)` and the result is
`(pathNode, child, depth)` at loop exit.  The pointer `patPtr` is
`pattern + patternLength - 1 - depth`. -/
def indexIntoTrie.loop (h : heap α) (pattern : List α) (patternLength : Int) :
    Nat → Int → Int → Except Fault (Int × Int × Int)
  | 0, _, _ => Except.error Fault.outOfFuel
  | fuel + 1, child, depth =>
    readAt pattern (patternLength - 1 - depth) >>= fun letter =>
    childOnLetter h child depth letter >>= fun child1 =>
    if child1 ≠ NOCHILD ∧ depth + 1 < patternLength then
      indexIntoTrie.loop h pattern patternLength fuel child1 (depth + 1)
    else Except.ok (child, child1, depth + 1)

/-- The method `heap::indexIntoTrie`.  The reference parameter `endDepth` is passed in
and returned; `none` is a variable that has not been assigned. -/
def indexIntoTrie (h : heap α) (pattern : List α) (patternLength : Int)
    (endDepth : Option Int) : Except Fault (Int × Option Int) :=
  if patternLength = 0 then Except.ok (ROOT, endDepth)
  else
    indexIntoTrie.loop h pattern patternLength (patternFuel patternLength) ROOT 0 >>= fun r =>
    if r.2.1 = NOCHILD then Except.ok (r.1, some (r.2.2 - 1))
    else Except.ok (r.2.1, some r.2.2)

/-- The `do ... while (child == NOCHILD)` climb of `heap::build`; the result is
`(prevPathNode, pathNode, child)`. -/
def build.climb (h : heap α) (c : α) : Nat → Int → Except Fault (Int × Int × Int)
  | 0, _ => Except.error Fault.outOfFuel
  | fuel + 1, pathNode =>
    readInit h.parent pathNode >>= fun pathNode1 =>
    childOnLetter h pathNode1 0 c >>= fun child =>
    if child = NOCHILD then build.climb h c fuel pathNode1
    else Except.ok (pathNode, pathNode1, child)

/-- The body of the construction loop of `heap::build` for one `arrayIndex`; the state
is the heap and the local variable `pathNode`. -/
def build.step (arrayIndex : Int) (s : heap α × Option Int) :
    Except Fault (heap α × Option Int) :=
  readAt s.1.text arrayIndex >>= fun c =>
  childOnLetter s.1 ROOT 0 c >>= fun r =>
  if r = NOCHILD then
    writeAt s.1.parent arrayIndex (some ROOT) >>= fun parent1 =>
    insertChild { s.1 with parent := parent1 } arrayIndex ROOT >>= fun h1 =>
    Except.ok (h1, some arrayIndex)
  else
    initialised s.2 >>= fun pathNode =>
    build.climb s.1 c s.1.fuel pathNode >>= fun r1 =>
    writeAt s.1.parent arrayIndex (some r1.2.2) >>= fun parent1 =>
    insertChild { s.1 with parent := parent1 } arrayIndex r1.1 >>= fun h1 =>
    Except.ok (h1, some arrayIndex)

/-- The `while (child == NOCHILD)` climb of `heap::installMaxReaches`; the result is
`(pathNode, child)`. -/
def installMaxReaches.climb (h : heap α) (c : α) : Nat → Int → Int → Except Fault (Int × Int)
  | 0, _, _ => Except.error Fault.outOfFuel
  | fuel + 1, pathNode, child =>
    if child = NOCHILD then
      readInit h.parent pathNode >>= fun pathNode1 =>
      childOnLetter h pathNode1 0 c >>= fun child1 =>
      installMaxReaches.climb h c fuel pathNode1 child1
    else Except.ok (pathNode, child)

/-- The body of the loop of `heap::installMaxReaches` for one `arrayIndex`. -/
def installMaxReaches.step (arrayIndex : Int) (s : heap α × Int) : Except Fault (heap α × Int) :=
  readAt s.1.text arrayIndex >>= fun c =>
  childOnLetter s.1 s.2 0 c >>= fun child =>
  installMaxReaches.climb s.1 c s.1.fuel s.2 child >>= fun r =>
  writeAt s.1.maxReach arrayIndex (some r.2) >>= fun maxReach1 =>
  Except.ok ({ s.1 with maxReach := maxReach1 }, r.2)

/-- The method `heap::installMaxReaches`. -/
def installMaxReaches (h : heap α) : Except Fault (heap α) :=
  indexIntoTrie h h.text 1 none >>= fun r =>
  writeAt h.maxReach ROOT (some r.1) >>= fun maxReach1 =>
  forRange 1 h.textLength installMaxReaches.step ({ h with maxReach := maxReach1 }, r.1)
    >>= fun s => Except.ok s.1

/-- The statements `downArray[i].setSibling(NOCHILD); downArray[i].setChild(NOCHILD)`. -/
def clearNode (h : heap α) (i : Int) : Except Fault (heap α) :=
  readAt h.downArray i >>= fun nd =>
  writeAt h.downArray i (nd.setSibling NOCHILD) >>= fun da1 =>
  readAt da1 i >>= fun nd1 =>
  writeAt da1 i (nd1.setChild NOCHILD) >>= fun da2 =>
  Except.ok { h with downArray := da2 }

/-- The body of the conversion loop of `heap::build`. -/
def build.convertStep (arrayIndex : Int) (h : heap α) : Except Fault (heap α) :=
  clearNode h arrayIndex >>= fun h1 =>
  readInit h1.parent arrayIndex >>= fun p =>
  insertChild h1 arrayIndex p

mutual
/-- The method `heap::setDFAux`; the state is the heap (its time arrays) and the
counter `i`. -/
def setDFAux : Nat → Int → Int → heap α × Int → Except Fault (heap α × Int)
  | 0, _, _, _ => Except.error Fault.outOfFuel
  | fuel + 1, index, depth, s =>
    if index = -1 then Except.ok s
    else
      writeAt s.1.discoveryTime index (some s.2) >>= fun disc =>
      readAt s.1.downArray index >>= fun nd =>
      setDFAux.children fuel nd.getChild depth ({ s.1 with discoveryTime := disc }, s.2 + 1)
        >>= fun s1 =>
      writeAt s1.1.finishingTime index (some s1.2) >>= fun fin =>
      Except.ok ({ s1.1 with finishingTime := fin }, s1.2 + 1)
/-- The `for` loop over the children in `heap::setDFAux`. -/
def setDFAux.children : Nat → Int → Int → heap α × Int → Except Fault (heap α × Int)
  | 0, _, _, _ => Except.error Fault.outOfFuel
  | fuel + 1, child, depth, s =>
    if child ≠ NOCHILD then
      setDFAux fuel child (depth + 1) s >>= fun s1 =>
      readAt s1.1.downArray child >>= fun nd =>
      setDFAux.children fuel nd.getSibling depth s1
    else Except.ok s
end

/-- The method `heap::setDiscoveryFinishing`. -/
def setDiscoveryFinishing (h : heap α) : Except Fault (heap α) :=
  setDFAux h.deepFuel 0 0 (h, 0) >>= fun s => Except.ok s.1

/-- The statements `delete [] parent; discoveryTime = new int[textLength];
finishingTime = new int[textLength]` of `heap::build`. -/
def build.allocTimes (h : heap α) : heap α :=
  { h with
    parent := []
    discoveryTime := List.replicate h.textLength.toNat none
    finishingTime := List.replicate h.textLength.toNat none }

/-- The method `heap::build`. -/
def build (h : heap α) : Except Fault (heap α) :=
  forRange 1 h.textLength build.step (h, none) >>= fun s =>
  installMaxReaches s.1 >>= fun h1 =>
  clearNode h1 0 >>= fun h2 =>
  forRange 1 h2.textLength build.convertStep h2 >>= fun h3 =>
  setDiscoveryFinishing (build.allocTimes h3)

/-- The constructor `heap::heap (char *str)`; `str` is the content of the C string.
The private copy `text` is `str` reversed. -/
def heap.new (str : List α) : Except Fault (heap α) :=
  build
    { parent := List.replicate str.length none
      downArray := List.replicate str.length downNode.new
      maxReach := List.replicate str.length none
      discoveryTime := []
      finishingTime := []
      text := str.reverse
      textLength := str.length }

/-- The method `heap::isDescendant`. -/
def isDescendant (h : heap α) (node1 node2 : Int) : Except Fault Bool :=
  readInit h.discoveryTime node1 >>= fun d1 =>
  readInit h.discoveryTime node2 >>= fun d2 =>
  if d1 ≥ d2 then
    readInit h.finishingTime node1 >>= fun f1 =>
    readInit h.finishingTime node2 >>= fun f2 =>
    Except.ok (decide (f1 ≤ f2))
  else Except.ok false

mutual
/-- The method `heap::appendSubtreeOccurrences`. -/
def appendSubtreeOccurrences (h : heap α) : Nat → Int → mylist → Except Fault mylist
  | 0, _, _ => Except.error Fault.outOfFuel
  | fuel + 1, node, occ =>
    readAt h.downArray node >>= fun nd =>
    appendSubtreeOccurrences.children h fuel nd.getChild (occ.add node)
/-- The `for` loop over the children in `heap::appendSubtreeOccurrences`. -/
def appendSubtreeOccurrences.children (h : heap α) : Nat → Int → mylist → Except Fault mylist
  | 0, _, _ => Except.error Fault.outOfFuel
  | fuel + 1, child, occ =>
    if child ≠ NOCHILD then
      appendSubtreeOccurrences h fuel child occ >>= fun occ1 =>
      readAt h.downArray child >>= fun nd =>
      appendSubtreeOccurrences.children h fuel nd.getSibling occ1
    else Except.ok occ
end

/-- The `do ... while (child != pathEndNode)` loop of `heap::pathOccurrences`; the
state is `(child, depth, Occurrences)`. -/
def pathOccurrences.loop (h : heap α) (pattern : List α) (patternLength pathEndNode : Int) :
    Nat → Int → Int → mylist → Except Fault mylist
  | 0, _, _, _ => Except.error Fault.outOfFuel
  | fuel + 1, child, depth, occ =>
    readInit h.maxReach child >>= fun mr =>
    isDescendant h mr pathEndNode >>= fun b =>
    readAt pattern (patternLength - 1 - depth) >>= fun letter =>
    childOnLetter h child depth letter >>= fun child1 =>
    if child1 ≠ pathEndNode then
      pathOccurrences.loop h pattern patternLength pathEndNode fuel child1 (depth + 1)
        (if b then occ.add child else occ)
    else Except.ok (if b then occ.add child else occ)

/-- The method `heap::pathOccurrences`. -/
def pathOccurrences (h : heap α) (pattern : List α) (patternLength pathEndNode : Int) :
    Except Fault mylist :=
  pathOccurrences.loop h pattern patternLength pathEndNode (patternFuel patternLength) 0 0 []

/-- The method `heap::genCandidates`; the result is the list and the value left in
the reference parameter `pathEndDepth`. -/
def genCandidates (h : heap α) (pattern : List α) (patternLength : Int)
    (pathEndDepth : Option Int) : Except Fault (mylist × Option Int) :=
  indexIntoTrie h pattern patternLength pathEndDepth >>= fun r =>
  pathOccurrences h pattern patternLength r.1 >>= fun candidates =>
  initialised r.2 >>= fun d =>
  if d = patternLength then
    appendSubtreeOccurrences h h.deepFuel r.1 candidates >>= fun c1 => Except.ok (c1, r.2)
  else Except.ok (candidates.add r.1, r.2)

/-- The test of the `for` loop of `heap::pruneCandidates` for one candidate `h`. -/
def pruneCandidates.keep (hp : heap α) (pathEndNode : Int) (fellOffTree : Bool) (offset : Int)
    (c : Int) : Except Fault Bool :=
  if c - offset ≥ 0 then
    isDescendant hp pathEndNode (c - offset) >>= fun a1 =>
    (if a1 then
      readInit hp.maxReach (c - offset) >>= fun mr => isDescendant hp mr pathEndNode
     else Except.ok false) >>= fun a =>
    if a then Except.ok true
    else if !fellOffTree then isDescendant hp (c - offset) pathEndNode
    else Except.ok false
  else Except.ok false

/-- The `for` loop of `heap::pruneCandidates` over the elements of `candidates` in
order (`getElement (index)` for `index = 0 .. size-1`). -/
def pruneCandidates.loop (hp : heap α) (pathEndNode : Int) (fellOffTree : Bool) (offset : Int) :
    List Int → mylist → Except Fault mylist
  | [], newCandidates => Except.ok newCandidates
  | c :: rest, newCandidates =>
    pruneCandidates.keep hp pathEndNode fellOffTree offset c >>= fun k =>
    pruneCandidates.loop hp pathEndNode fellOffTree offset rest
      (if k then newCandidates.add c else newCandidates)

/-- The method `heap::pruneCandidates`; the result is the new list and the value left
in the reference parameter `offset`.  The sum `offset + pathEndDepth` is the mathematical
one: it is the value of the `int` after `offset += pathEndDepth` as long as it lies in
the range of `int`, as it does in `search`, where `offset` stays at most
`patternLength`. -/
def pruneCandidates (h : heap α) (suffix : List α) (suffixLength : Int) (candidates : mylist)
    (offset : Int) : Except Fault (mylist × Int) :=
  indexIntoTrie h suffix suffixLength none >>= fun r =>
  initialised r.2 >>= fun pathEndDepth =>
  if pathEndDepth > 0 then
    pruneCandidates.loop h r.1 (decide (pathEndDepth < suffixLength)) offset candidates []
      >>= fun newCandidates => Except.ok (newCandidates, offset + pathEndDepth)
  else Except.ok ([], offset)

/-- The loop `while (offset < patternLength && candidates->size() > 0)` of
`heap::search`. -/
def search.pruneLoop (h : heap α) (pattern : List α) (patternLength : Int) :
    Nat → mylist → Int → Except Fault mylist
  | 0, _, _ => Except.error Fault.outOfFuel
  | fuel + 1, candidates, offset =>
    if offset < patternLength ∧ candidates.size > 0 then
      pruneCandidates h pattern (patternLength - offset) candidates offset >>= fun r =>
      search.pruneLoop h pattern patternLength fuel r.1 r.2
    else Except.ok candidates

/-- The method `heap::search`.  The result is the returned list together with the
content of the caller's pattern buffer after the call. -/
def search (h : heap α) (INVALID : Int) (pattern : List α) (patternLength : Int) :
    Except Fault (mylist × List α) :=
  genCandidates h (reverse pattern patternLength) patternLength none >>= fun r =>
  initialised r.2 >>= fun pathEndDepth =>
  (if ¬ (pathEndDepth < patternLength) then Except.ok (mylist.compact INVALID r.1)
   else search.pruneLoop h (reverse pattern patternLength) patternLength
      (patternFuel patternLength) r.1 pathEndDepth) >>= fun candidates =>
  Except.ok (candidates, reverse (reverse pattern patternLength) patternLength)

/-- Build the index for the text `T` and search the pattern `P` (of length
`P.length`) in it; the result is the list of reported positions. -/
def searchText (INVALID : Int) (T P : List α) : Except Fault mylist :=
  heap.new T >>= fun h => search h INVALID P P.length >>= fun r => Except.ok r.1

/-! ## Specification-level definitions -/

def Chain (da : List downNode) : Int → List Nat → Prop
  | c, [] => c = NOCHILD
  | c, x :: xs => c = (x : Int) ∧ ∃ nd, da[x]? = some nd ∧ Chain da nd.sibling xs

def Kids (da : List downNode) (p : Nat) (xs : List Nat) : Prop :=
  ∃ nd, da[p]? = some nd ∧ Chain da nd.child xs

def kidsOf (f : Nat → Nat) : Nat → Nat → List Nat
  | 0, _ => []
  | i + 1, p => if f (i + 1) = p then (i + 1) :: kidsOf f i p else kidsOf f i p

def firstOn (text : List α) (d : Nat) (c : α) (xs : List Nat) : Int :=
  match xs.find? (fun x => decide (text[x - d]? = some c)) with
  | some x => (x : Int)
  | none => NOCHILD

/-- The primal position heap on the nodes `0..i` as a parent function `par` with depths
`dep`, together with the dual parent function `dpar`. -/
structure Shape (text : List α) (i : Nat) (par dep dpar : Nat → Nat) : Prop where
  i_lt : i < text.length
  par_lt : ∀ j, 1 ≤ j → j ≤ i → par j < j
  dep_zero : dep 0 = 0
  dep_succ : ∀ j, 1 ≤ j → j ≤ i → dep j = dep (par j) + 1
  dep_le : ∀ j, j ≤ i → dep j ≤ j
  path : ∀ j, 1 ≤ j → j ≤ i → ∀ k, k < dep (par j) → text[par j - k]? = text[j - k]?
  uniq : ∀ y z, y ≤ i → z ≤ i → dep y = dep z →
    (∀ k, k < dep y → text[y - k]? = text[z - k]?) → y = z
  dpar_lt : ∀ x, 1 ≤ x → x ≤ i → dpar x < x
  dep_dpar : ∀ x, 1 ≤ x → x ≤ i → dep x = dep (dpar x) + 1
  dpath : ∀ x, 1 ≤ x → x ≤ i → ∀ k, k < dep (dpar x) → text[dpar x - k]? = text[x - 1 - k]?

/-- In the tree given by `par`, `a` is `j` or an ancestor of `j`. -/
inductive Anc (par : Nat → Nat) : Nat → Nat → Prop
  | refl (a : Nat) : Anc par a a
  | step {a j : Nat} : 1 ≤ j → Anc par a (par j) → Anc par a j

/-- The heap `h` stores, for the nodes `0..i`, the primal tree `par` in its `parent`
array and the dual tree `dpar` in the child and sibling fields of `downArray`. -/
structure DualRep (h : heap α) (i : Nat) (par dpar : Nat → Nat) : Prop where
  tl : h.textLength = (h.text.length : Int)
  len_parent : h.parent.length = h.text.length
  len_da : h.downArray.length = h.text.length
  parent_eq : ∀ j, 1 ≤ j → j ≤ i → h.parent[j]? = some (some (par j : Int))
  kids : ∀ p, p < h.text.length → Kids h.downArray p (kidsOf dpar i p)

/-- The heap `h1` differs from `h` at most in `parent` and `downArray`. -/
structure SameText (h h1 : heap α) : Prop where
  text : h1.text = h.text
  textLength : h1.textLength = h.textLength
  maxReach : h1.maxReach = h.maxReach
  discoveryTime : h1.discoveryTime = h.discoveryTime
  finishingTime : h1.finishingTime = h.finishingTime

/-- The function `mr` gives, for the nodes `0..i`, the deepest node whose root path is
a beginning of `text[j], text[j-1], ..., text[0]`. -/
structure Reach (text : List α) (i : Nat) (dep mr : Nat → Nat) : Prop where
  lt : ∀ j, j ≤ i → mr j < text.length
  dep_le : ∀ j, j ≤ i → dep (mr j) ≤ j + 1
  path : ∀ j, j ≤ i → ∀ k, k < dep (mr j) → text[mr j - k]? = text[j - k]?
  max : ∀ j, j ≤ i → ∀ y, y < text.length → dep y ≤ j + 1 →
    (∀ k, k < dep y → text[y - k]? = text[j - k]?) → dep y ≤ dep (mr j)

/-- The array `maxReach` of `h` stores `mr` for the nodes `0..i`. -/
structure ReachRep (h : heap α) (i : Nat) (mr : Nat → Nat) : Prop where
  len : h.maxReach.length = h.text.length
  eq : ∀ j, j ≤ i → h.maxReach[j]? = some (some (mr j : Int))

/-- The child and sibling fields of `downArray` store, for the nodes `0..i`, the
downward form of the tree `par` restricted to the nodes `0..i`. -/
structure PrimRep (h : heap α) (i : Nat) (par : Nat → Nat) : Prop where
  len_da : h.downArray.length = h.text.length
  kids : ∀ p, p ≤ i → Kids h.downArray p (kidsOf par i p)

/-- Node `a` carries the discovery time `d` and the finishing time `f`. -/
def Timed (h : heap α) (a : Nat) (d f : Int) : Prop :=
  h.discoveryTime[a]? = some (some d) ∧ h.finishingTime[a]? = some (some f)

/-- The nodes `a ≤ N` in the subtree of `p` of the tree `par`. -/
def Sub (par : Nat → Nat) (N p a : Nat) : Prop := a ≤ N ∧ Anc par p a

/-- What a depth-first labelling run from state `s` to state `s1` has done when it
visited exactly the nodes in `In`. -/
structure DFSPost (par : Nat → Nat) (In : Nat → Prop) (s s1 : heap α × Int) : Prop where
  frame : s1.1 = { s.1 with discoveryTime := s1.1.discoveryTime,
                            finishingTime := s1.1.finishingTime }
  len_d : s1.1.discoveryTime.length = s.1.discoveryTime.length
  len_f : s1.1.finishingTime.length = s.1.finishingTime.length
  mono : s.2 ≤ s1.2
  stamped : ∀ a, In a → ∃ d f, Timed s1.1 a d f ∧ s.2 ≤ d ∧ d < f ∧ f < s1.2
  other : ∀ a, ¬ In a → s1.1.discoveryTime[a]? = s.1.discoveryTime[a]? ∧
    s1.1.finishingTime[a]? = s.1.finishingTime[a]?
  nest : ∀ a b d f d1 f1, In a → In b → Timed s1.1 a d f → Timed s1.1 b d1 f1 →
    ((d1 ≤ d ∧ f ≤ f1) ↔ Anc par b a)

/-- The state of a heap after `build`: the downward primal tree `par` with depths `dep`,
the maximal-reach pointers `mr` and the discovery and finishing times, for the nodes
`0..N`. -/
structure Good (h : heap α) (N : Nat) (par dep dpar mr : Nat → Nat) : Prop where
  len : N + 1 = h.text.length
  tl : h.textLength = (h.text.length : Int)
  shape : Shape h.text N par dep dpar
  reach : Reach h.text N dep mr
  reachRep : ReachRep h N mr
  prim : PrimRep h N par
  len_d : h.discoveryTime.length = N + 1
  len_f : h.finishingTime.length = N + 1
  timed : ∀ a, a ≤ N → ∃ d f, Timed h a d f
  nest : ∀ a b d f d1 f1, a ≤ N → b ≤ N → Timed h a d f → Timed h b d1 f1 →
    ((d1 ≤ d ∧ f ≤ f1) ↔ Anc par b a)

/-- Position `x`, in the reversed numbering of the private copy `text` of `T`, is an
occurrence of `P`: the leftmost character of a substring of the text equal to `P`, that
is `m - 1 ≤ x ≤ n - 1` and `text[x - k] = P[k]` for all `k < m`. -/
def Occurs (T P : List α) (x : Int) : Prop :=
  0 ≤ x ∧ P.length ≤ x.toNat + 1 ∧ x.toNat < T.length ∧
    ∀ k, k < P.length → T.reverse[x.toNat - k]? = P[k]?

instance (T P : List α) (x : Int) : Decidable (Occurs T P x) := by
  unfold Occurs; infer_instance

/-- Node `x` occurs in the sibling chain of `downArray` that starts at node `c`. -/
inductive OnChain (da : List downNode) : Int → Int → Prop
  | here {c : Int} {nd : downNode} : readAt da c = Except.ok nd → OnChain da c c
  | next {c x : Int} {nd : downNode} :
      readAt da c = Except.ok nd → OnChain da nd.getSibling x → OnChain da c x

/-- Node `c` is a child of node `p` in the downward tree stored in `downArray`. -/
def IsChild (h : heap α) (p c : Int) : Prop :=
  ∃ nd, readAt h.downArray p = Except.ok nd ∧ OnChain h.downArray nd.getChild c

/-- The edge labels on the path from `ROOT` to node `y` in the downward tree spell `ls`;
the edge from a node of depth `d` to its child `c` is labelled `text[c - d]` (as in
`childOnLetter` and `preorderAux`). -/
inductive RootPath (h : heap α) : Int → List α → Prop
  | root : RootPath h ROOT []
  | edge {p c : Int} {ls : List α} {a : α} : RootPath h p ls → IsChild h p c →
      readAt h.text (c - (ls.length : Int)) = Except.ok a → RootPath h c (ls ++ [a])

/-- The left-to-right start positions `n - 1 - x` of the reversed positions in `l`. -/
def startsOf (n : Nat) (l : mylist) : List Int := l.map (fun x => (n : Int) - 1 - x)

/-- The index that the constructor builds for the text `aab`. -/
def aabIndex : heap Char :=
  { parent := []
    downArray := [{ child := 1, sibling := -1 }, { child := 2, sibling := -1 },
      { child := -1, sibling := -1 }]
    maxReach := [some 0, some 1, some 2]
    discoveryTime := [some 0, some 1, some 2]
    finishingTime := [some 5, some 4, some 3]
    text := ['b', 'a', 'a']
    textLength := 3 }

/-- Node `a` lies in the subtree of node `b` of the downward tree stored in
`downArray`: `a` is `b` or is reached from `b` by child edges. -/
inductive InSubtree (h : heap α) (b : Int) : Int → Prop
  | self : InSubtree h b b
  | down {p c : Int} : InSubtree h b p → IsChild h p c → InSubtree h b c

/-- Naive insertion as the spec words it, one indexing walk: index
`text[i], text[i-1], ..., text[0]` into the heap of the earlier nodes, whose parents are
listed in `ps`.  From the node `p` of depth `d` the walk moves to the child `c` of `p`
whose edge label `text[c - d]` is the next letter `text[i - d]`; the result is the node
where the walk falls off, and its depth. -/
def naiveDescend (text : List α) (ps : List Nat) (i : Nat) : Nat → Nat → Nat → Nat × Nat
  | 0, p, d => (p, d)
  | fuel + 1, p, d =>
    match (List.range ps.length).find?
        (fun c => decide (1 ≤ c ∧ ps[c]? = some p ∧ d ≤ i ∧ text[c - d]? = text[i - d]?)) with
    | some c => naiveDescend text ps i fuel c (d + 1)
    | none => (p, d)

/-- Naive insertion as the spec words it: the parents of the nodes `0..k` of the position
heap (the entry of the root, node 0, is 0).  Node `k + 1` becomes a child of the node
where indexing `text[k+1], text[k], ..., text[0]` into the heap of the nodes `0..k` falls
off. -/
def naiveParents (text : List α) : Nat → List Nat
  | 0 => [0]
  | k + 1 =>
    naiveParents text k ++ [(naiveDescend text (naiveParents text k) (k + 1) (k + 1) 0 0).1]

/-- The heap object as the constructor `heap::heap (char *str)` leaves it before it calls
`build`: the arrays are allocated and `text` holds `str` reversed. -/
def heap.fresh (str : List α) : heap α :=
  { parent := List.replicate str.length none
    downArray := List.replicate str.length downNode.new
    maxReach := List.replicate str.length none
    discoveryTime := []
    finishingTime := []
    text := str.reverse
    textLength := str.length }

/-- The construction loop of `heap::build` (its first `for` loop); the state is the heap
and the local variable `pathNode`. -/
def build.construct (h : heap α) : Except Fault (heap α × Option Int) :=
  forRange 1 h.textLength build.step (h, none)

/-- The edge labels on the path from `ROOT` to node `y` in the upward primal tree stored
in `parent` spell `ls`; the edge from a node of depth `d` to its child `c` is labelled
`text[c - d]`. -/
inductive UpPath (h : heap α) : Int → List α → Prop
  | root : UpPath h ROOT []
  | edge {p c : Int} {ls : List α} {a : α} : UpPath h p ls →
      readInit h.parent c = Except.ok p →
      readAt h.text (c - (ls.length : Int)) = Except.ok a → UpPath h c (ls ++ [a])

/-- The edge labels on the path from `ROOT` to node `y` in the dual tree stored in
`downArray` during the construction spell `ls`; the dual edge into a node `c` is labelled
`text[c]` (`childOnLetter` is called with `nodeDepth = 0` on the dual). -/
inductive DualPath (h : heap α) : Int → List α → Prop
  | root : DualPath h ROOT []
  | edge {p c : Int} {ls : List α} {a : α} : DualPath h p ls → IsChild h p c →
      readAt h.text c = Except.ok a → DualPath h c (ls ++ [a])

/-- The largest value of a C `int` (32 bits).  The embedding computes in unbounded
integers; a sum that stays at most `INT_MAX` is the value the `int` variable holds. -/
def INT_MAX : Int := 2147483647

/-! ## Basic facts about the embedding -/

theorem bind_ok_iff {ε β γ : Type} (x : Except ε β) (f : β → Except ε γ) (b : γ) :
    (x >>= f) = Except.ok b ↔ ∃ a, x = Except.ok a ∧ f a = Except.ok b := by
  cases x <;> simp [bind, Except.bind]

@[simp] theorem ok_bind {ε β γ : Type} (a : β) (f : β → Except ε γ) :
    (Except.ok a >>= f) = f a := rfl

@[simp] theorem error_bind {ε β γ : Type} (e : ε) (f : β → Except ε γ) :
    ((Except.error e : Except ε β) >>= f) = Except.error e := rfl

theorem readAt_cast {β : Type} (a : List β) (j : Nat) (v : β) (hv : a[j]? = some v) :
    readAt a (j : Int) = Except.ok v := by
  simp [readAt, hv]

theorem readAt_ok_iff {β : Type} (a : List β) (i : Int) (v : β) :
    readAt a i = Except.ok v ↔ 0 ≤ i ∧ a[i.toNat]? = some v := by
  unfold readAt
  split
  · rename_i hi
    simp only [false_iff, not_and, reduceCtorEq]
    intro h0; omega
  · rename_i hi
    cases h : a[i.toNat]? with
    | none => simp
    | some w => simp; intro _; omega

theorem writeAt_cast {β : Type} (a : List β) (j : Nat) (v : β) (hj : j < a.length) :
    writeAt a (j : Int) v = Except.ok (a.set j v) := by
  simp [writeAt, hj]

theorem readInit_cast (a : List (Option Int)) (j : Nat) (v : Int) (hv : a[j]? = some (some v)) :
    readInit a (j : Int) = Except.ok v := by
  simp [readInit, readAt_cast a j _ hv, initialised]

theorem mem_kidsOf (f : Nat → Nat) (i p x : Nat) :
    x ∈ kidsOf f i p ↔ 1 ≤ x ∧ x ≤ i ∧ f x = p := by
  induction i with
  | zero => simp [kidsOf]; omega
  | succ i ih =>
    unfold kidsOf
    split
    · rename_i hf
      simp [ih]
      constructor
      · rintro (rfl | ⟨h1, h2, h3⟩)
        · exact ⟨by omega, by omega, hf⟩
        · exact ⟨h1, by omega, h3⟩
      · rintro ⟨h1, h2, h3⟩
        by_cases hx : x = i + 1
        · exact Or.inl hx
        · exact Or.inr ⟨h1, by omega, h3⟩
    · rename_i hf
      rw [ih]
      constructor
      · rintro ⟨h1, h2, h3⟩; exact ⟨h1, by omega, h3⟩
      · rintro ⟨h1, h2, h3⟩
        refine ⟨h1, ?_, h3⟩
        by_contra hc
        have : x = i + 1 := by omega
        subst this; exact hf h3

theorem kidsOf_congr (f g : Nat → Nat) (i p : Nat) (hfg : ∀ x, 1 ≤ x → x ≤ i → f x = g x) :
    kidsOf f i p = kidsOf g i p := by
  induction i with
  | zero => simp [kidsOf]
  | succ i ih =>
    unfold kidsOf
    rw [hfg (i + 1) (by omega) (by omega), ih (fun x h1 h2 => hfg x h1 (by omega))]

theorem length_kidsOf_le (f : Nat → Nat) (i p : Nat) : (kidsOf f i p).length ≤ i := by
  induction i with
  | zero => simp [kidsOf]
  | succ i ih =>
    unfold kidsOf
    split
    · simp only [List.length_cons]; omega
    · omega

theorem Chain.frame (da da1 : List downNode) (c : Int) (xs : List Nat)
    (hc : Chain da c xs)
    (hs : ∀ x ∈ xs, ∀ nd, da[x]? = some nd → ∃ nd1, da1[x]? = some nd1 ∧ nd1.sibling = nd.sibling) :
    Chain da1 c xs := by
  induction xs generalizing c with
  | nil => exact hc
  | cons x xs ih =>
    obtain ⟨h1, nd, h2, h3⟩ := hc
    obtain ⟨nd1, h4, h5⟩ := hs x (List.mem_cons_self _ _) nd h2
    refine ⟨h1, nd1, h4, ?_⟩
    rw [h5]
    exact ih _ h3 (fun y hy => hs y (List.mem_cons_of_mem _ hy))

theorem scan_spec (h : heap α) (d : Nat) (c : α) (xs : List Nat) (fuel : Nat) (c0 : Int)
    (hc : Chain h.downArray c0 xs) (hb : ∀ x ∈ xs, d ≤ x ∧ x < h.text.length)
    (hf : xs.length < fuel) :
    childOnLetter.scan h (d : Int) c fuel c0 = Except.ok (firstOn h.text d c xs) := by
  induction xs generalizing fuel c0 with
  | nil =>
    cases fuel with
    | zero => simp at hf
    | succ fuel =>
      simp only [Chain] at hc
      simp [childOnLetter.scan, hc, firstOn]
  | cons x xs ih =>
    cases fuel with
    | zero => simp at hf
    | succ fuel =>
      obtain ⟨h1, nd, h2, h3⟩ := hc
      obtain ⟨hdx, hxn⟩ := hb x (List.mem_cons_self _ _)
      have hidx : (c0 - (d : Int)) = ((x - d : Nat) : Int) := by omega
      obtain ⟨t, ht⟩ : ∃ t, h.text[x - d]? = some t := by
        have : x - d < h.text.length := by omega
        exact ⟨_, List.getElem?_eq_getElem this⟩
      have hne : c0 ≠ NOCHILD := by simp [NOCHILD]; omega
      simp only [childOnLetter.scan, hne, if_false, hidx, readAt_cast _ _ _ ht, ok_bind]
      by_cases htc : t = c
      · subst htc
        simp [firstOn, List.find?, ht, h1]
      · have hrec := ih fuel nd.sibling h3 (fun y hy => hb y (List.mem_cons_of_mem _ hy))
          (by simpa using hf)
        simp only [ne_eq, htc, not_false_eq_true, if_true, h1, readAt_cast _ _ _ h2, ok_bind,
          downNode.getSibling, hrec]
        simp [firstOn, List.find?, ht, htc]

theorem childOnLetter_spec (h : heap α) (p d : Nat) (c : α) (xs : List Nat)
    (hk : Kids h.downArray p xs) (hb : ∀ x ∈ xs, d ≤ x ∧ x < h.text.length)
    (hf : xs.length < h.fuel) :
    childOnLetter h (p : Int) (d : Int) c = Except.ok (firstOn h.text d c xs) := by
  obtain ⟨nd, h1, h2⟩ := hk
  simp only [childOnLetter, readAt_cast _ _ _ h1, ok_bind, downNode.getChild]
  exact scan_spec h d c xs _ _ h2 hb hf

theorem firstOn_eq_NOCHILD (text : List α) (d : Nat) (c : α) (xs : List Nat) :
    firstOn text d c xs = NOCHILD ↔ ∀ x ∈ xs, text[x - d]? ≠ some c := by
  unfold firstOn
  cases hfind : xs.find? (fun x => decide (text[x - d]? = some c)) with
  | none =>
    simp only [true_iff]
    intro x hx
    have := List.find?_eq_none.mp hfind x hx
    simpa using this
  | some y =>
    have h1 := List.find?_some hfind
    have h2 := List.mem_of_find?_eq_some hfind
    simp only [NOCHILD]
    constructor
    · intro h; omega
    · intro h; exact absurd (by simpa using h1) (h y h2)

theorem firstOn_eq_cast (text : List α) (d : Nat) (c : α) (xs : List Nat) (r : Int)
    (hr : firstOn text d c xs = r) (hne : r ≠ NOCHILD) :
    ∃ x : Nat, r = (x : Int) ∧ x ∈ xs ∧ text[x - d]? = some c := by
  unfold firstOn at hr
  cases hfind : xs.find? (fun x => decide (text[x - d]? = some c)) with
  | none => rw [hfind] at hr; exact absurd hr.symm hne
  | some y =>
    rw [hfind] at hr
    have h1 := List.find?_some hfind
    have h2 := List.mem_of_find?_eq_some hfind
    exact ⟨y, hr.symm, h2, by simpa using h1⟩

/-! ## The tree given by a parent function -/

theorem Anc.inv {par : Nat → Nat} {a j : Nat} (h : Anc par a j) :
    a = j ∨ (1 ≤ j ∧ Anc par a (par j)) := by
  cases h with
  | refl => exact Or.inl rfl
  | step h1 h2 => exact Or.inr ⟨h1, h2⟩

theorem Anc.compose {par : Nat → Nat} {a b j : Nat} (h1 : Anc par a b) (h2 : Anc par b j) :
    Anc par a j := by
  induction h2 with
  | refl => exact h1
  | step hj _ ih => exact Anc.step hj ih

section ShapeFacts
variable {text : List α} {i : Nat} {par dep dpar : Nat → Nat}

theorem Shape.anc_le (S : Shape text i par dep dpar) {a j : Nat} (hj : j ≤ i)
    (h : Anc par a j) : a ≤ j := by
  induction h with
  | refl => exact Nat.le_refl _
  | step h1 _ ih =>
    have := S.par_lt _ h1 hj
    have := ih (by omega)
    omega

theorem Shape.anc_dep_le (S : Shape text i par dep dpar) {a j : Nat} (hj : j ≤ i)
    (h : Anc par a j) : dep a ≤ dep j := by
  induction h with
  | refl => exact Nat.le_refl _
  | step h1 _ ih =>
    have := S.par_lt _ h1 hj
    have := S.dep_succ _ h1 hj
    have := ih (by omega)
    omega

theorem Shape.anc_same_dep (S : Shape text i par dep dpar) {a j : Nat} (hj : j ≤ i)
    (h : Anc par a j) (hd : dep j ≤ dep a) : a = j := by
  rcases h.inv with h0 | ⟨h1, h2⟩
  · exact h0
  · have := S.par_lt _ h1 hj
    have := S.dep_succ _ h1 hj
    have := S.anc_dep_le (by omega : par j ≤ i) h2
    omega

theorem Shape.anc_path (S : Shape text i par dep dpar) {a j : Nat} (hj : j ≤ i)
    (h : Anc par a j) : ∀ k, k < dep a → text[a - k]? = text[j - k]? := by
  induction h with
  | refl => intro k _; rfl
  | @step j h1 h2 ih =>
    intro k hk
    have hp := S.par_lt _ h1 hj
    have hle := S.anc_dep_le (by omega : par j ≤ i) h2
    rw [ih (by omega) k hk]
    exact S.path j h1 hj k (by omega)

theorem Shape.anc_root (S : Shape text i par dep dpar) {j : Nat} (hj : j ≤ i) :
    Anc par 0 j := by
  induction j using Nat.strong_induction_on with
  | _ j ih =>
    by_cases h0 : j = 0
    · subst h0; exact Anc.refl 0
    · have hp := S.par_lt j (by omega) hj
      exact Anc.step (by omega) (ih _ hp (by omega))

theorem Shape.dep_eq_zero (S : Shape text i par dep dpar) {j : Nat} (hj : j ≤ i)
    (h : dep j = 0) : j = 0 := by
  by_contra h0
  have := S.dep_succ j (by omega) hj
  omega

theorem Shape.anc_at_depth (S : Shape text i par dep dpar) {j : Nat} (hj : j ≤ i) (d : Nat)
    (hd : d ≤ dep j) : ∃ a, Anc par a j ∧ dep a = d := by
  induction j using Nat.strong_induction_on with
  | _ j ih =>
    by_cases hdj : d = dep j
    · exact ⟨j, Anc.refl j, hdj.symm⟩
    · have hj1 : 1 ≤ j := by
        by_contra h0
        have : j = 0 := by omega
        subst this
        have := S.dep_zero
        omega
      have hp := S.par_lt j hj1 hj
      have hs := S.dep_succ j hj1 hj
      obtain ⟨a, ha, hda⟩ := ih _ hp (by omega) (by omega)
      exact ⟨a, Anc.step hj1 ha, hda⟩

theorem Shape.anc_of_path (S : Shape text i par dep dpar) {y j : Nat} (hy : y ≤ i)
    (hj : j ≤ i) (hd : dep y ≤ dep j)
    (hp : ∀ k, k < dep y → text[y - k]? = text[j - k]?) : Anc par y j := by
  obtain ⟨a, ha, hda⟩ := S.anc_at_depth hj (dep y) hd
  have hai : a ≤ i := le_trans (S.anc_le hj ha) hj
  have : y = a := by
    apply S.uniq y a hy hai hda.symm
    intro k hk
    rw [hp k hk]
    exact (S.anc_path hj ha k (by omega)).symm
  subst this
  exact ha

theorem Shape.anc_linear (S : Shape text i par dep dpar) {a b j : Nat} (hj : j ≤ i)
    (ha : Anc par a j) (hb : Anc par b j) (hd : dep a ≤ dep b) : Anc par a b := by
  induction hb with
  | refl => exact ha
  | @step j h1 h2 ih =>
    have hp := S.par_lt _ h1 hj
    rcases ha.inv with h0 | ⟨_, h3⟩
    · subst h0
      have := S.dep_succ _ h1 hj
      have := S.anc_dep_le (by omega : par a ≤ i) h2
      omega
    · exact ih (by omega) h3

theorem upd_le (f : Nat → Nat) (i v j : Nat) (hj : j ≤ i) :
    Function.update f (i + 1) v j = f j :=
  Function.update_noteq (by omega) _ _

theorem upd_new (f : Nat → Nat) (i v : Nat) : Function.update f (i + 1) v (i + 1) = v :=
  Function.update_same _ _ _

theorem Shape.extend (S : Shape text i par dep dpar) (hm : i + 1 < text.length) (x q : Nat)
    (hx : x ≤ i) (hq : q ≤ i) (hdq : dep q = dep x) (hdm : dep x ≤ i)
    (hpath : ∀ k, k < dep x → text[x - k]? = text[i + 1 - k]?)
    (hdpath : ∀ k, k < dep q → text[q - k]? = text[i - k]?)
    (hnew : ∀ y, y ≤ i → dep y = dep x + 1 →
      ¬ (∀ k, k < dep x + 1 → text[y - k]? = text[i + 1 - k]?)) :
    Shape text (i + 1) (Function.update par (i + 1) x) (Function.update dep (i + 1) (dep x + 1))
      (Function.update dpar (i + 1) q) := by
  have old : ∀ j, j ≤ i + 1 → j ≠ i + 1 → j ≤ i := fun j h1 h2 => by omega
  refine ⟨hm, ?_, ?_, ?_, ?_, ?_, ?_, ?_, ?_, ?_⟩
  · intro j h1 h2
    by_cases hj : j = i + 1
    · subst hj; rw [upd_new]; omega
    · rw [upd_le _ _ _ _ (old j h2 hj)]; exact S.par_lt j h1 (old j h2 hj)
  · rw [upd_le _ _ _ _ (Nat.zero_le i)]; exact S.dep_zero
  · intro j h1 h2
    by_cases hj : j = i + 1
    · subst hj; rw [upd_new, upd_new, upd_le _ _ _ _ hx]
    · have hj2 := old j h2 hj
      have := S.par_lt j h1 hj2
      rw [upd_le _ _ _ _ hj2, upd_le _ _ _ _ hj2, upd_le _ _ _ _ (by omega)]
      exact S.dep_succ j h1 hj2
  · intro j h2
    by_cases hj : j = i + 1
    · subst hj; rw [upd_new]; omega
    · have hj2 := old j h2 hj
      rw [upd_le _ _ _ _ hj2]
      exact S.dep_le j hj2
  · intro j h1 h2
    by_cases hj : j = i + 1
    · subst hj; rw [upd_new, upd_le _ _ _ _ hx]; exact hpath
    · have hj2 := old j h2 hj
      have := S.par_lt j h1 hj2
      rw [upd_le _ _ _ _ hj2, upd_le _ _ _ _ (by omega)]
      exact S.path j h1 hj2
  · intro y z hy hz
    by_cases hyn : y = i + 1
    · by_cases hzn : z = i + 1
      · intro _ _; rw [hyn, hzn]
      · have hz2 := old z hz hzn
        subst hyn
        rw [upd_new, upd_le _ _ _ _ hz2]
        intro hd hk
        exact absurd (fun k hk1 => (hk k hk1).symm) (hnew z hz2 hd.symm)
    · have hy2 := old y hy hyn
      by_cases hzn : z = i + 1
      · subst hzn
        rw [upd_new, upd_le _ _ _ _ hy2]
        intro hd hk
        exact absurd (fun k hk1 => hk k (by omega)) (hnew y hy2 hd)
      · have hz2 := old z hz hzn
        rw [upd_le _ _ _ _ hy2, upd_le _ _ _ _ hz2]
        exact S.uniq y z hy2 hz2
  · intro j h1 h2
    by_cases hj : j = i + 1
    · subst hj; rw [upd_new]; omega
    · rw [upd_le _ _ _ _ (old j h2 hj)]; exact S.dpar_lt j h1 (old j h2 hj)
  · intro j h1 h2
    by_cases hj : j = i + 1
    · subst hj; rw [upd_new, upd_new, upd_le _ _ _ _ hq, hdq]
    · have hj2 := old j h2 hj
      have := S.dpar_lt j h1 hj2
      rw [upd_le _ _ _ _ hj2, upd_le _ _ _ _ hj2, upd_le _ _ _ _ (by omega)]
      exact S.dep_dpar j h1 hj2
  · intro j h1 h2
    by_cases hj : j = i + 1
    · subst hj
      rw [upd_new, upd_le _ _ _ _ hq]
      intro k hk
      have := hdpath k hk
      simpa using this
    · have hj2 := old j h2 hj
      have := S.dpar_lt j h1 hj2
      rw [upd_le _ _ _ _ hj2, upd_le _ _ _ _ (by omega)]
      exact S.dpath j h1 hj2

end ShapeFacts
/-! ## The construction loop of `build` -/

theorem insertChild_ok (h : heap α) (m q : Nat) (ndq : downNode)
    (hm : m < h.downArray.length) (hq : h.downArray[q]? = some ndq) (hmq : m ≠ q) :
    ∃ da2, insertChild h (m : Int) (q : Int) = Except.ok { h with downArray := da2 } ∧
      da2.length = h.downArray.length ∧
      ∀ x nd, h.downArray[x]? = some nd → ∃ nd2, da2[x]? = some nd2 ∧
        nd2.child = (if x = q then (m : Int) else nd.child) ∧
        nd2.sibling = (if x = m then ndq.child else nd.sibling) := by
  obtain ⟨ndm, hndm⟩ : ∃ ndm, h.downArray[m]? = some ndm :=
    ⟨_, List.getElem?_eq_getElem hm⟩
  have hq1 : q < h.downArray.length := by
    obtain ⟨hh, _⟩ := List.getElem?_eq_some.mp hq
    exact hh
  have hq2 : (h.downArray.set m (ndm.setSibling ndq.getChild))[q]? = some ndq := by
    rw [List.getElem?_set_ne hmq]; exact hq
  refine ⟨(h.downArray.set m (ndm.setSibling ndq.getChild)).set q (ndq.setChild m), ?_, ?_, ?_⟩
  · simp only [insertChild, readAt_cast _ _ _ hq, readAt_cast _ _ _ hndm, ok_bind,
      writeAt_cast _ _ _ hm, readAt_cast _ _ _ hq2]
    rw [writeAt_cast _ _ _ (by simpa using hq1)]
    rfl
  · simp
  · intro x nd hx
    have hxl : x < h.downArray.length := by
      obtain ⟨hh, _⟩ := List.getElem?_eq_some.mp hx
      exact hh
    by_cases hxq : x = q
    · subst hxq
      have : nd = ndq := by rw [hq] at hx; exact (Option.some.inj hx).symm
      subst this
      refine ⟨nd.setChild m, ?_, ?_, ?_⟩
      · rw [List.getElem?_set_self (by simpa using hxl)]
      · simp [downNode.setChild]
      · simp [downNode.setChild, Ne.symm hmq]
    · rw [List.getElem?_set_ne (Ne.symm hxq)]
      by_cases hxm : x = m
      · subst hxm
        have : nd = ndm := by rw [hndm] at hx; exact (Option.some.inj hx).symm
        subst this
        refine ⟨nd.setSibling ndq.getChild, ?_, ?_, ?_⟩
        · rw [List.getElem?_set_self hxl]
        · simp [downNode.setSibling, hxq]
        · simp [downNode.setSibling, downNode.getChild]
      · rw [List.getElem?_set_ne (Ne.symm hxm)]
        exact ⟨nd, hx, by simp [hxq], by simp [hxm]⟩

theorem insertChild_kids_on (P : Nat → Prop) (h : heap α) (m q : Nat) (ks : Nat → List Nat)
    (hm : m < h.downArray.length) (hq : P q) (hmq : m ≠ q)
    (hk : ∀ p, P p → Kids h.downArray p (ks p))
    (fresh : ∀ p, P p → m ∉ ks p) :
    ∃ da2, insertChild h (m : Int) (q : Int) = Except.ok { h with downArray := da2 } ∧
      da2.length = h.downArray.length ∧
      ∀ p, P p → Kids da2 p (if p = q then m :: ks q else ks p) := by
  obtain ⟨ndq, hndq, hcq⟩ := hk q hq
  obtain ⟨da2, h1, h2, h3⟩ := insertChild_ok h m q ndq hm hndq hmq
  refine ⟨da2, h1, h2, ?_⟩
  have frame : ∀ c xs, Chain h.downArray c xs → m ∉ xs → Chain da2 c xs := by
    intro c xs hc hx
    apply Chain.frame _ _ _ _ hc
    intro x hxm nd hnd
    obtain ⟨nd2, h4, _, h6⟩ := h3 x nd hnd
    refine ⟨nd2, h4, ?_⟩
    rw [h6, if_neg]
    rintro rfl
    exact hx hxm
  intro p hp
  obtain ⟨ndp, hndp, hcp⟩ := hk p hp
  obtain ⟨nd2, h4, h5, h6⟩ := h3 p ndp hndp
  by_cases hpq : p = q
  · subst hpq
    rw [if_pos rfl]
    refine ⟨nd2, h4, ?_⟩
    rw [h5, if_pos rfl]
    obtain ⟨ndm, hndm⟩ : ∃ ndm, h.downArray[m]? = some ndm :=
      ⟨_, List.getElem?_eq_getElem hm⟩
    obtain ⟨ndm2, h7, _, h9⟩ := h3 m ndm hndm
    refine ⟨rfl, ndm2, h7, ?_⟩
    rw [h9, if_pos rfl]
    have : ndp = ndq := by rw [hndq] at hndp; exact (Option.some.inj hndp).symm
    subst this
    exact frame _ _ hcq (fresh p hp)
  · rw [if_neg hpq]
    refine ⟨nd2, h4, ?_⟩
    rw [h5, if_neg hpq]
    exact frame _ _ hcp (fresh p hp)

theorem insertChild_kids (h : heap α) (m q : Nat) (ks : Nat → List Nat)
    (hm : m < h.downArray.length) (hq : q < h.downArray.length) (hmq : m ≠ q)
    (hk : ∀ p, p < h.downArray.length → Kids h.downArray p (ks p))
    (fresh : ∀ p, p < h.downArray.length → m ∉ ks p) :
    ∃ da2, insertChild h (m : Int) (q : Int) = Except.ok { h with downArray := da2 } ∧
      da2.length = h.downArray.length ∧
      ∀ p, p < h.downArray.length → Kids da2 p (if p = q then m :: ks q else ks p) :=
  insertChild_kids_on (fun p => p < h.downArray.length) h m q ks hm hq hmq hk fresh

theorem kidsOf_update (f : Nat → Nat) (i q p : Nat) :
    kidsOf (Function.update f (i + 1) q) (i + 1) p =
      if p = q then (i + 1) :: kidsOf f i p else kidsOf f i p := by
  have hc : kidsOf (Function.update f (i + 1) q) i p = kidsOf f i p :=
    kidsOf_congr _ _ _ _ (fun x _ h2 => upd_le f i q x h2)
  rw [kidsOf, upd_new, hc]
  by_cases hpq : p = q
  · subst hpq; simp
  · rw [if_neg hpq, if_neg (Ne.symm hpq)]

theorem fuel_eq (h : heap α) (htl : h.textLength = (h.text.length : Int)) :
    h.fuel = h.text.length + 1 := by
  simp [heap.fuel, htl]

theorem DualRep.dualChild (R : DualRep h i par dpar) (hi : i < h.text.length) (p : Nat)
    (hp : p < h.text.length) (c : α) :
    childOnLetter h (p : Int) 0 c = Except.ok (firstOn h.text 0 c (kidsOf dpar i p)) := by
  have := childOnLetter_spec h p 0 c (kidsOf dpar i p) (R.kids p hp)
    (fun x hx => by
      have := (mem_kidsOf dpar i p x).mp hx
      omega)
    (by
      rw [fuel_eq h R.tl]
      have := length_kidsOf_le dpar i p
      omega)
  simpa using this

theorem climb_spec {text : List α} {par dep dpar : Nat → Nat} {h : heap α} {i : Nat}
    (S : Shape text i par dep dpar) (ht : h.text = text)
    (R : DualRep h i par dpar) (c : α)
    (hroot : firstOn h.text 0 c (kidsOf dpar i 0) ≠ NOCHILD) :
    ∀ fuel j, 1 ≤ j → j ≤ i → j ≤ fuel →
      ∃ prev x : Nat, build.climb h c fuel (j : Int)
          = Except.ok ((prev : Int), ((par prev : Nat) : Int), (x : Int)) ∧
        1 ≤ prev ∧ Anc par prev j ∧ x ∈ kidsOf dpar i (par prev) ∧ h.text[x]? = some c ∧
        ∀ q, Anc par q j → q ≠ j → dep prev ≤ dep q →
          ∀ y ∈ kidsOf dpar i q, h.text[y]? ≠ some c := by
  subst ht
  intro fuel
  induction fuel with
  | zero => intro j h1 _ h3; omega
  | succ fuel ih =>
    intro j h1 h2 h3
    have hp := S.par_lt j h1 h2
    have hi := S.i_lt
    simp only [build.climb, readInit_cast _ _ _ (R.parent_eq j h1 h2), ok_bind,
      R.dualChild hi (par j) (by omega) c]
    by_cases hno : firstOn h.text 0 c (kidsOf dpar i (par j)) = NOCHILD
    · rw [if_pos hno]
      have hp1 : 1 ≤ par j := by
        by_contra h0
        have : par j = 0 := by omega
        rw [this] at hno
        exact hroot hno
      obtain ⟨prev, x, e1, e2, e3, e4, e5, e6⟩ := ih (par j) hp1 (by omega) (by omega)
      refine ⟨prev, x, e1, e2, Anc.step h1 e3, e4, e5, ?_⟩
      intro q hq hqj hd y hy
      rcases hq.inv with h0 | ⟨_, hq2⟩
      · exact absurd h0 hqj
      · by_cases hqp : q = par j
        · subst hqp
          have := (firstOn_eq_NOCHILD h.text 0 c _).mp hno y hy
          simpa using this
        · exact e6 q hq2 hqp hd y hy
    · rw [if_neg hno]
      obtain ⟨x, hx1, hx2, hx3⟩ := firstOn_eq_cast h.text 0 c _ _ rfl hno
      refine ⟨j, x, by rw [hx1], h1, Anc.refl j, hx2, by simpa using hx3, ?_⟩
      intro q hq hqj hd
      exact absurd (S.anc_same_dep h2 hq hd) hqj

theorem step_tail {h : heap α} {i : Nat} {par dpar : Nat → Nat}
    (R : DualRep h i par dpar) (hm : i + 1 < h.text.length) (x q : Nat) (hq : q ≤ i) :
    ∃ h1, (writeAt h.parent ((i + 1 : Nat) : Int) (some (x : Int)) >>= fun parent1 =>
        insertChild { h with parent := parent1 } ((i + 1 : Nat) : Int) (q : Int) >>= fun h1 =>
        Except.ok (h1, some (((i + 1 : Nat) : Int)))) = Except.ok (h1, some (((i + 1 : Nat) : Int))) ∧
      SameText h h1 ∧
      DualRep h1 (i + 1) (Function.update par (i + 1) x) (Function.update dpar (i + 1) q) := by
  rw [writeAt_cast _ _ _ (by rw [R.len_parent]; exact hm), ok_bind]
  obtain ⟨da2, e1, e2, e3⟩ := insertChild_kids
    { h with parent := h.parent.set (i + 1) (some (x : Int)) } (i + 1) q (kidsOf dpar i)
    (by show i + 1 < h.downArray.length; rw [R.len_da]; exact hm)
    (by show q < h.downArray.length; rw [R.len_da]; omega)
    (by omega)
    (fun p hp => R.kids p (by rw [← R.len_da]; exact hp))
    (fun p _ hmem => by
      have := (mem_kidsOf dpar i p (i + 1)).mp hmem
      omega)
  rw [e1, ok_bind]
  refine ⟨_, rfl, ⟨rfl, rfl, rfl, rfl, rfl⟩, ⟨R.tl, ?_, ?_, ?_, ?_⟩⟩
  · show (h.parent.set (i + 1) (some (x : Int))).length = h.text.length
    rw [List.length_set]; exact R.len_parent
  · show da2.length = h.text.length
    rw [e2]; exact R.len_da
  · intro j h1 h2
    show (h.parent.set (i + 1) (some (x : Int)))[j]? = _
    by_cases hj : j = i + 1
    · subst hj
      rw [List.getElem?_set_self (by rw [R.len_parent]; exact hm), upd_new]
    · rw [List.getElem?_set_ne (Ne.symm hj), upd_le _ _ _ _ (by omega)]
      exact R.parent_eq j h1 (by omega)
  · intro p hp
    show Kids da2 p _
    rw [kidsOf_update]
    have := e3 p (by show p < h.downArray.length; rw [R.len_da]; exact hp)
    by_cases hpq : p = q
    · subst hpq; simpa using this
    · simpa [hpq] using this

theorem build_step_spec {h : heap α} {i : Nat} {par dep dpar : Nat → Nat}
    (S : Shape h.text i par dep dpar) (R : DualRep h i par dpar) (hm : i + 1 < h.text.length)
    (pn : Option Int) (hpn : 1 ≤ i → pn = some (i : Int)) :
    ∃ h1 x q, build.step ((i + 1 : Nat) : Int) (h, pn)
        = Except.ok (h1, some (((i + 1 : Nat) : Int))) ∧
      SameText h h1 ∧
      Shape h.text (i + 1) (Function.update par (i + 1) x)
        (Function.update dep (i + 1) (dep x + 1)) (Function.update dpar (i + 1) q) ∧
      DualRep h1 (i + 1) (Function.update par (i + 1) x) (Function.update dpar (i + 1) q) := by
  obtain ⟨c, hc⟩ : ∃ c, h.text[i + 1]? = some c := ⟨_, List.getElem?_eq_getElem hm⟩
  have hi := S.i_lt
  have hroot := R.dualChild hi 0 (by omega) c
  simp only [Nat.cast_zero] at hroot
  simp only [build.step, readAt_cast _ _ _ hc, ok_bind, hroot]
  by_cases hno : firstOn h.text 0 c (kidsOf dpar i 0) = NOCHILD
  · rw [if_pos hno]
    obtain ⟨h1, e1, e2, e3⟩ := step_tail R hm 0 0 (Nat.zero_le i)
    refine ⟨h1, 0, 0, ?_, e2, ?_, e3⟩
    · simpa using e1
    · apply S.extend hm 0 0 (Nat.zero_le i) (Nat.zero_le i) rfl
      · rw [S.dep_zero]; exact Nat.zero_le i
      · intro k hk; rw [S.dep_zero] at hk; omega
      · intro k hk; rw [S.dep_zero] at hk; omega
      · intro y hy hdy hk
        rw [S.dep_zero] at hdy hk
        have hy1 : 1 ≤ y := by
          by_contra h0
          have : y = 0 := by omega
          subst this
          have := S.dep_zero
          omega
        have hq0 : dpar y = 0 := by
          apply S.dep_eq_zero (by have := S.dpar_lt y hy1 hy; omega)
          have := S.dep_dpar y hy1 hy
          omega
        have hmem : y ∈ kidsOf dpar i 0 := (mem_kidsOf dpar i 0 y).mpr ⟨hy1, hy, hq0⟩
        have := (firstOn_eq_NOCHILD h.text 0 c _).mp hno y hmem
        apply this
        have := hk 0 (by omega)
        simpa [hc] using this
  · rw [if_neg hno]
    obtain ⟨x0, _, hx0, _⟩ := firstOn_eq_cast h.text 0 c _ _ rfl hno
    have hi1 : 1 ≤ i := by
      have := (mem_kidsOf dpar i 0 x0).mp hx0
      omega
    obtain ⟨prev, x, e1, e2, e3, e4, e5, e6⟩ :=
      climb_spec S rfl R c hno h.fuel i hi1 (Nat.le_refl i)
        (by rw [fuel_eq h R.tl]; omega)
    simp only [hpn hi1, initialised, ok_bind, e1]
    have hprev : prev ≤ i := S.anc_le (Nat.le_refl i) e3
    obtain ⟨hx1, hx2, hx3⟩ := (mem_kidsOf dpar i _ x).mp e4
    obtain ⟨h1, f1, f2, f3⟩ := step_tail R hm x prev hprev
    refine ⟨h1, x, prev, f1, f2, ?_, f3⟩
    have hdprev := S.dep_succ prev e2 hprev
    have hdx := S.dep_dpar x hx1 hx2
    rw [hx3] at hdx
    have hdpi := S.anc_dep_le (Nat.le_refl i) e3
    have hdi := S.dep_le i (Nat.le_refl i)
    have hancp : Anc par (par prev) i := Anc.compose (Anc.step e2 (Anc.refl _)) e3
    apply S.extend hm x prev hx2 hprev (by omega) (by omega)
    · intro k hk
      by_cases hk0 : k = 0
      · subst hk0
        simpa [hc] using e5
      · have h1 := S.dpath x hx1 hx2 (k - 1) (by rw [hx3]; omega)
        have h2 := S.anc_path (Nat.le_refl i) hancp (k - 1) (by omega)
        rw [hx3] at h1
        have e1 : x - k = x - 1 - (k - 1) := by omega
        have e2 : i + 1 - k = i - (k - 1) := by omega
        rw [e1, e2, ← h1, h2]
    · exact S.anc_path (Nat.le_refl i) e3
    · intro y hy hdy hk
      have hy1 : 1 ≤ y := by
        by_contra h0
        have : y = 0 := by omega
        subst this
        have := S.dep_zero
        omega
      have hq := S.dpar_lt y hy1 hy
      have hdq := S.dep_dpar y hy1 hy
      have hqp : dpar y = prev := by
        apply S.uniq (dpar y) prev (by omega) hprev (by omega)
        intro k hk1
        rw [S.dpath y hy1 hy k hk1, S.anc_path (Nat.le_refl i) e3 k (by omega)]
        have := hk (k + 1) (by omega)
        have e1 : y - 1 - k = y - (k + 1) := by omega
        have e2 : i - k = i + 1 - (k + 1) := by omega
        rw [e1, e2]; exact this
      have hmem : y ∈ kidsOf dpar i prev := (mem_kidsOf dpar i prev y).mpr ⟨hy1, hy, hqp⟩
      have hyc : h.text[y]? = some c := by
        have := hk 0 (by omega)
        simpa [hc] using this
      by_cases hpi : prev = i
      · omega
      · exact e6 prev e3 hpi (Nat.le_refl _) y hmem hyc

theorem SameText.same (h : heap α) : SameText h h := ⟨rfl, rfl, rfl, rfl, rfl⟩

theorem SameText.andThen {h h1 h2 : heap α} (a : SameText h h1) (b : SameText h1 h2) :
    SameText h h2 :=
  ⟨b.text.trans a.text, b.textLength.trans a.textLength, b.maxReach.trans a.maxReach,
    b.discoveryTime.trans a.discoveryTime, b.finishingTime.trans a.finishingTime⟩

theorem build_loop_spec (k : Nat) : ∀ (i : Nat) (h : heap α) (pn : Option Int)
    (par dep dpar : Nat → Nat), Shape h.text i par dep dpar → DualRep h i par dpar →
    i + k < h.text.length → (1 ≤ i → pn = some (i : Int)) →
    ∃ h1 pn1 par1 dep1 dpar1,
      forLoop build.step k (((i + 1 : Nat) : Int)) (h, pn) = Except.ok (h1, pn1) ∧
      SameText h h1 ∧ Shape h.text (i + k) par1 dep1 dpar1 ∧ DualRep h1 (i + k) par1 dpar1 := by
  induction k with
  | zero =>
    intro i h pn par dep dpar S R _ _
    exact ⟨h, pn, par, dep, dpar, rfl, SameText.same h, S, R⟩
  | succ k ih =>
    intro i h pn par dep dpar S R hk hpn
    obtain ⟨h1, x, q, e1, e2, e3, e4⟩ := build_step_spec S R (by omega) pn hpn
    rw [← e2.text] at e3
    obtain ⟨h2, pn2, par2, dep2, dpar2, f1, f2, f3, f4⟩ :=
      ih (i + 1) h1 (some (((i + 1 : Nat) : Int))) _ _ _ e3 e4
        (by rw [e2.text]; omega) (fun _ => rfl)
    refine ⟨h2, pn2, par2, dep2, dpar2, ?_, e2.andThen f2, ?_, ?_⟩
    · rw [forLoop, e1, ok_bind]
      have : (((i + 1 : Nat) : Int)) + 1 = (((i + 1 + 1 : Nat)) : Int) := by push_cast; ring
      rw [this]; exact f1
    · rw [e2.text] at f3
      have : i + (k + 1) = i + 1 + k := by omega
      rw [this]; exact f3
    · have : i + (k + 1) = i + 1 + k := by omega
      rw [this]; exact f4

/-- The state of the members set up by the constructor, before `build` runs. -/
theorem initial_shape (text : List α) (hn : 0 < text.length) :
    Shape text 0 (fun _ => 0) (fun _ => 0) (fun _ => 0) := by
  refine ⟨hn, ?_, rfl, ?_, ?_, ?_, ?_, ?_, ?_, ?_⟩
  · intro j h1 h2; omega
  · intro j h1 h2; omega
  · intro j _; exact Nat.zero_le j
  · intro j h1 h2; omega
  · intro y z hy hz _ _; omega
  · intro j h1 h2; omega
  · intro j h1 h2; omega
  · intro j h1 h2; omega

theorem initial_rep (h : heap α) (n : Nat) (htl : h.textLength = (n : Int))
    (hlen : h.text.length = n) (hp : h.parent.length = n)
    (hda : h.downArray = List.replicate n downNode.new) :
    DualRep h 0 (fun _ => 0) (fun _ => 0) := by
  refine ⟨by rw [htl, hlen], by rw [hp, hlen], by rw [hda, hlen]; simp, ?_, ?_⟩
  · intro j h1 h2; omega
  · intro p hp1
    refine ⟨downNode.new, ?_, ?_⟩
    · rw [hda, List.getElem?_replicate, if_pos (by omega)]
    · simp [kidsOf, Chain, downNode.new]

/-! ## Installation of the maximal-reach pointers -/

theorem DualRep.transfer {h h1 : heap α} {i : Nat} {par dpar : Nat → Nat}
    (R : DualRep h i par dpar) (e1 : h1.text = h.text) (e2 : h1.textLength = h.textLength)
    (e3 : h1.parent = h.parent) (e4 : h1.downArray = h.downArray) : DualRep h1 i par dpar := by
  refine ⟨by rw [e1, e2]; exact R.tl, by rw [e1, e3]; exact R.len_parent,
    by rw [e1, e4]; exact R.len_da, ?_, ?_⟩
  · intro j h1j h2j; rw [e3]; exact R.parent_eq j h1j h2j
  · intro p hp; rw [e4]; exact R.kids p (by rw [← e1]; exact hp)

theorem climb2_spec {h : heap α} {N : Nat} {par dep dpar : Nat → Nat}
    (S : Shape h.text N par dep dpar) (R : DualRep h N par dpar) (c : α)
    (hroot : firstOn h.text 0 c (kidsOf dpar N 0) ≠ NOCHILD) :
    ∀ fuel j, j ≤ N → j < fuel →
      ∃ p x : Nat, installMaxReaches.climb h c fuel (j : Int)
          (firstOn h.text 0 c (kidsOf dpar N j)) = Except.ok ((p : Int), (x : Int)) ∧
        Anc par p j ∧ x ∈ kidsOf dpar N p ∧ h.text[x]? = some c ∧
        ∀ q, Anc par q j → dep p < dep q → ∀ y ∈ kidsOf dpar N q, h.text[y]? ≠ some c := by
  intro fuel
  induction fuel with
  | zero => intro j _ h3; omega
  | succ fuel ih =>
    intro j h2 h3
    have hi := S.i_lt
    by_cases hno : firstOn h.text 0 c (kidsOf dpar N j) = NOCHILD
    · have h1 : 1 ≤ j := by
        by_contra h0
        have : j = 0 := by omega
        rw [this] at hno
        exact hroot hno
      have hp := S.par_lt j h1 h2
      simp only [installMaxReaches.climb, hno, if_true,
        readInit_cast _ _ _ (R.parent_eq j h1 h2), ok_bind, R.dualChild hi (par j) (by omega) c]
      obtain ⟨p, x, e1, e2, e3, e4, e5⟩ := ih (par j) (by omega) (by omega)
      refine ⟨p, x, e1, Anc.step h1 e2, e3, e4, ?_⟩
      intro q hq hd y hy
      rcases hq.inv with h0 | ⟨_, hq2⟩
      · subst h0
        have := (firstOn_eq_NOCHILD h.text 0 c _).mp hno y hy
        simpa using this
      · exact e5 q hq2 hd y hy
    · obtain ⟨x, hx1, hx2, hx3⟩ := firstOn_eq_cast h.text 0 c _ _ rfl hno
      simp only [installMaxReaches.climb, hno, if_false]
      refine ⟨j, x, by rw [hx1], Anc.refl j, hx2, by simpa using hx3, ?_⟩
      intro q hq hd
      have := S.anc_dep_le h2 hq
      omega

theorem Shape.root_child (S : Shape text N par dep dpar) {m : Nat} (h1 : 1 ≤ m) (h2 : m ≤ N)
    (c : α) (hc : text[m]? = some c) : firstOn text 0 c (kidsOf dpar N 0) ≠ NOCHILD := by
  have hd := S.dep_succ m h1 h2
  obtain ⟨a, ha, hda⟩ := S.anc_at_depth h2 1 (by omega)
  have haN : a ≤ N := le_trans (S.anc_le h2 ha) h2
  have ha1 : 1 ≤ a := by
    by_contra h0
    have : a = 0 := by omega
    subst this
    have := S.dep_zero
    omega
  have hq0 : dpar a = 0 := by
    apply S.dep_eq_zero (by have := S.dpar_lt a ha1 haN; omega)
    have := S.dep_dpar a ha1 haN
    omega
  have hmem : a ∈ kidsOf dpar N 0 := (mem_kidsOf dpar N 0 a).mpr ⟨ha1, haN, hq0⟩
  intro hno
  apply (firstOn_eq_NOCHILD text 0 c _).mp hno a hmem
  have := S.anc_path h2 ha 0 (by omega)
  simpa [hc] using this

theorem reach_extend {text : List α} {N i : Nat} {par dep dpar mr : Nat → Nat}
    (S : Shape text N par dep dpar) (hN : N + 1 = text.length) (Q : Reach text i dep mr)
    (_hm : i + 1 ≤ N) (c : α)
    (hc : text[i + 1]? = some c) (p x : Nat) (hp : Anc par p (mr i))
    (hx : x ∈ kidsOf dpar N p) (hxc : text[x]? = some c)
    (hrej : ∀ q, Anc par q (mr i) → dep p < dep q → ∀ y ∈ kidsOf dpar N q, text[y]? ≠ some c) :
    Reach text (i + 1) dep (Function.update mr (i + 1) x) := by
  obtain ⟨hx1, hx2, hx3⟩ := (mem_kidsOf dpar N p x).mp hx
  have hmrN : mr i ≤ N := by have := Q.lt i (Nat.le_refl i); omega
  have hdx := S.dep_dpar x hx1 hx2
  rw [hx3] at hdx
  have hdp := S.anc_dep_le hmrN hp
  have hdmr := Q.dep_le i (Nat.le_refl i)
  have old : ∀ j, j ≤ i + 1 → j ≠ i + 1 → j ≤ i := fun j h1 h2 => by omega
  refine ⟨?_, ?_, ?_, ?_⟩
  · intro j hj
    by_cases hjm : j = i + 1
    · subst hjm; rw [upd_new]; omega
    · rw [upd_le _ _ _ _ (old j hj hjm)]; exact Q.lt j (old j hj hjm)
  · intro j hj
    by_cases hjm : j = i + 1
    · subst hjm; rw [upd_new]; omega
    · rw [upd_le _ _ _ _ (old j hj hjm)]; exact Q.dep_le j (old j hj hjm)
  · intro j hj
    by_cases hjm : j = i + 1
    · subst hjm
      rw [upd_new]
      intro k hk
      by_cases hk0 : k = 0
      · subst hk0; simpa [hc] using hxc
      · have h1 := S.dpath x hx1 hx2 (k - 1) (by rw [hx3]; omega)
        have h2 := S.anc_path hmrN hp (k - 1) (by omega)
        have h3 := Q.path i (Nat.le_refl i) (k - 1) (by omega)
        rw [hx3] at h1
        have e1 : x - k = x - 1 - (k - 1) := by omega
        have e2 : i + 1 - k = i - (k - 1) := by omega
        rw [e1, e2, ← h1, h2, h3]
    · rw [upd_le _ _ _ _ (old j hj hjm)]; exact Q.path j (old j hj hjm)
  · intro j hj
    by_cases hjm : j = i + 1
    · subst hjm
      rw [upd_new]
      intro y hy hdy hk
      by_cases hy0 : dep y = 0
      · omega
      · have hyN : y ≤ N := by omega
        have hy1 : 1 ≤ y := by
          by_contra h0
          have : y = 0 := by omega
          subst this
          exact hy0 S.dep_zero
        have hq := S.dpar_lt y hy1 hyN
        have hdq := S.dep_dpar y hy1 hyN
        have hqpath : ∀ k, k < dep (dpar y) → text[dpar y - k]? = text[i - k]? := by
          intro k hk1
          rw [S.dpath y hy1 hyN k hk1]
          have := hk (k + 1) (by omega)
          have e1 : y - 1 - k = y - (k + 1) := by omega
          have e2 : i - k = i + 1 - (k + 1) := by omega
          rw [e1, e2]; exact this
        have hqd := Q.max i (Nat.le_refl i) (dpar y) (by omega) (by omega) hqpath
        have hqanc : Anc par (dpar y) (mr i) := by
          apply S.anc_of_path (by omega) hmrN hqd
          intro k hk1
          rw [hqpath k hk1]
          exact (Q.path i (Nat.le_refl i) k (by omega)).symm
        have hmem : y ∈ kidsOf dpar N (dpar y) := (mem_kidsOf dpar N _ y).mpr ⟨hy1, hyN, rfl⟩
        have hyc : text[y]? = some c := by
          have := hk 0 (by omega)
          simpa [hc] using this
        by_contra hcon
        exact hrej (dpar y) hqanc (by omega) y hmem hyc
    · rw [upd_le _ _ _ _ (old j hj hjm)]; exact Q.max j (old j hj hjm)

theorem mr_step_spec {h : heap α} {N i : Nat} {par dep dpar mr : Nat → Nat}
    (S : Shape h.text N par dep dpar) (hN : N + 1 = h.text.length) (R : DualRep h N par dpar)
    (Q : Reach h.text i dep mr) (QR : ReachRep h i mr) (hm : i + 1 ≤ N) :
    ∃ x : Nat, installMaxReaches.step ((i + 1 : Nat) : Int) (h, ((mr i : Nat) : Int))
        = Except.ok ({ h with maxReach := h.maxReach.set (i + 1) (some (x : Int)) }, (x : Int)) ∧
      Reach h.text (i + 1) dep (Function.update mr (i + 1) x) ∧
      ReachRep { h with maxReach := h.maxReach.set (i + 1) (some (x : Int)) } (i + 1)
        (Function.update mr (i + 1) x) := by
  obtain ⟨c, hc⟩ : ∃ c, h.text[i + 1]? = some c :=
    ⟨_, List.getElem?_eq_getElem (by omega)⟩
  have hmr := Q.lt i (Nat.le_refl i)
  have hroot := S.root_child (by omega : 1 ≤ i + 1) hm c hc
  obtain ⟨p, x, e1, e2, e3, e4, e5⟩ := climb2_spec S R c hroot h.fuel (mr i) (by omega)
    (by rw [fuel_eq h R.tl]; omega)
  refine ⟨x, ?_, reach_extend S hN Q hm c hc p x e2 e3 e4 e5, ⟨?_, ?_⟩⟩
  · simp only [installMaxReaches.step, readAt_cast _ _ _ hc, ok_bind,
      R.dualChild S.i_lt (mr i) hmr c, e1]
    rw [writeAt_cast _ _ _ (by rw [QR.len]; omega), ok_bind]
  · show (h.maxReach.set (i + 1) (some (x : Int))).length = h.text.length
    rw [List.length_set]; exact QR.len
  · intro j hj
    show (h.maxReach.set (i + 1) (some (x : Int)))[j]? = _
    by_cases hjm : j = i + 1
    · subst hjm
      rw [List.getElem?_set_self (by rw [QR.len]; omega), upd_new]
    · rw [List.getElem?_set_ne (Ne.symm hjm), upd_le _ _ _ _ (by omega)]
      exact QR.eq j (by omega)

theorem mr_loop_spec {N : Nat} {par dep dpar : Nat → Nat} (k : Nat) :
    ∀ (i : Nat) (h : heap α) (mr : Nat → Nat), Shape h.text N par dep dpar →
    N + 1 = h.text.length → DualRep h N par dpar → Reach h.text i dep mr → ReachRep h i mr →
    i + k ≤ N →
    ∃ mx mr1 pn, forLoop installMaxReaches.step k (((i + 1 : Nat) : Int))
        (h, ((mr i : Nat) : Int)) = Except.ok ({ h with maxReach := mx }, pn) ∧
      Reach h.text (i + k) dep mr1 ∧ ReachRep { h with maxReach := mx } (i + k) mr1 := by
  induction k with
  | zero =>
    intro i h mr _ _ _ Q QR _
    exact ⟨h.maxReach, mr, _, rfl, Q, QR⟩
  | succ k ih =>
    intro i h mr S hN R Q QR hk
    obtain ⟨x, e1, e2, e3⟩ := mr_step_spec S hN R Q QR (by omega)
    have R1 : DualRep { h with maxReach := h.maxReach.set (i + 1) (some (x : Int)) } N par dpar :=
      R.transfer rfl rfl rfl rfl
    obtain ⟨mx, mr1, pn, f1, f2, f3⟩ := ih (i + 1)
      { h with maxReach := h.maxReach.set (i + 1) (some (x : Int)) }
      (Function.update mr (i + 1) x) S hN R1 e2 e3 (by omega)
    refine ⟨mx, mr1, pn, ?_, ?_, ?_⟩
    · rw [forLoop, e1, ok_bind]
      have : (((i + 1 : Nat) : Int)) + 1 = (((i + 1 + 1 : Nat)) : Int) := by push_cast; ring
      rw [this]
      rw [upd_new] at f1
      exact f1
    · have : i + (k + 1) = i + 1 + k := by omega
      rw [this]; exact f2
    · have : i + (k + 1) = i + 1 + k := by omega
      rw [this]; exact f3

theorem installMaxReaches_spec {h : heap α} {N : Nat} {par dep dpar : Nat → Nat}
    (S : Shape h.text N par dep dpar) (hN : N + 1 = h.text.length) (R : DualRep h N par dpar)
    (hlen : h.maxReach.length = h.text.length) :
    ∃ mx mr, installMaxReaches h = Except.ok { h with maxReach := mx } ∧
      Reach h.text N dep mr ∧ ReachRep { h with maxReach := mx } N mr := by
  obtain ⟨c, hc⟩ : ∃ c, h.text[0]? = some c :=
    ⟨_, List.getElem?_eq_getElem (by omega)⟩
  have hroot := R.dualChild S.i_lt 0 (by omega) c
  simp only [Nat.cast_zero] at hroot
  have hfuel : patternFuel 1 = 2 + 1 := rfl
  have hidx : ((1 : Int) - 1 - 0) = ((0 : Nat) : Int) := by simp
  -- the node reached from the root on the letter `text[0]`
  obtain ⟨x, hx, hxspec⟩ : ∃ x : Nat,
      indexIntoTrie h h.text 1 none = Except.ok ((x : Int), some (dep x : Int)) ∧
      ((x = 0 ∧ ∀ y ∈ kidsOf dpar N 0, h.text[y]? ≠ some c) ∨
        (x ∈ kidsOf dpar N 0 ∧ h.text[x]? = some c)) := by
    by_cases hno : firstOn h.text 0 c (kidsOf dpar N 0) = NOCHILD
    · refine ⟨0, ?_, Or.inl ⟨rfl, ?_⟩⟩
      · simp only [indexIntoTrie, hfuel, indexIntoTrie.loop, hidx, readAt_cast _ _ _ hc,
          ok_bind, hroot, hno]
        simp [S.dep_zero]
      · intro y hy
        have := (firstOn_eq_NOCHILD h.text 0 c _).mp hno y hy
        simpa using this
    · obtain ⟨x, hx1, hx2, hx3⟩ := firstOn_eq_cast h.text 0 c _ _ rfl hno
      refine ⟨x, ?_, Or.inr ⟨hx2, by simpa using hx3⟩⟩
      obtain ⟨hx4, hx5, hx6⟩ := (mem_kidsOf dpar N 0 x).mp hx2
      have hd := S.dep_dpar x hx4 hx5
      rw [hx6, S.dep_zero] at hd
      simp only [indexIntoTrie, hfuel, indexIntoTrie.loop, hidx, readAt_cast _ _ _ hc,
        ok_bind, hroot]
      have hxne : ¬ ((x : Int) = NOCHILD) := by simp only [NOCHILD]; omega
      simp [hx1, hd, hxne]
  have Q0 : Reach h.text 0 dep (fun _ => x) := by
    rcases hxspec with ⟨hx0, hrej⟩ | ⟨hmem, hxc⟩
    · subst hx0
      refine ⟨fun j _ => by omega, fun j _ => by rw [S.dep_zero]; omega,
        fun j _ k hk => by rw [S.dep_zero] at hk; omega, ?_⟩
      intro j hj y hy hdy hk
      by_contra hcon
      have hyN : y ≤ N := by omega
      have hy1 : 1 ≤ y := by
        by_contra h0
        have : y = 0 := by omega
        subst this
        omega
      have hq := S.dpar_lt y hy1 hyN
      have hdq := S.dep_dpar y hy1 hyN
      have hq0 : dpar y = 0 := S.dep_eq_zero (by omega) (by omega)
      have hmem : y ∈ kidsOf dpar N 0 := (mem_kidsOf dpar N 0 y).mpr ⟨hy1, hyN, hq0⟩
      apply hrej y hmem
      have := hk 0 (by omega)
      have hj0 : j = 0 := by omega
      subst hj0
      simpa [hc] using this
    · obtain ⟨hx4, hx5, hx6⟩ := (mem_kidsOf dpar N 0 x).mp hmem
      have hd := S.dep_dpar x hx4 hx5
      rw [hx6, S.dep_zero] at hd
      refine ⟨fun j _ => by omega, fun j _ => by omega, ?_, fun j _ y _ hdy _ => by omega⟩
      intro j hj k hk
      have hj0 : j = 0 := by omega
      have hk0 : k = 0 := by omega
      subst hj0 hk0
      simpa [hc] using hxc
  have QR0 : ReachRep { h with maxReach := h.maxReach.set 0 (some (x : Int)) } 0 (fun _ => x) := by
    refine ⟨?_, ?_⟩
    · show (h.maxReach.set 0 (some (x : Int))).length = h.text.length
      rw [List.length_set]; exact hlen
    · intro j hj
      have hj0 : j = 0 := by omega
      subst hj0
      show (h.maxReach.set 0 (some (x : Int)))[0]? = _
      rw [List.getElem?_set_self (by omega)]
  have R1 : DualRep { h with maxReach := h.maxReach.set 0 (some (x : Int)) } N par dpar :=
    R.transfer rfl rfl rfl rfl
  obtain ⟨mx, mr1, pn, f1, f2, f3⟩ := mr_loop_spec N 0
    { h with maxReach := h.maxReach.set 0 (some (x : Int)) } (fun _ => x) S hN R1 Q0 QR0
    (by omega)
  refine ⟨mx, mr1, ?_, by simpa using f2, by simpa using f3⟩
  have hw : writeAt h.maxReach ROOT (some (x : Int)) = Except.ok (h.maxReach.set 0 (some (x : Int))) := by
    have := writeAt_cast h.maxReach 0 (some (x : Int)) (by omega)
    simpa using this
  have hrange : ((h.textLength - 1).toNat) = N := by rw [R.tl, ← hN]; simp
  simp only [installMaxReaches, hx, ok_bind, hw, forRange, hrange]
  have f1b : forLoop installMaxReaches.step N 1
      ({ h with maxReach := h.maxReach.set 0 (some (x : Int)) }, (x : Int))
      = Except.ok ({ h with maxReach := mx }, pn) := by
    simpa using f1
  rw [f1b, ok_bind]

/-! ## Conversion to the downward tree -/

theorem clearNode_spec (h : heap α) (m : Nat) (hm : m < h.downArray.length) :
    clearNode h (m : Int)
      = Except.ok { h with downArray := h.downArray.set m { child := NOCHILD, sibling := NOCHILD } } := by
  obtain ⟨nd, hnd⟩ : ∃ nd, h.downArray[m]? = some nd := ⟨_, List.getElem?_eq_getElem hm⟩
  have h1 : (h.downArray.set m (nd.setSibling NOCHILD))[m]? = some (nd.setSibling NOCHILD) := by
    rw [List.getElem?_set_self hm]
  simp only [clearNode, readAt_cast _ _ _ hnd, ok_bind, writeAt_cast _ _ _ hm,
    readAt_cast _ _ _ h1]
  rw [writeAt_cast _ _ _ (by simpa using hm), ok_bind]
  simp [downNode.setChild, downNode.setSibling]

theorem kidsOf_eq_nil (par : Nat → Nat) (i p : Nat) (hp : ∀ x, 1 ≤ x → x ≤ i → par x ≠ p) :
    kidsOf par i p = [] := by
  apply List.eq_nil_iff_forall_not_mem.mpr
  intro x hx
  obtain ⟨h1, h2, h3⟩ := (mem_kidsOf par i p x).mp hx
  exact hp x h1 h2 h3

theorem convert_step_spec {h : heap α} {i : Nat} {par : Nat → Nat}
    (P : PrimRep h i par) (hm : i + 1 < h.text.length)
    (hpar : h.parent[i + 1]? = some (some (par (i + 1) : Int)))
    (hlt : ∀ j, 1 ≤ j → j ≤ i + 1 → par j < j) :
    ∃ da, build.convertStep ((i + 1 : Nat) : Int) h = Except.ok { h with downArray := da } ∧
      PrimRep { h with downArray := da } (i + 1) par := by
  have hlen := P.len_da
  rw [build.convertStep, clearNode_spec h (i + 1) (by omega), ok_bind]
  simp only [readInit_cast _ _ _ hpar, ok_bind]
  have hk1 : ∀ p, p ≤ i + 1 →
      Kids (h.downArray.set (i + 1) { child := NOCHILD, sibling := NOCHILD }) p (kidsOf par i p) := by
    intro p hp
    by_cases hpm : p = i + 1
    · subst hpm
      rw [kidsOf_eq_nil par i (i + 1) (fun x h1 h2 => by have := hlt x h1 (by omega); omega)]
      exact ⟨_, List.getElem?_set_self (by omega), rfl⟩
    · obtain ⟨nd, hnd, hc⟩ := P.kids p (by omega)
      refine ⟨nd, by rw [List.getElem?_set_ne (Ne.symm hpm)]; exact hnd, ?_⟩
      apply Chain.frame _ _ _ _ hc
      intro x hx nd1 hnd1
      have := (mem_kidsOf par i p x).mp hx
      exact ⟨nd1, by rw [List.getElem?_set_ne (by omega)]; exact hnd1, rfl⟩
  have hq := hlt (i + 1) (by omega) (Nat.le_refl _)
  obtain ⟨da2, e1, e2, e3⟩ := insertChild_kids_on (fun p => p ≤ i + 1)
    { h with downArray := h.downArray.set (i + 1) { child := NOCHILD, sibling := NOCHILD } }
    (i + 1) (par (i + 1)) (kidsOf par i)
    (by show i + 1 < (h.downArray.set (i + 1) _).length; rw [List.length_set]; omega)
    (by show par (i + 1) ≤ i + 1; omega) (by omega) hk1
    (fun p _ hmem => by
      have := (mem_kidsOf par i p (i + 1)).mp hmem
      omega)
  refine ⟨da2, e1, ⟨?_, ?_⟩⟩
  · show da2.length = h.text.length
    rw [e2]
    show (h.downArray.set (i + 1) _).length = _
    rw [List.length_set]; exact hlen
  · intro p hp
    show Kids da2 p _
    have := e3 p hp
    rw [kidsOf]
    by_cases hpq : p = par (i + 1)
    · subst hpq; simpa using this
    · rw [if_neg (Ne.symm hpq)]
      simpa [hpq] using this

theorem convert_loop_spec {par : Nat → Nat} (k : Nat) :
    ∀ (i : Nat) (h : heap α), PrimRep h i par → i + k < h.text.length →
    (∀ j, 1 ≤ j → j ≤ i + k → h.parent[j]? = some (some (par j : Int))) →
    (∀ j, 1 ≤ j → j ≤ i + k → par j < j) →
    ∃ da, forLoop build.convertStep k (((i + 1 : Nat) : Int)) h
        = Except.ok { h with downArray := da } ∧
      PrimRep { h with downArray := da } (i + k) par := by
  induction k with
  | zero =>
    intro i h P _ _ _
    exact ⟨h.downArray, rfl, P⟩
  | succ k ih =>
    intro i h P hk hpar hlt
    obtain ⟨da, e1, e2⟩ := convert_step_spec P (by omega) (hpar (i + 1) (by omega) (by omega))
      (fun j h1 h2 => hlt j h1 (by omega))
    obtain ⟨da2, f1, f2⟩ := ih (i + 1) { h with downArray := da } e2
      (by show i + 1 + k < h.text.length; omega)
      (fun j h1 h2 => hpar j h1 (by omega)) (fun j h1 h2 => hlt j h1 (by omega))
    refine ⟨da2, ?_, ?_⟩
    · rw [forLoop, e1, ok_bind]
      have : (((i + 1 : Nat) : Int)) + 1 = (((i + 1 + 1 : Nat)) : Int) := by push_cast; ring
      rw [this]; exact f1
    · have : i + (k + 1) = i + 1 + k := by omega
      rw [this]; exact f2

/-! ## Discovery and finishing times -/

theorem Timed.inj {h : heap α} {a : Nat} {d f d1 f1 : Int} (h1 : Timed h a d f)
    (h2 : Timed h a d1 f1) : d = d1 ∧ f = f1 := by
  obtain ⟨a1, a2⟩ := h1
  obtain ⟨b1, b2⟩ := h2
  rw [a1] at b1; rw [a2] at b2
  exact ⟨Option.some.inj (Option.some.inj b1), Option.some.inj (Option.some.inj b2)⟩

theorem Timed.carry {h h1 : heap α} {a : Nat} {d f : Int} (t : Timed h a d f)
    (e1 : h1.discoveryTime[a]? = h.discoveryTime[a]?)
    (e2 : h1.finishingTime[a]? = h.finishingTime[a]?) : Timed h1 a d f :=
  ⟨e1.trans t.1, e2.trans t.2⟩

theorem DFSPost.idle (par : Nat → Nat) (In : Nat → Prop) (s : heap α × Int)
    (hIn : ∀ a, ¬ In a) : DFSPost par In s s :=
  ⟨rfl, rfl, rfl, le_refl _, fun a ha => absurd ha (hIn a), fun _ _ => ⟨rfl, rfl⟩,
    fun a _ _ _ _ _ ha => absurd ha (hIn a)⟩

theorem DFSPost.congr {par : Nat → Nat} {In In1 : Nat → Prop} {s s1 : heap α × Int}
    (P : DFSPost par In s s1) (hiff : ∀ a, In1 a ↔ In a) : DFSPost par In1 s s1 :=
  ⟨P.frame, P.len_d, P.len_f, P.mono, fun a ha => P.stamped a ((hiff a).mp ha),
    fun a ha => P.other a (fun hc => ha ((hiff a).mpr hc)),
    fun a b d f d1 f1 ha hb => P.nest a b d f d1 f1 ((hiff a).mp ha) ((hiff b).mp hb)⟩

theorem DFSPost.seq {par : Nat → Nat} {In1 In2 : Nat → Prop} {s s1 s2 : heap α × Int}
    (P1 : DFSPost par In1 s s1) (P2 : DFSPost par In2 s1 s2)
    (hdis : ∀ a, In1 a → ¬ In2 a)
    (hcross : ∀ a b, In1 a → In2 b → ¬ Anc par a b ∧ ¬ Anc par b a) :
    DFSPost par (fun a => In1 a ∨ In2 a) s s2 := by
  have keep : ∀ a d f, In1 a → Timed s2.1 a d f → Timed s1.1 a d f := by
    intro a d f ha t
    obtain ⟨e1, e2⟩ := P2.other a (hdis a ha)
    exact t.carry e1.symm e2.symm
  refine ⟨?_, P2.len_d.trans P1.len_d, P2.len_f.trans P1.len_f, le_trans P1.mono P2.mono,
    ?_, ?_, ?_⟩
  · rw [P2.frame, P1.frame]
  · rintro a (ha | ha)
    · obtain ⟨d, f, t, h1, h2, h3⟩ := P1.stamped a ha
      obtain ⟨e1, e2⟩ := P2.other a (hdis a ha)
      exact ⟨d, f, t.carry e1 e2, h1, h2, lt_of_lt_of_le h3 P2.mono⟩
    · obtain ⟨d, f, t, h1, h2, h3⟩ := P2.stamped a ha
      exact ⟨d, f, t, le_trans P1.mono h1, h2, h3⟩
  · intro a ha
    have h1 : ¬ In1 a := fun hc => ha (Or.inl hc)
    have h2 : ¬ In2 a := fun hc => ha (Or.inr hc)
    exact ⟨(P2.other a h2).1.trans (P1.other a h1).1, (P2.other a h2).2.trans (P1.other a h1).2⟩
  · rintro a b d f d1 f1 (ha | ha) (hb | hb) ta tb
    · exact P1.nest a b d f d1 f1 ha hb (keep a d f ha ta) (keep b d1 f1 hb tb)
    · obtain ⟨d0, f0, t0, _, _, h3⟩ := P1.stamped a ha
      obtain ⟨e1, e2⟩ := (keep a d f ha ta).inj t0
      obtain ⟨d2, f2, t2, h4, _, _⟩ := P2.stamped b hb
      obtain ⟨e3, e4⟩ := tb.inj t2
      constructor
      · rintro ⟨h5, _⟩; omega
      · intro hc; exact absurd hc (hcross a b ha hb).2
    · obtain ⟨d0, f0, t0, _, _, h3⟩ := P1.stamped b hb
      obtain ⟨e1, e2⟩ := (keep b d1 f1 hb tb).inj t0
      obtain ⟨d2, f2, t2, h4, h4b, _⟩ := P2.stamped a ha
      obtain ⟨e3, e4⟩ := ta.inj t2
      constructor
      · rintro ⟨_, h5⟩; omega
      · intro hc; exact absurd hc (hcross b a hb ha).1
    · exact P2.nest a b d f d1 f1 ha hb ta tb

theorem DFSPost.wrap {par : Nat → Nat} {InK : Nat → Prop} {h : heap α} {t : Int} {p : Nat}
    {sb : heap α × Int}
    (hp1 : p < h.discoveryTime.length) (hp2 : p < h.finishingTime.length)
    (P : DFSPost par InK ({ h with discoveryTime := h.discoveryTime.set p (some t) }, t + 1) sb)
    (hpK : ¬ InK p) (hK : ∀ a, InK a → Anc par p a ∧ ¬ Anc par a p) :
    DFSPost par (fun a => a = p ∨ InK a) (h, t)
      ({ sb.1 with finishingTime := sb.1.finishingTime.set p (some sb.2) }, sb.2 + 1) := by
  have hm := P.mono
  simp only at hm
  have hlen_f : p < sb.1.finishingTime.length := by rw [P.len_f]; exact hp2
  have tp : Timed { sb.1 with finishingTime := sb.1.finishingTime.set p (some sb.2) } p t sb.2 := by
    refine ⟨?_, ?_⟩
    · show sb.1.discoveryTime[p]? = _
      rw [(P.other p hpK).1]
      show (h.discoveryTime.set p (some t))[p]? = _
      rw [List.getElem?_set_self hp1]
    · show (sb.1.finishingTime.set p (some sb.2))[p]? = _
      rw [List.getElem?_set_self hlen_f]
  have tk : ∀ a d f, a ≠ p →
      (Timed { sb.1 with finishingTime := sb.1.finishingTime.set p (some sb.2) } a d f ↔
        Timed sb.1 a d f) := by
    intro a d f hap
    unfold Timed
    show _ ∧ (sb.1.finishingTime.set p (some sb.2))[a]? = _ ↔ _
    rw [List.getElem?_set_ne (Ne.symm hap)]
  have hKp : ∀ a, InK a → a ≠ p := by
    rintro a ha rfl; exact hpK ha
  refine ⟨?_, ?_, ?_, by show t ≤ sb.2 + 1; omega, ?_, ?_, ?_⟩
  · have := P.frame
    simp only at this
    rw [this]
  · show sb.1.discoveryTime.length = _
    rw [P.len_d]; simp
  · show (sb.1.finishingTime.set p (some sb.2)).length = _
    rw [List.length_set, P.len_f]
  · rintro a (rfl | ha)
    · exact ⟨t, sb.2, tp, le_refl _, by omega, by show sb.2 < sb.2 + 1; omega⟩
    · obtain ⟨d, f, t0, h1, h2, h3⟩ := P.stamped a ha
      simp only at h1
      exact ⟨d, f, (tk a d f (hKp a ha)).mpr t0, by show t ≤ d; omega, h2,
        by show f < sb.2 + 1; omega⟩
  · intro a ha
    have h1 : a ≠ p := fun hc => ha (Or.inl hc)
    have h2 : ¬ InK a := fun hc => ha (Or.inr hc)
    obtain ⟨e1, e2⟩ := P.other a h2
    constructor
    · show sb.1.discoveryTime[a]? = _
      rw [e1]
      show (h.discoveryTime.set p (some t))[a]? = _
      rw [List.getElem?_set_ne (Ne.symm h1)]
    · show (sb.1.finishingTime.set p (some sb.2))[a]? = _
      rw [List.getElem?_set_ne (Ne.symm h1), e2]
  · rintro a b d f d1 f1 (rfl | ha) (rfl | hb) ta tb
    · obtain ⟨e1, e2⟩ := ta.inj tb
      subst e1 e2
      simp [Anc.refl]
    · obtain ⟨e1, e2⟩ := ta.inj tp
      obtain ⟨d2, f2, t2, h4, _, _⟩ := P.stamped b hb
      obtain ⟨e3, e4⟩ := ((tk b d1 f1 (hKp b hb)).mp tb).inj t2
      simp only at h4
      constructor
      · rintro ⟨h5, _⟩; omega
      · intro hc; exact absurd hc (hK b hb).2
    · obtain ⟨e1, e2⟩ := tb.inj tp
      obtain ⟨d2, f2, t2, h4, _, h6⟩ := P.stamped a ha
      obtain ⟨e3, e4⟩ := ((tk a d f (hKp a ha)).mp ta).inj t2
      simp only at h4
      constructor
      · intro _; exact (hK a ha).1
      · intro _; constructor <;> omega
    · exact P.nest a b d f d1 f1 ha hb ((tk a d f (hKp a ha)).mp ta)
        ((tk b d1 f1 (hKp b hb)).mp tb)

theorem anc_kid {par : Nat → Nat} {p a : Nat} (h : Anc par p a) :
    a = p ∨ ∃ x, 1 ≤ x ∧ par x = p ∧ Anc par x a := by
  induction h with
  | refl => exact Or.inl rfl
  | @step j h1 _ ih =>
    rcases ih with h0 | ⟨x, hx1, hx2, hx3⟩
    · exact Or.inr ⟨j, h1, h0, Anc.refl j⟩
    · exact Or.inr ⟨x, hx1, hx2, Anc.step h1 hx3⟩

theorem Shape.sibling_disjoint {text : List α} {N : Nat} {par dep dpar : Nat → Nat}
    (S : Shape text N par dep dpar) {x y a : Nat} (ha : a ≤ N) (hd : dep x = dep y)
    (hx : Anc par x a) (hy : Anc par y a) : x = y := by
  have h1 := S.anc_linear ha hx hy (by omega)
  have hyN : y ≤ N := le_trans (S.anc_le ha hy) ha
  exact S.anc_same_dep hyN h1 (by omega)

theorem kidsOf_nodup (f : Nat → Nat) (i p : Nat) : (kidsOf f i p).Nodup := by
  induction i with
  | zero => simp [kidsOf]
  | succ i ih =>
    unfold kidsOf
    split
    · refine List.nodup_cons.mpr ⟨?_, ih⟩
      intro hmem
      have := (mem_kidsOf f i p (i + 1)).mp hmem
      omega
    · exact ih

theorem Shape.sub_iff {text : List α} {N : Nat} {par dep dpar : Nat → Nat}
    (S : Shape text N par dep dpar) (p a : Nat) :
    Sub par N p a ↔ (a = p ∧ p ≤ N) ∨ ∃ x ∈ kidsOf par N p, Sub par N x a := by
  constructor
  · rintro ⟨h1, h2⟩
    rcases anc_kid h2 with h0 | ⟨x, hx1, hx2, hx3⟩
    · exact Or.inl ⟨h0, by omega⟩
    · have hx := S.anc_le h1 hx3
      exact Or.inr ⟨x, (mem_kidsOf par N p x).mpr ⟨hx1, by omega, hx2⟩, h1, hx3⟩
  · rintro (⟨h0, hp⟩ | ⟨x, hx, h1, h2⟩)
    · subst h0; exact ⟨hp, Anc.refl _⟩
    · obtain ⟨hx1, _, hx3⟩ := (mem_kidsOf par N p x).mp hx
      subst hx3
      exact ⟨h1, Anc.compose (Anc.step hx1 (Anc.refl _)) h2⟩

theorem dfs_spec {text : List α} {N : Nat} {par dep dpar : Nat → Nat}
    (S : Shape text N par dep dpar) (da : List downNode)
    (hK : ∀ p, p ≤ N → Kids da p (kidsOf par N p)) :
    ∀ fuel,
      (∀ (p : Nat) (depth : Int) (s : heap α × Int), p ≤ N → s.1.downArray = da →
        s.1.discoveryTime.length = N + 1 → s.1.finishingTime.length = N + 1 →
        (N + 1 - dep p) * (N + 2) ≤ fuel →
        ∃ s1, setDFAux fuel (p : Int) depth s = Except.ok s1 ∧ DFSPost par (Sub par N p) s s1) ∧
      (∀ (c : Int) (xs : List Nat) (pp : Nat) (depth : Int) (s : heap α × Int),
        Chain da c xs → xs.Nodup → (∀ x ∈ xs, 1 ≤ x ∧ x ≤ N ∧ par x = pp) → pp ≤ N →
        s.1.downArray = da →
        s.1.discoveryTime.length = N + 1 → s.1.finishingTime.length = N + 1 →
        (N + 1 - (dep pp + 1)) * (N + 2) + xs.length + 1 ≤ fuel →
        ∃ s1, setDFAux.children fuel c depth s = Except.ok s1 ∧
          DFSPost par (fun a => ∃ x ∈ xs, Sub par N x a) s s1) := by
  intro fuel
  induction fuel with
  | zero =>
    constructor
    · intro p depth s hp _ _ _ hf
      have := S.dep_le p hp
      have h1 : 1 ≤ N + 1 - dep p := by omega
      have h2 : N + 2 ≤ (N + 1 - dep p) * (N + 2) := Nat.le_mul_of_pos_left _ h1
      omega
    · intro c xs pp depth s _ _ _ _ _ _ _ hf
      omega
  | succ fuel ih =>
    constructor
    · intro p depth s hp hda hld hlf hf
      obtain ⟨nd, hnd, hch⟩ := hK p hp
      have hpne : ¬ ((p : Int) = -1) := by omega
      have hdp := S.dep_le p hp
      have hfuel : (N + 1 - (dep p + 1)) * (N + 2) + (kidsOf par N p).length + 1 ≤ fuel := by
        have h1 : N + 1 - dep p = (N + 1 - (dep p + 1)) + 1 := by omega
        rw [h1, Nat.add_mul] at hf
        have := length_kidsOf_le par N p
        omega
      obtain ⟨sb, e1, e2⟩ := ih.2 nd.getChild (kidsOf par N p) p depth
        ({ s.1 with discoveryTime := s.1.discoveryTime.set p (some s.2) }, s.2 + 1)
        hch (kidsOf_nodup par N p)
        (fun x hx => (mem_kidsOf par N p x).mp hx) hp hda
        (by show (s.1.discoveryTime.set p (some s.2)).length = N + 1
            rw [List.length_set]; exact hld)
        hlf hfuel
      have hlen_f : p < sb.1.finishingTime.length := by
        rw [e2.len_f]; show p < s.1.finishingTime.length; omega
      refine ⟨({ sb.1 with finishingTime := sb.1.finishingTime.set p (some sb.2) }, sb.2 + 1),
        ?_, ?_⟩
      · rw [setDFAux, if_neg hpne, writeAt_cast _ _ _ (by omega), ok_bind, hda,
          readAt_cast _ _ _ hnd, ok_bind, e1, ok_bind, writeAt_cast _ _ _ hlen_f, ok_bind]
      · have hKfacts : ∀ a, (∃ x ∈ kidsOf par N p, Sub par N x a) →
            Anc par p a ∧ ¬ Anc par a p := by
          rintro a ⟨x, hx, h1, h2⟩
          obtain ⟨hx1, hx2, hx3⟩ := (mem_kidsOf par N p x).mp hx
          have hpx : Anc par p x := by
            rw [← hx3]; exact Anc.step hx1 (Anc.refl _)
          refine ⟨Anc.compose hpx h2, ?_⟩
          intro hc
          have d1 := S.anc_dep_le hp hc
          have d2 := S.anc_dep_le h1 h2
          have d3 := S.dep_succ x hx1 hx2
          rw [hx3] at d3
          omega
        have hw := @DFSPost.wrap α _ par _ s.1 s.2 p sb
          (by omega) (by omega) e2
          (fun hc => (hKfacts p hc).2 (Anc.refl p)) hKfacts
        apply hw.congr
        intro a
        rw [S.sub_iff p a]
        constructor
        · rintro (⟨h0, _⟩ | h1)
          · exact Or.inl h0
          · exact Or.inr h1
        · rintro (h0 | h1)
          · exact Or.inl ⟨h0, hp⟩
          · exact Or.inr h1
    · intro c xs pp depth s hch hnd hxs hpp hda hld hlf hf
      cases xs with
      | nil =>
        have hc : c = NOCHILD := hch
        refine ⟨s, ?_, DFSPost.idle par _ s (by simp)⟩
        rw [setDFAux.children, hc]
        simp
      | cons x rest =>
        obtain ⟨hcx, nd, hndx, hrest⟩ := hch
        obtain ⟨hx1, hx2, hx3⟩ := hxs x (List.mem_cons_self _ _)
        have hdx := S.dep_succ x hx1 hx2
        rw [hx3] at hdx
        simp only [List.length_cons] at hf
        obtain ⟨s1, e1, e2⟩ := ih.1 x (depth + 1) s hx2 hda hld hlf (by rw [hdx]; omega)
        have hda1 : s1.1.downArray = da := by rw [e2.frame]; exact hda
        obtain ⟨s2, f1, f2⟩ := ih.2 nd.sibling rest pp depth s1 hrest
          (List.nodup_cons.mp hnd).2 (fun y hy => hxs y (List.mem_cons_of_mem _ hy)) hpp hda1
          (by rw [e2.len_d]; exact hld) (by rw [e2.len_f]; exact hlf) (by omega)
        have hcne : c ≠ NOCHILD := by rw [hcx]; simp only [NOCHILD]; omega
        refine ⟨s2, ?_, ?_⟩
        · rw [setDFAux.children, if_pos hcne, hcx, e1, ok_bind, hda1, readAt_cast _ _ _ hndx,
            ok_bind]
          exact f1
        · have hsep : ∀ a b y, y ∈ rest → Sub par N x a → Sub par N y b →
              ¬ Anc par a b ∧ ¬ Anc par b a := by
            intro a b y hy ha hb
            obtain ⟨hy1, hy2, hy3⟩ := hxs y (List.mem_cons_of_mem _ hy)
            have hdy := S.dep_succ y hy1 hy2
            rw [hy3] at hdy
            have hne : x ≠ y := by
              rintro rfl; exact (List.nodup_cons.mp hnd).1 hy
            constructor
            · intro hc
              exact hne (S.sibling_disjoint hb.1 (by omega) (Anc.compose ha.2 hc) hb.2)
            · intro hc
              exact hne (S.sibling_disjoint ha.1 (by omega) ha.2 (Anc.compose hb.2 hc))
          have hseq := DFSPost.seq e2 f2
            (fun a ha ⟨y, hy, hb⟩ => (hsep a a y hy ha hb).1 (Anc.refl a))
            (fun a b ha ⟨y, hy, hb⟩ => hsep a b y hy ha hb)
          apply hseq.congr
          intro a
          simp only [List.mem_cons, exists_eq_or_imp]

/-! ## The constructor as a whole -/

theorem forRange_one {σ : Type} (n : Nat) (body : Int → σ → Except Fault σ) (s : σ) :
    forRange 1 (n : Int) body s = forLoop body (n - 1) (((0 + 1 : Nat) : Int)) s := by
  unfold forRange
  have h1 : ((n : Int) - 1).toNat = n - 1 := by omega
  rw [h1]
  simp

theorem forRange_eq {σ : Type} (tl : Int) (n : Nat) (htl : tl = (n : Int))
    (body : Int → σ → Except Fault σ) (s : σ) :
    forRange 1 tl body s = forLoop body (n - 1) (((0 + 1 : Nat) : Int)) s := by
  subst htl; exact forRange_one n body s

theorem installMaxReaches_ok {h : heap α} {N : Nat} {par dep dpar : Nat → Nat}
    (S : Shape h.text N par dep dpar) (hN : N + 1 = h.text.length) (R : DualRep h N par dpar)
    (hlen : h.maxReach.length = h.text.length) :
    ∃ h2 mr, installMaxReaches h = Except.ok h2 ∧ h2.parent = h.parent ∧
      h2.downArray = h.downArray ∧ h2.text = h.text ∧ h2.textLength = h.textLength ∧
      Reach h.text N dep mr ∧ ReachRep h2 N mr := by
  obtain ⟨mx, mr, e3, Q, QR⟩ := installMaxReaches_spec S hN R hlen
  exact ⟨_, mr, e3, rfl, rfl, rfl, rfl, Q, QR⟩

theorem convert_ok {h : heap α} {N : Nat} {par : Nat → Nat}
    (hN : N + 1 = h.text.length) (htl : h.textLength = (h.text.length : Int))
    (hlen : h.downArray.length = h.text.length)
    (hpar : ∀ j, 1 ≤ j → j ≤ N → h.parent[j]? = some (some (par j : Int)))
    (hlt : ∀ j, 1 ≤ j → j ≤ N → par j < j) :
    ∃ h3, (clearNode h 0 >>= fun h2 => forRange 1 h2.textLength build.convertStep h2)
        = Except.ok h3 ∧
      h3.text = h.text ∧ h3.textLength = h.textLength ∧ h3.maxReach = h.maxReach ∧
      PrimRep h3 N par := by
  have hda1 : 0 < h.downArray.length := by omega
  have P0 : PrimRep
      { h with downArray := h.downArray.set 0 { child := NOCHILD, sibling := NOCHILD } } 0 par := by
    refine ⟨?_, ?_⟩
    · show (h.downArray.set 0 _).length = h.text.length
      rw [List.length_set]; exact hlen
    · intro p hp0
      have : p = 0 := by omega
      subst this
      exact ⟨_, List.getElem?_set_self hda1, rfl⟩
  obtain ⟨da3, e4, P⟩ := convert_loop_spec N 0 _ P0 (by show 0 + N < h.text.length; omega)
    (fun j j1 j2 => hpar j j1 (by omega)) (fun j j1 j2 => hlt j j1 (by omega))
  simp only [Nat.zero_add] at P
  refine ⟨_, ?_, ?_, ?_, ?_, P⟩
  · have hcl := clearNode_spec h 0 hda1
    simp only [Nat.cast_zero] at hcl
    rw [hcl, ok_bind]
    show forRange 1 h.textLength _ _ = _
    rw [forRange_eq _ _ htl]
    have : h.text.length - 1 = N := by omega
    rw [this]
    exact e4
  · rfl
  · rfl
  · rfl

theorem labelling_ok {h : heap α} {N : Nat} {par dep dpar : Nat → Nat}
    (S : Shape h.text N par dep dpar) (hN : N + 1 = h.text.length)
    (htl : h.textLength = (h.text.length : Int)) (P : PrimRep h N par) :
    ∃ h5, setDiscoveryFinishing (build.allocTimes h) = Except.ok h5 ∧
      h5.text = h.text ∧ h5.textLength = h.textLength ∧ h5.maxReach = h.maxReach ∧
      h5.downArray = h.downArray ∧
      h5.discoveryTime.length = N + 1 ∧ h5.finishingTime.length = N + 1 ∧
      (∀ a, a ≤ N → ∃ d f, Timed h5 a d f) ∧
      (∀ a b d f d1 f1, a ≤ N → b ≤ N → Timed h5 a d f → Timed h5 b d1 f1 →
        ((d1 ≤ d ∧ f ≤ f1) ↔ Anc par b a)) := by
  have htn : h.textLength.toNat = N + 1 := by rw [htl, ← hN]; simp
  have hfuel : (N + 1 - dep 0) * (N + 2) ≤ (build.allocTimes h).deepFuel := by
    rw [S.dep_zero]
    show _ ≤ (h.textLength.toNat + 1) * (h.textLength.toNat + 1)
    rw [htn]
    exact Nat.mul_le_mul (by omega) (by omega)
  have hl1 : (build.allocTimes h).discoveryTime.length = N + 1 := by
    show (List.replicate h.textLength.toNat none).length = N + 1; rw [htn]; simp
  have hl2 : (build.allocTimes h).finishingTime.length = N + 1 := by
    show (List.replicate h.textLength.toNat none).length = N + 1; rw [htn]; simp
  obtain ⟨s5, e5, D⟩ := (dfs_spec S h.downArray (fun p hp1 => P.kids p hp1)
      (build.allocTimes h).deepFuel).1 0 0 (build.allocTimes h, 0)
    (Nat.zero_le N) rfl hl1 hl2 hfuel
  have hframe := D.frame
  simp only at hframe
  have hall : ∀ a, a ≤ N → Sub par N 0 a := fun a ha => ⟨ha, S.anc_root ha⟩
  refine ⟨s5.1, ?_, ?_, ?_, ?_, ?_, ?_, ?_, ?_, ?_⟩
  · simp only [Nat.cast_zero] at e5
    rw [setDiscoveryFinishing, e5, ok_bind]
  · rw [hframe]; rfl
  · rw [hframe]; rfl
  · rw [hframe]; rfl
  · rw [hframe]; rfl
  · rw [D.len_d]; exact hl1
  · rw [D.len_f]; exact hl2
  · intro a ha
    obtain ⟨d, f, t, _⟩ := D.stamped a (hall a ha)
    exact ⟨d, f, t⟩
  · intro a b d f d1 f1 ha hb
    exact D.nest a b d f d1 f1 (hall a ha) (hall b hb)

theorem build_spec (h : heap α) (N : Nat) (hlen : h.text.length = N + 1)
    (htl : h.textLength = ((N + 1 : Nat) : Int)) (hp : h.parent.length = N + 1)
    (hda : h.downArray = List.replicate (N + 1) downNode.new)
    (hmr : h.maxReach.length = N + 1) :
    ∃ h1 par dep dpar mr, build h = Except.ok h1 ∧ h1.text = h.text ∧
      Good h1 N par dep dpar mr := by
  have S0 := initial_shape h.text (by omega)
  have R0 := initial_rep h (N + 1) htl hlen hp hda
  obtain ⟨h1, pn1, par, dep, dpar, e1, e2, S, R⟩ :=
    build_loop_spec N 0 h none _ _ _ S0 R0 (by omega) (fun hc => by omega)
  simp only [Nat.zero_add] at S R
  have hlen1 : h1.text.length = N + 1 := by rw [e2.text]; exact hlen
  rw [← e2.text] at S
  obtain ⟨h2, mr, e3, a1, a2, a3, a4, Q, QR⟩ := installMaxReaches_ok S (by omega) R
    (by rw [e2.maxReach, e2.text, hmr, hlen])
  obtain ⟨h3, e4, b1, b2, b3, P⟩ := @convert_ok α _ h2 N par
    (by rw [a3]; omega) (by rw [a4, a3]; exact R.tl) (by rw [a2, a3]; exact R.len_da)
    (fun j j1 j2 => by rw [a1]; exact R.parent_eq j j1 j2) (fun j j1 j2 => S.par_lt j j1 j2)
  have S3 : Shape h3.text N par dep dpar := by rw [b1, a3]; exact S
  obtain ⟨h5, e5, c1, c2, c3, c4, l1, l2, T1, T2⟩ := labelling_ok S3 (by rw [b1, a3]; omega)
    (by rw [b2, b1, a4, a3]; exact R.tl) P
  refine ⟨h5, par, dep, dpar, mr, ?_, ?_, ?_⟩
  · have hfr : forRange 1 h.textLength build.step (h, none) = Except.ok (h1, pn1) := by
      rw [htl, forRange_one]; exact e1
    rw [build, hfr, ok_bind]
    show (installMaxReaches h1 >>= _) = _
    rw [e3, ok_bind]
    rw [bind_ok_iff] at e4
    obtain ⟨hc, e41, e42⟩ := e4
    rw [e41, ok_bind, e42, ok_bind]
    exact e5
  · rw [c1, b1, a3]; exact e2.text
  · refine ⟨by rw [c1, b1, a3]; omega, by rw [c2, c1, b2, b1, a4, a3]; exact R.tl,
      by rw [c1]; exact S3, by rw [c1, b1, a3]; exact Q, ?_, ?_, l1, l2, T1, T2⟩
    · refine ⟨?_, ?_⟩
      · rw [c3, b3, c1, b1]; exact QR.len
      · intro j hj; rw [c3, b3]; exact QR.eq j hj
    · refine ⟨?_, ?_⟩
      · rw [c4, c1]; exact P.len_da
      · intro p hp1; rw [c4]; exact P.kids p hp1

theorem heap_new_spec (T : List α) (hT : T ≠ []) :
    ∃ h par dep dpar mr, heap.new T = Except.ok h ∧ h.text = T.reverse ∧
      Good h (T.length - 1) par dep dpar mr := by
  have hpos : 0 < T.length := List.length_pos.mpr hT
  have hn : T.length = T.length - 1 + 1 := by omega
  obtain ⟨h1, par, dep, dpar, mr, e1, e2, e3⟩ := build_spec
    ({ parent := List.replicate T.length none
       downArray := List.replicate T.length downNode.new
       maxReach := List.replicate T.length none
       discoveryTime := []
       finishingTime := []
       text := T.reverse
       textLength := T.length } : heap α) (T.length - 1)
    (by simp; omega) (by show (T.length : Int) = _; omega) (by simp; omega)
    (by show List.replicate T.length downNode.new = _; rw [← hn])
    (by simp; omega)
  exact ⟨h1, par, dep, dpar, mr, e1, e2, e3⟩

/-! ## The query on a built index -/

theorem readAt_bound {β : Type} {a : List β} {i : Int} {v : β} (h : readAt a i = Except.ok v) :
    ∃ j : Nat, i = (j : Int) ∧ a[j]? = some v := by
  obtain ⟨h1, h2⟩ := (readAt_ok_iff a i v).mp h
  exact ⟨i.toNat, by omega, h2⟩

theorem readInit_bound {a : List (Option Int)} {i : Int} {v : Int}
    (h : readInit a i = Except.ok v) : ∃ j : Nat, i = (j : Int) ∧ a[j]? = some (some v) := by
  unfold readInit at h
  obtain ⟨o, h1, h2⟩ := (bind_ok_iff _ _ _).mp h
  obtain ⟨j, hj1, hj2⟩ := readAt_bound h1
  cases o with
  | none => simp [initialised] at h2
  | some w =>
    simp only [initialised, Except.ok.injEq] at h2
    subst h2
    exact ⟨j, hj1, hj2⟩

section Query
variable {h : heap α} {N : Nat} {par dep dpar mr : Nat → Nat}

theorem Good.readTimes (_G : Good h N par dep dpar mr) {a : Nat} {d f : Int}
    (t : Timed h a d f) :
    readInit h.discoveryTime (a : Int) = Except.ok d ∧
      readInit h.finishingTime (a : Int) = Except.ok f :=
  ⟨readInit_cast _ _ _ t.1, readInit_cast _ _ _ t.2⟩

theorem Good.isDescendant_spec (G : Good h N par dep dpar mr) (a b : Nat) (ha : a ≤ N)
    (hb : b ≤ N) :
    ∃ r, isDescendant h (a : Int) (b : Int) = Except.ok r ∧ (r = true ↔ Anc par b a) := by
  obtain ⟨d, f, ta⟩ := G.timed a ha
  obtain ⟨d1, f1, tb⟩ := G.timed b hb
  have hn := G.nest a b d f d1 f1 ha hb ta tb
  simp only [isDescendant, (G.readTimes ta).1, (G.readTimes ta).2, (G.readTimes tb).1,
    (G.readTimes tb).2, ok_bind]
  by_cases hd : d ≥ d1
  · rw [if_pos hd]
    refine ⟨_, rfl, ?_⟩
    rw [← hn]
    simp only [decide_eq_true_eq]
    constructor
    · intro hf; exact ⟨hd, hf⟩
    · intro hf; exact hf.2
  · rw [if_neg hd]
    refine ⟨_, rfl, ?_⟩
    rw [← hn]
    constructor
    · intro hf; exact absurd hf (by simp)
    · intro hf; exact absurd hf.1 hd

theorem Good.isDescendant_true (G : Good h N par dep dpar mr) {x y : Int}
    (hxy : isDescendant h x y = Except.ok true) :
    ∃ a b : Nat, x = (a : Int) ∧ y = (b : Int) ∧ a ≤ N ∧ b ≤ N ∧ Anc par b a := by
  have hxy0 := hxy
  unfold isDescendant at hxy
  obtain ⟨d, h1, h2⟩ := (bind_ok_iff _ _ _).mp hxy
  obtain ⟨d1, h3, _⟩ := (bind_ok_iff _ _ _).mp h2
  obtain ⟨a, ha1, ha2⟩ := readInit_bound h1
  obtain ⟨b, hb1, hb2⟩ := readInit_bound h3
  have haN : a ≤ N := by
    obtain ⟨hh, _⟩ := List.getElem?_eq_some.mp ha2
    have := G.len_d
    omega
  have hbN : b ≤ N := by
    obtain ⟨hh, _⟩ := List.getElem?_eq_some.mp hb2
    have := G.len_d
    omega
  obtain ⟨r, e1, e2⟩ := G.isDescendant_spec a b haN hbN
  rw [ha1, hb1, e1] at hxy0
  have : r = true := by injection hxy0
  exact ⟨a, b, ha1, hb1, haN, hbN, e2.mp this⟩

theorem Good.primChild (G : Good h N par dep dpar mr) (p : Nat) (hp : p ≤ N) (c : α) :
    childOnLetter h (p : Int) (dep p : Int) c
      = Except.ok (firstOn h.text (dep p) c (kidsOf par N p)) := by
  apply childOnLetter_spec h p (dep p) c (kidsOf par N p) (G.prim.kids p hp)
  · intro x hx
    obtain ⟨h1, h2, h3⟩ := (mem_kidsOf par N p x).mp hx
    have := G.shape.dep_succ x h1 h2
    have := G.shape.dep_le x h2
    have := G.len
    rw [h3] at *
    omega
  · rw [fuel_eq h G.tl]
    have := length_kidsOf_le par N p
    have := G.len
    omega

theorem Good.index_loop (G : Good h N par dep dpar mr) (R : List α) (len : Nat)
    (hlen : len ≤ R.length) :
    ∀ fuel (c d : Nat), c ≤ N → dep c = d → d < len → len - d ≤ fuel →
      (∀ k, k < d → h.text[c - k]? = R[len - 1 - k]?) →
      ∃ (z e : Nat) (r : Int × Int × Int),
        indexIntoTrie.loop h R (len : Int) fuel (c : Int) (d : Int) = Except.ok r ∧
        (if r.2.1 = NOCHILD then (r.1, r.2.2 - 1) else (r.2.1, r.2.2)) = ((z : Int), (e : Int)) ∧
        z ≤ N ∧ dep z = e ∧ d ≤ e ∧ e ≤ len ∧ Anc par c z ∧
        (∀ k, k < e → h.text[z - k]? = R[len - 1 - k]?) ∧
        (e < len → ∀ x ∈ kidsOf par N z, h.text[x - e]? ≠ R[len - 1 - e]?) := by
  intro fuel
  induction fuel with
  | zero => intro c d _ _ h3 h4 _; omega
  | succ fuel ih =>
    intro c d hc hd hdl hf hpath
    obtain ⟨letter, hl⟩ : ∃ letter, R[len - 1 - d]? = some letter :=
      ⟨_, List.getElem?_eq_getElem (by omega)⟩
    have hidx : ((len : Int) - 1 - (d : Int)) = ((len - 1 - d : Nat) : Int) := by omega
    have hch := G.primChild c hc letter
    rw [hd] at hch
    simp only [indexIntoTrie.loop, hidx, readAt_cast _ _ _ hl, ok_bind, hch]
    by_cases hno : firstOn h.text d letter (kidsOf par N c) = NOCHILD
    · refine ⟨c, d, ((c : Int), NOCHILD, (d : Int) + 1), ?_, ?_, hc, hd, le_refl d, by omega,
        Anc.refl c, hpath, ?_⟩
      · rw [if_neg (by rw [hno]; simp), hno]
      · simp
      · intro _ x hx
        rw [hl]
        exact (firstOn_eq_NOCHILD h.text d letter _).mp hno x hx
    · obtain ⟨x, hx1, hx2, hx3⟩ := firstOn_eq_cast h.text d letter _ _ rfl hno
      obtain ⟨hx4, hx5, hx6⟩ := (mem_kidsOf par N c x).mp hx2
      have hdx := G.shape.dep_succ x hx4 hx5
      rw [hx6, hd] at hdx
      have hancx : Anc par c x := by rw [← hx6]; exact Anc.step hx4 (Anc.refl _)
      have hpx : ∀ k, k < d + 1 → h.text[x - k]? = R[len - 1 - k]? := by
        intro k hk
        by_cases hkd : k = d
        · subst hkd; rw [hx3, hl]
        · rw [← hpath k (by omega)]
          have := G.shape.path x hx4 hx5 k (by rw [hx6, hd]; omega)
          rw [hx6] at this
          exact this.symm
      by_cases hmore : d + 1 < len
      · have hcond : (firstOn h.text d letter (kidsOf par N c) ≠ NOCHILD ∧
            (d : Int) + 1 < (len : Int)) := ⟨hno, by omega⟩
        rw [if_pos hcond, hx1]
        obtain ⟨z, e, r, e1, e2, e3, e4, e5, e6, e7, e8, e9⟩ :=
          ih x (d + 1) hx5 hdx hmore (by omega) hpx
        refine ⟨z, e, r, ?_, e2, e3, e4, by omega, e6, Anc.compose hancx e7, e8, e9⟩
        have : ((d : Int) + 1) = ((d + 1 : Nat) : Int) := by push_cast; ring
        rw [this]; exact e1
      · have hcond : ¬ (firstOn h.text d letter (kidsOf par N c) ≠ NOCHILD ∧
            (d : Int) + 1 < (len : Int)) := by
          rintro ⟨_, hc2⟩; omega
        rw [if_neg hcond]
        refine ⟨x, d + 1, ((c : Int), (x : Int), (d : Int) + 1), by rw [hx1], ?_, hx5, hdx,
          by omega, by omega, hancx, hpx, ?_⟩
        · have hxne : ¬ ((x : Int) = NOCHILD) := by simp only [NOCHILD]; omega
          simp only [hxne, if_false]
          push_cast; rfl
        · intro hc2; omega

theorem Good.indexIntoTrie_spec (G : Good h N par dep dpar mr) (R : List α) (len : Nat)
    (h1 : 1 ≤ len) (hlen : len ≤ R.length) (ed : Option Int) :
    ∃ z e : Nat, indexIntoTrie h R (len : Int) ed = Except.ok ((z : Int), some (e : Int)) ∧
      z ≤ N ∧ dep z = e ∧ e ≤ len ∧
      (∀ k, k < e → h.text[z - k]? = R[len - 1 - k]?) ∧
      (e < len → ∀ x ∈ kidsOf par N z, h.text[x - e]? ≠ R[len - 1 - e]?) := by
  obtain ⟨z, e, r, e1, e2, e3, e4, _, e6, _, e8, e9⟩ :=
    G.index_loop R len hlen (patternFuel (len : Int)) 0 0 (Nat.zero_le N) G.shape.dep_zero
      (by omega) (by simp [patternFuel]) (fun k hk => by omega)
  refine ⟨z, e, ?_, e3, e4, e6, e8, e9⟩
  have hne : ¬ ((len : Int) = 0) := by omega
  simp only [Nat.cast_zero] at e1
  rw [indexIntoTrie, if_neg hne]
  show (indexIntoTrie.loop h R (len : Int) (patternFuel (len : Int)) 0 0 >>= _) = _
  rw [e1, ok_bind]
  by_cases hr : r.2.1 = NOCHILD
  · rw [if_pos hr] at e2
    rw [if_pos hr]
    injection e2 with a1 a2
    rw [a1, a2]
  · rw [if_neg hr] at e2
    rw [if_neg hr]
    injection e2 with a1 a2
    rw [a1, a2]

theorem path_loop_neg (h : heap α) (R : List α) (len z : Int) (fuel : Nat) (d : Int)
    (occ res : mylist) :
    pathOccurrences.loop h R len z fuel (-1) d occ ≠ Except.ok res := by
  cases fuel with
  | zero => simp [pathOccurrences.loop]
  | succ fuel =>
    intro hc
    rw [pathOccurrences.loop] at hc
    obtain ⟨m1, h1, _⟩ := (bind_ok_iff _ _ _).mp hc
    obtain ⟨j, hj, _⟩ := readInit_bound h1
    omega

theorem Good.path_loop (G : Good h N par dep dpar mr) (R : List α) (len : Int) (z : Nat)
    (hz : z ≤ N) :
    ∀ fuel (c d : Nat) (occ res : mylist), c ≤ N → dep c = d →
      pathOccurrences.loop h R len (z : Int) fuel (c : Int) (d : Int) occ = Except.ok res →
      ∃ L : List Nat, res = occ ++ L.map (fun a : Nat => (a : Int)) ∧ Anc par c z ∧ d < dep z ∧
        (∀ a ∈ L, a ≤ N ∧ d ≤ dep a ∧ dep a < dep z ∧ Anc par a z ∧ Anc par z (mr a)) ∧
        L.Pairwise (fun a b => dep a < dep b) := by
  intro fuel
  induction fuel with
  | zero => intro c d occ res _ _ hres; simp [pathOccurrences.loop] at hres
  | succ fuel ih =>
    intro c d occ res hc hd hres
    have hmrN : mr c ≤ N := by
      have := G.reach.lt c hc
      have := G.len
      omega
    have hmr : readInit h.maxReach (c : Int) = Except.ok ((mr c : Nat) : Int) :=
      readInit_cast _ _ _ (G.reachRep.eq c hc)
    obtain ⟨b, hb, hbiff⟩ := G.isDescendant_spec (mr c) z hmrN hz
    simp only [pathOccurrences.loop, hmr, ok_bind, hb] at hres
    obtain ⟨letter, _, hres2⟩ := (bind_ok_iff _ _ _).mp hres
    have hch := G.primChild c hc letter
    rw [hd] at hch
    rw [hch, ok_bind] at hres2
    -- the list contributed by the node `c` itself
    have hself : ∀ a ∈ (if b = true then [c] else []), a = c ∧ Anc par z (mr a) := by
      intro a ha
      by_cases hbt : b = true
      · rw [if_pos hbt] at ha
        have : a = c := by simpa using ha
        subst this
        exact ⟨rfl, hbiff.mp hbt⟩
      · rw [if_neg hbt] at ha; simp at ha
    have hadd : (if b = true then mylist.add occ (c : Int) else occ)
        = occ ++ (if b = true then [c] else []).map (fun a : Nat => (a : Int)) := by
      by_cases hbt : b = true
      · simp [hbt, mylist.add]
      · simp [hbt]
    by_cases hne : firstOn h.text d letter (kidsOf par N c) ≠ (z : Int)
    · rw [if_pos hne] at hres2
      by_cases hno : firstOn h.text d letter (kidsOf par N c) = NOCHILD
      · rw [hno] at hres2
        exact absurd hres2 (path_loop_neg h R len z fuel _ _ _)
      · obtain ⟨x, hx1, hx2, _⟩ := firstOn_eq_cast h.text d letter _ _ rfl hno
        obtain ⟨hx4, hx5, hx6⟩ := (mem_kidsOf par N c x).mp hx2
        have hdx := G.shape.dep_succ x hx4 hx5
        rw [hx6, hd] at hdx
        have hancx : Anc par c x := by rw [← hx6]; exact Anc.step hx4 (Anc.refl _)
        rw [hx1] at hres2
        have hcast : ((d : Int) + 1) = ((d + 1 : Nat) : Int) := by push_cast; ring
        rw [hcast] at hres2
        obtain ⟨L, e1, e2, e3, e4, e5⟩ := ih x (d + 1) _ res hx5 hdx hres2
        refine ⟨(if b = true then [c] else []) ++ L, ?_, Anc.compose hancx e2, by omega, ?_, ?_⟩
        · rw [e1, hadd, List.map_append, List.append_assoc]
        · intro a ha
          rcases List.mem_append.mp ha with ha1 | ha2
          · obtain ⟨rfl, hm⟩ := hself a ha1
            exact ⟨hc, by omega, by omega, Anc.compose hancx e2, hm⟩
          · obtain ⟨f1, f2, f3, f4, f5⟩ := e4 a ha2
            exact ⟨f1, by omega, f3, f4, f5⟩
        · refine List.pairwise_append.mpr ⟨?_, e5, ?_⟩
          · by_cases hbt : b = true
            · simp [hbt]
            · simp [hbt]
          · intro a ha1 a2 ha2
            obtain ⟨rfl, _⟩ := hself a ha1
            have := (e4 a2 ha2).2.1
            omega
    · rw [if_neg hne] at hres2
      have hzc : firstOn h.text d letter (kidsOf par N c) = (z : Int) := by
        by_contra hcon; exact hne hcon
      have hno : firstOn h.text d letter (kidsOf par N c) ≠ NOCHILD := by
        rw [hzc]; simp only [NOCHILD]; omega
      obtain ⟨x, hx1, hx2, _⟩ := firstOn_eq_cast h.text d letter _ _ rfl hno
      have hxz : x = z := by rw [hzc] at hx1; omega
      subst hxz
      obtain ⟨hx4, hx5, hx6⟩ := (mem_kidsOf par N c x).mp hx2
      have hdx := G.shape.dep_succ x hx4 hx5
      rw [hx6, hd] at hdx
      have hancx : Anc par c x := by rw [← hx6]; exact Anc.step hx4 (Anc.refl _)
      refine ⟨(if b = true then [c] else []), ?_, hancx, by omega, ?_, ?_⟩
      · rw [← hadd]
        injection hres2 with hres3
        exact hres3.symm
      · intro a ha
        obtain ⟨rfl, hm⟩ := hself a ha
        exact ⟨hc, by omega, by omega, hancx, hm⟩
      · by_cases hbt : b = true
        · simp [hbt]
        · simp [hbt]

theorem subtree_spec {text : List α} {N : Nat} {par dep dpar : Nat → Nat}
    (S : Shape text N par dep dpar) (h : heap α)
    (hK : ∀ p, p ≤ N → Kids h.downArray p (kidsOf par N p)) :
    ∀ fuel,
      (∀ (p : Nat) (occ : mylist), p ≤ N → (N + 1 - dep p) * (N + 2) ≤ fuel →
        ∃ L : List Nat, appendSubtreeOccurrences h fuel (p : Int) occ
            = Except.ok (occ ++ L.map (fun a : Nat => (a : Int))) ∧
          (∀ a, a ∈ L ↔ Sub par N p a) ∧ L.Nodup) ∧
      (∀ (c : Int) (xs : List Nat) (pp : Nat) (occ : mylist),
        Chain h.downArray c xs → xs.Nodup → (∀ x ∈ xs, 1 ≤ x ∧ x ≤ N ∧ par x = pp) → pp ≤ N →
        (N + 1 - (dep pp + 1)) * (N + 2) + xs.length + 1 ≤ fuel →
        ∃ L : List Nat, appendSubtreeOccurrences.children h fuel c occ
            = Except.ok (occ ++ L.map (fun a : Nat => (a : Int))) ∧
          (∀ a, a ∈ L ↔ ∃ x ∈ xs, Sub par N x a) ∧ L.Nodup) := by
  intro fuel
  induction fuel with
  | zero =>
    constructor
    · intro p occ hp hf
      have := S.dep_le p hp
      have h1 : 1 ≤ N + 1 - dep p := by omega
      have h2 : N + 2 ≤ (N + 1 - dep p) * (N + 2) := Nat.le_mul_of_pos_left _ h1
      omega
    · intro c xs pp occ _ _ _ _ hf
      omega
  | succ fuel ih =>
    constructor
    · intro p occ hp hf
      obtain ⟨nd, hnd, hch⟩ := hK p hp
      have hdp := S.dep_le p hp
      have hfuel : (N + 1 - (dep p + 1)) * (N + 2) + (kidsOf par N p).length + 1 ≤ fuel := by
        have h1 : N + 1 - dep p = (N + 1 - (dep p + 1)) + 1 := by omega
        rw [h1, Nat.add_mul] at hf
        have := length_kidsOf_le par N p
        omega
      obtain ⟨L, e1, e2, e3⟩ := ih.2 nd.getChild (kidsOf par N p) p (mylist.add occ (p : Int))
        hch (kidsOf_nodup par N p) (fun x hx => (mem_kidsOf par N p x).mp hx) hp hfuel
      refine ⟨p :: L, ?_, ?_, ?_⟩
      · rw [appendSubtreeOccurrences, readAt_cast _ _ _ hnd, ok_bind, e1]
        simp [mylist.add]
      · intro a
        rw [S.sub_iff p a, List.mem_cons, e2]
        constructor
        · rintro (h0 | h1)
          · exact Or.inl ⟨h0, hp⟩
          · exact Or.inr h1
        · rintro (⟨h0, _⟩ | h1)
          · exact Or.inl h0
          · exact Or.inr h1
      · refine List.nodup_cons.mpr ⟨?_, e3⟩
        intro hmem
        obtain ⟨x, hx, h1, h2⟩ := (e2 p).mp hmem
        obtain ⟨hx1, hx2, hx3⟩ := (mem_kidsOf par N p x).mp hx
        have d2 := S.anc_dep_le h1 h2
        have d3 := S.dep_succ x hx1 hx2
        rw [hx3] at d3
        omega
    · intro c xs pp occ hch hnd hxs hpp hf
      cases xs with
      | nil =>
        have hc : c = NOCHILD := hch
        refine ⟨[], ?_, by simp, List.nodup_nil⟩
        rw [appendSubtreeOccurrences.children, hc]
        simp
      | cons x rest =>
        obtain ⟨hcx, nd, hndx, hrest⟩ := hch
        obtain ⟨hx1, hx2, hx3⟩ := hxs x (List.mem_cons_self _ _)
        have hdx := S.dep_succ x hx1 hx2
        rw [hx3] at hdx
        simp only [List.length_cons] at hf
        obtain ⟨L1, e1, e2, e3⟩ := ih.1 x occ hx2 (by rw [hdx]; omega)
        obtain ⟨L2, f1, f2, f3⟩ := ih.2 nd.sibling rest pp (occ ++ L1.map (fun a : Nat => (a : Int)))
          hrest (List.nodup_cons.mp hnd).2 (fun y hy => hxs y (List.mem_cons_of_mem _ hy)) hpp
          (by omega)
        have hcne : c ≠ NOCHILD := by rw [hcx]; simp only [NOCHILD]; omega
        refine ⟨L1 ++ L2, ?_, ?_, ?_⟩
        · rw [appendSubtreeOccurrences.children, if_pos hcne, hcx, e1, ok_bind,
            readAt_cast _ _ _ hndx, ok_bind]
          show appendSubtreeOccurrences.children h fuel nd.sibling _ = _
          rw [f1, List.map_append, List.append_assoc]
        · intro a
          rw [List.mem_append, e2, f2]
          simp only [List.mem_cons, exists_eq_or_imp]
        · refine List.nodup_append.mpr ⟨e3, f3, ?_⟩
          intro a ha1 ha2
          have hax := (e2 a).mp ha1
          obtain ⟨y, hy, hay⟩ := (f2 a).mp ha2
          obtain ⟨hy1, hy2, hy3⟩ := hxs y (List.mem_cons_of_mem _ hy)
          have hdy := S.dep_succ y hy1 hy2
          rw [hy3] at hdy
          have hne : x ≠ y := by
            rintro rfl; exact (List.nodup_cons.mp hnd).1 hy
          exact hne (S.sibling_disjoint hax.1 (by omega) hax.2 hay.2)

theorem Good.occ_of_reach (G : Good h N par dep dpar mr) {a z : Nat} (ha : a ≤ N)
    (hza : Anc par z (mr a)) :
    dep z ≤ a + 1 ∧ ∀ k, k < dep z → h.text[a - k]? = h.text[z - k]? := by
  have hmrN : mr a ≤ N := by
    have := G.reach.lt a ha
    have := G.len
    omega
  have h1 := G.shape.anc_dep_le hmrN hza
  have h2 := G.reach.dep_le a ha
  refine ⟨by omega, ?_⟩
  intro k hk
  rw [G.shape.anc_path hmrN hza k hk]
  exact (G.reach.path a ha k (by omega)).symm

theorem Good.occ_of_sub (G : Good h N par dep dpar mr) {a z : Nat} (ha : a ≤ N)
    (hza : Anc par z a) :
    dep z ≤ a + 1 ∧ ∀ k, k < dep z → h.text[a - k]? = h.text[z - k]? := by
  have h1 := G.shape.anc_dep_le ha hza
  have h2 := G.shape.dep_le a ha
  refine ⟨by omega, ?_⟩
  intro k hk
  exact (G.shape.anc_path ha hza k hk).symm

theorem Good.deepFuel_ok (G : Good h N par dep dpar mr) (z : Nat) :
    (N + 1 - dep z) * (N + 2) ≤ h.deepFuel := by
  have hn : h.textLength.toNat = N + 1 := by rw [G.tl, ← G.len]; simp
  rw [heap.deepFuel, hn]
  exact Nat.mul_le_mul (by omega) (by omega)

theorem Good.genCandidates_ok (G : Good h N par dep dpar mr) (R : List α) (len : Nat)
    (h1 : 1 ≤ len) (hlen : len ≤ R.length) (ed : Option Int) (res : mylist × Option Int)
    (hres : genCandidates h R (len : Int) ed = Except.ok res) :
    ∃ (e : Nat) (L : List Nat), res = (L.map (fun a : Nat => (a : Int)), some (e : Int)) ∧
      1 ≤ e ∧ e ≤ len ∧ L.Nodup ∧
      ∀ a ∈ L, a ≤ N ∧ e ≤ a + 1 ∧ ∀ k, k < e → h.text[a - k]? = R[len - 1 - k]? := by
  obtain ⟨z, e, e1, e2, e3, e4, e5, _⟩ := G.indexIntoTrie_spec R len h1 hlen ed
  rw [genCandidates, e1, ok_bind] at hres
  obtain ⟨c1, hc1, hres2⟩ := (bind_ok_iff _ _ _).mp hres
  rw [pathOccurrences] at hc1
  obtain ⟨L1, f1, _, f3, f4, f5⟩ := G.path_loop R (len : Int) z e2 _ 0 0 [] c1 (Nat.zero_le N)
    G.shape.dep_zero (by simpa using hc1)
  rw [List.nil_append] at f1
  have hL1 : L1.Nodup := by
    apply List.Pairwise.imp _ f5
    intro a b hab heq
    rw [heq] at hab
    exact absurd hab (lt_irrefl _)
  have hprop1 : ∀ a ∈ L1, a ≤ N ∧ e ≤ a + 1 ∧ ∀ k, k < e → h.text[a - k]? = R[len - 1 - k]? := by
    intro a ha
    obtain ⟨g1, _, _, _, g5⟩ := f4 a ha
    obtain ⟨g6, g7⟩ := G.occ_of_reach g1 g5
    rw [e3] at g6 g7
    exact ⟨g1, g6, fun k hk => (g7 k hk).trans (e5 k hk)⟩
  have hpropz : ∀ a, Anc par z a → a ≤ N →
      a ≤ N ∧ e ≤ a + 1 ∧ ∀ k, k < e → h.text[a - k]? = R[len - 1 - k]? := by
    intro a ha haN
    obtain ⟨g6, g7⟩ := G.occ_of_sub haN ha
    rw [e3] at g6 g7
    exact ⟨haN, g6, fun k hk => (g7 k hk).trans (e5 k hk)⟩
  simp only [initialised, ok_bind] at hres2
  by_cases hfull : (e : Int) = (len : Int)
  · rw [if_pos hfull] at hres2
    obtain ⟨L2, g1, g2, g3⟩ := (subtree_spec G.shape h (fun p hp => G.prim.kids p hp)
      h.deepFuel).1 z c1 e2 (G.deepFuel_ok z)
    rw [g1, ok_bind] at hres2
    refine ⟨e, L1 ++ L2, ?_, by omega, e4, ?_, ?_⟩
    · injection hres2 with hres3
      rw [← hres3, f1, List.map_append]
    · refine List.nodup_append.mpr ⟨hL1, g3, ?_⟩
      intro a ha1 ha2
      have d1 := (f4 a ha1).2.2.1
      have hs := (g2 a).mp ha2
      have d2 := G.shape.anc_dep_le hs.1 hs.2
      omega
    · intro a ha
      rcases List.mem_append.mp ha with ha1 | ha2
      · exact hprop1 a ha1
      · have hs := (g2 a).mp ha2
        exact hpropz a hs.2 hs.1
  · rw [if_neg hfull] at hres2
    refine ⟨e, L1 ++ [z], ?_, by omega, e4, ?_, ?_⟩
    · injection hres2 with hres3
      rw [← hres3, f1, List.map_append]
      simp [mylist.add]
    · refine List.nodup_append.mpr ⟨hL1, List.nodup_singleton z, ?_⟩
      intro a ha1 ha2
      have d1 := (f4 a ha1).2.2.1
      have : a = z := by simpa using ha2
      subst this
      omega
    · intro a ha
      rcases List.mem_append.mp ha with ha1 | ha2
      · exact hprop1 a ha1
      · have : a = z := by simpa using ha2
        subst this
        exact hpropz a (Anc.refl a) e2

theorem Good.keep_true (G : Good h N par dep dpar mr) (z : Nat) (fell : Bool) (offset c : Int)
    (hk : pruneCandidates.keep h (z : Int) fell offset c = Except.ok true) :
    ∃ w : Nat, c - offset = (w : Int) ∧ w ≤ N ∧ dep z ≤ w + 1 ∧
      ∀ k, k < dep z → h.text[w - k]? = h.text[z - k]? := by
  unfold pruneCandidates.keep at hk
  by_cases h0 : c - offset ≥ 0
  · rw [if_pos h0] at hk
    obtain ⟨a1, ha1, hk2⟩ := (bind_ok_iff _ _ _).mp hk
    obtain ⟨a, ha, hk3⟩ := (bind_ok_iff _ _ _).mp hk2
    by_cases hat : a = true
    · subst hat
      cases a1 with
      | false => simp at ha
      | true =>
        simp only [if_true] at ha
        obtain ⟨mrw, hm1, hm2⟩ := (bind_ok_iff _ _ _).mp ha
        obtain ⟨_, w, _, hw, _, hwN, _⟩ := G.isDescendant_true ha1
        rw [hw] at hm1
        have hmr := readInit_cast _ _ _ (G.reachRep.eq w hwN)
        rw [hmr] at hm1
        injection hm1 with hm3
        rw [← hm3] at hm2
        obtain ⟨a2, b2, ea, eb, _, _, hanc⟩ := G.isDescendant_true hm2
        have ea2 : a2 = mr w := by omega
        have eb2 : b2 = z := by omega
        subst ea2 eb2
        obtain ⟨g1, g2⟩ := G.occ_of_reach hwN hanc
        exact ⟨w, hw, hwN, g1, g2⟩
    · have haf : a = false := by cases a <;> simp_all
      subst haf
      simp only [Bool.false_eq_true, if_false] at hk3
      cases fell with
      | true => simp at hk3
      | false =>
        simp only [Bool.not_false, if_true] at hk3
        obtain ⟨a2, b2, ea, eb, haN, _, hanc⟩ := G.isDescendant_true hk3
        have eb2 : b2 = z := by omega
        subst eb2
        obtain ⟨g1, g2⟩ := G.occ_of_sub haN hanc
        exact ⟨a2, ea, haN, g1, g2⟩
  · rw [if_neg h0] at hk
    simp at hk

theorem prune_loop_ok (hp : heap α) (z : Int) (fell : Bool) (offset : Int) :
    ∀ (cs : List Int) (acc res : mylist),
      pruneCandidates.loop hp z fell offset cs acc = Except.ok res →
      ∃ L, res = acc ++ L ∧ L.Sublist cs ∧
        ∀ c ∈ L, pruneCandidates.keep hp z fell offset c = Except.ok true := by
  intro cs
  induction cs with
  | nil =>
    intro acc res hres
    rw [pruneCandidates.loop] at hres
    injection hres with hres
    exact ⟨[], by simp [hres], List.Sublist.refl _, by simp⟩
  | cons c rest ih =>
    intro acc res hres
    rw [pruneCandidates.loop] at hres
    obtain ⟨k, hk, hres2⟩ := (bind_ok_iff _ _ _).mp hres
    obtain ⟨L, e1, e2, e3⟩ := ih _ _ hres2
    cases k with
    | true =>
      refine ⟨c :: L, ?_, List.Sublist.cons₂ c e2, ?_⟩
      · rw [e1]; simp [mylist.add]
      · intro x hx
        rcases List.mem_cons.mp hx with rfl | hx2
        · exact hk
        · exact e3 x hx2
    | false =>
      refine ⟨L, ?_, List.Sublist.cons c e2, e3⟩
      rw [e1]; simp

theorem Good.prune_ok (G : Good h N par dep dpar mr) (R : List α) (len : Nat)
    (h1 : 1 ≤ len) (hlen : len ≤ R.length) (cands : mylist) (offset : Int)
    (res : mylist × Int) (hres : pruneCandidates h R (len : Int) cands offset = Except.ok res) :
    ∃ e : Nat, e ≤ len ∧ res.2 = offset + (e : Int) ∧ res.1.Sublist cands ∧
      (1 ≤ e ∨ res.1 = []) ∧
      ∀ c ∈ res.1, ∃ w : Nat, c - offset = (w : Int) ∧ w ≤ N ∧ e ≤ w + 1 ∧
        ∀ k, k < e → h.text[w - k]? = R[len - 1 - k]? := by
  obtain ⟨z, e, e1, e2, e3, e4, e5, _⟩ := G.indexIntoTrie_spec R len h1 hlen none
  rw [pruneCandidates, e1, ok_bind] at hres
  simp only [initialised, ok_bind] at hres
  by_cases hpos : (e : Int) > 0
  · rw [if_pos hpos] at hres
    obtain ⟨nc, hnc, hres2⟩ := (bind_ok_iff _ _ _).mp hres
    injection hres2 with hres3
    obtain ⟨L, f1, f2, f3⟩ := prune_loop_ok h _ _ _ _ _ _ hnc
    rw [List.nil_append] at f1
    subst f1
    refine ⟨e, e4, by rw [← hres3], by rw [← hres3]; exact f2, Or.inl (by omega), ?_⟩
    intro c hc
    rw [← hres3] at hc
    obtain ⟨w, g1, g2, g3, g4⟩ := G.keep_true z _ _ _ (f3 c hc)
    rw [e3] at g3 g4
    exact ⟨w, g1, g2, g3, fun k hk => (g4 k hk).trans (e5 k hk)⟩
  · rw [if_neg hpos] at hres
    injection hres with hres3
    refine ⟨0, by omega, by rw [← hres3]; simp, by rw [← hres3]; simp, Or.inr (by rw [← hres3]),
      ?_⟩
    intro c hc
    rw [← hres3] at hc
    simp at hc

end Query

theorem reverse_full (P : List α) : reverse P (P.length : Int) = P.reverse := by
  simp [reverse]

theorem reverse_reverse (p : List α) (m : Int) : reverse (reverse p m) m = p := by
  unfold reverse
  by_cases hm : m.toNat ≤ p.length
  · have hl : ((List.take m.toNat p).reverse).length = m.toNat := by simp [hm]
    rw [List.take_append_of_le_length (by omega), List.take_of_length_le (by omega),
      List.reverse_reverse, List.drop_append_of_le_length (by omega),
      List.drop_of_length_le (by omega), List.nil_append, List.take_append_drop]
  · have h1 : List.take m.toNat p = p := List.take_of_length_le (by omega)
    have h2 : List.drop m.toNat p = [] := List.drop_of_length_le (by omega)
    rw [h1, h2, List.append_nil, List.take_of_length_le (by simp; omega),
      List.drop_of_length_le (by simp; omega)]
    simp

section Query2
variable {h : heap α} {N : Nat} {par dep dpar mr : Nat → Nat}

theorem Good.pruneLoop_ok (G : Good h N par dep dpar mr) (R : List α) (m : Nat)
    (hm : m ≤ R.length) :
    ∀ fuel (cands : mylist) (o : Nat) (res : mylist), o ≤ m →
      (∀ c ∈ cands, ∃ a : Nat, c = (a : Int) ∧ a ≤ N ∧ o ≤ a + 1 ∧
        ∀ k, k < o → h.text[a - k]? = R[m - 1 - k]?) →
      search.pruneLoop h R (m : Int) fuel cands (o : Int) = Except.ok res →
      res.Sublist cands ∧
        ∀ c ∈ res, ∃ a : Nat, c = (a : Int) ∧ a ≤ N ∧ m ≤ a + 1 ∧
          ∀ k, k < m → h.text[a - k]? = R[m - 1 - k]? := by
  intro fuel
  induction fuel with
  | zero => intro cands o res _ _ hres; simp [search.pruneLoop] at hres
  | succ fuel ih =>
    intro cands o res ho hinv hres
    rw [search.pruneLoop] at hres
    by_cases hcond : (o : Int) < (m : Int) ∧ mylist.size cands > 0
    · rw [if_pos hcond] at hres
      obtain ⟨r, hr, hres2⟩ := (bind_ok_iff _ _ _).mp hres
      have hlen : ((m : Int) - (o : Int)) = ((m - o : Nat) : Int) := by omega
      rw [hlen] at hr
      obtain ⟨e, e1, e2, e3, _, e5⟩ := G.prune_ok R (m - o) (by omega) (by omega) _ _ _ hr
      have hoff : r.2 = ((o + e : Nat) : Int) := by rw [e2]; push_cast; rfl
      rw [hoff] at hres2
      have hinv2 : ∀ c ∈ r.1, ∃ a : Nat, c = (a : Int) ∧ a ≤ N ∧ o + e ≤ a + 1 ∧
          ∀ k, k < o + e → h.text[a - k]? = R[m - 1 - k]? := by
        intro c hc
        obtain ⟨a, g1, g2, g3, g4⟩ := hinv c (e3.subset hc)
        obtain ⟨w, f1, f2, f3, f4⟩ := e5 c hc
        have hwa : w = a - o ∧ o ≤ a := by omega
        obtain ⟨hw1, hw2⟩ := hwa
        subst hw1
        refine ⟨a, g1, g2, by omega, ?_⟩
        intro k hk
        by_cases hko : k < o
        · exact g4 k hko
        · have := f4 (k - o) (by omega)
          have i1 : a - o - (k - o) = a - k := by omega
          have i2 : m - o - 1 - (k - o) = m - 1 - k := by omega
          rw [i1, i2] at this
          exact this
      obtain ⟨f1, f2⟩ := ih r.1 (o + e) res (by omega) hinv2 hres2
      exact ⟨f1.trans e3, f2⟩
    · rw [if_neg hcond] at hres
      injection hres with hres2
      subst hres2
      refine ⟨List.Sublist.refl _, ?_⟩
      by_cases hom : o = m
      · subst hom; exact hinv
      · have hsz : ¬ (mylist.size cands > 0) := fun hc => hcond ⟨by omega, hc⟩
        have hnil : cands = [] := by
          cases cands with
          | nil => rfl
          | cons x xs => exact absurd (by simp [mylist.size]) hsz
        subst hnil
        intro c hc; simp at hc

theorem genCandidates_zero (h : heap α) (R : List α) (ed : Option Int)
    (res : mylist × Option Int) : genCandidates h R 0 ed ≠ Except.ok res := by
  intro hc
  rw [genCandidates, indexIntoTrie, if_pos rfl, ok_bind] at hc
  obtain ⟨c1, hc1, _⟩ := (bind_ok_iff _ _ _).mp hc
  have hf : patternFuel 0 = 1 + 1 := rfl
  rw [pathOccurrences, hf, pathOccurrences.loop] at hc1
  obtain ⟨_, _, hc2⟩ := (bind_ok_iff _ _ _).mp hc1
  obtain ⟨_, _, hc3⟩ := (bind_ok_iff _ _ _).mp hc2
  obtain ⟨_, hc4, _⟩ := (bind_ok_iff _ _ _).mp hc3
  obtain ⟨j, hj, _⟩ := readAt_bound hc4
  omega

theorem Good.search_ok (G : Good h N par dep dpar mr) (INVALID : Int) (P : List α)
    (res : mylist × List α) (hres : search h INVALID P (P.length : Int) = Except.ok res) :
    res.1.Nodup ∧ ∀ c ∈ res.1, ∃ a : Nat, c = (a : Int) ∧ a ≤ N ∧ P.length ≤ a + 1 ∧
      ∀ k, k < P.length → h.text[a - k]? = P[k]? := by
  rw [search, reverse_full] at hres
  obtain ⟨r, hr, hres2⟩ := (bind_ok_iff _ _ _).mp hres
  by_cases hm : P.length = 0
  · rw [hm] at hr
    exact absurd hr (genCandidates_zero h _ _ _)
  · obtain ⟨e, L, e1, e2, e3, e4, e5⟩ := G.genCandidates_ok P.reverse P.length (by omega)
      (by simp) none r hr
    subst e1
    simp only [initialised, ok_bind] at hres2
    obtain ⟨cands, hc, hres3⟩ := (bind_ok_iff _ _ _).mp hres2
    injection hres3 with hres4
    have hrev : ∀ k, k < P.length → P.reverse[P.length - 1 - k]? = P[k]? := by
      intro k hk
      rw [List.getElem?_reverse (by omega)]
      congr 1
      omega
    have key : cands.Sublist (L.map (fun a : Nat => (a : Int))) ∧
        ∀ c ∈ cands, ∃ a : Nat, c = (a : Int) ∧ a ≤ N ∧ P.length ≤ a + 1 ∧
          ∀ k, k < P.length → h.text[a - k]? = P.reverse[P.length - 1 - k]? := by
      have hinv : ∀ c ∈ L.map (fun a : Nat => (a : Int)), ∃ a : Nat, c = (a : Int) ∧ a ≤ N ∧
          e ≤ a + 1 ∧ ∀ k, k < e → h.text[a - k]? = P.reverse[P.length - 1 - k]? := by
        intro c hc
        obtain ⟨a, ha, rfl⟩ := List.mem_map.mp hc
        obtain ⟨g1, g2, g3⟩ := e5 a ha
        exact ⟨a, rfl, g1, g2, g3⟩
      by_cases hfell : (e : Int) < (P.length : Int)
      · rw [if_neg (not_not.mpr hfell)] at hc
        exact G.pruneLoop_ok P.reverse P.length (by simp) _ _ e cands e3 hinv hc
      · rw [if_pos hfell] at hc
        injection hc with hc2
        have hem : e = P.length := by omega
        subst hc2
        refine ⟨List.filter_sublist _, ?_⟩
        intro c hc3
        have := hinv c (List.mem_of_mem_filter hc3)
        rw [hem] at this
        exact this
    rw [← hres4]
    refine ⟨?_, ?_⟩
    · apply List.Nodup.sublist key.1
      exact List.Nodup.map (fun a b hab => by simpa using hab) e4
    · intro c hc2
      obtain ⟨a, g1, g2, g3, g4⟩ := key.2 c hc2
      exact ⟨a, g1, g2, g3, fun k hk => (g4 k hk).trans (hrev k hk)⟩

end Query2

theorem heap_new_nil : heap.new ([] : List α) = Except.error Fault.outOfBounds := rfl

theorem searchText_ok (INVALID : Int) (T P : List α) (l : mylist)
    (hl : searchText INVALID T P = Except.ok l) :
    l.Nodup ∧ ∀ x ∈ l, Occurs T P x := by
  by_cases hT : T = []
  · subst hT
    rw [searchText, heap_new_nil] at hl
    simp at hl
  · obtain ⟨h, par, dep, dpar, mr, e1, e2, G⟩ := heap_new_spec T hT
    rw [searchText, e1, ok_bind] at hl
    obtain ⟨r, hr, hl2⟩ := (bind_ok_iff _ _ _).mp hl
    injection hl2 with hl3
    obtain ⟨g1, g2⟩ := G.search_ok INVALID P r hr
    rw [← hl3]
    refine ⟨g1, ?_⟩
    intro x hx
    obtain ⟨a, f1, f2, f3, f4⟩ := g2 x hx
    have hlen := G.len
    rw [e2, List.length_reverse] at hlen
    subst f1
    refine ⟨by omega, by simpa using f3, by simp; omega, ?_⟩
    intro k hk
    have := f4 k hk
    rw [e2] at this
    simpa using this

/-! ## Root paths in the final tree -/

theorem compact_of_nonneg (INVALID : Int) (hI : INVALID < 0) (L : List Nat) :
    mylist.compact INVALID (L.map (fun a : Nat => (a : Int))) = L.map (fun a : Nat => (a : Int)) := by
  unfold mylist.compact
  apply List.filter_eq_self.mpr
  intro x hx
  obtain ⟨a, _, rfl⟩ := List.mem_map.mp hx
  simp only [ne_eq, decide_not, Bool.not_eq_true', decide_eq_false_iff_not]
  omega

theorem Good.search_marker {h : heap α} {N : Nat} {par dep dpar mr : Nat → Nat}
    (G : Good h N par dep dpar mr) (I1 I2 : Int) (h1 : I1 < 0) (h2 : I2 < 0) (P : List α) :
    search h I1 P (P.length : Int) = search h I2 P (P.length : Int) := by
  unfold search
  cases hr : genCandidates h (reverse P (P.length : Int)) (P.length : Int) none with
  | error e => rfl
  | ok r =>
    by_cases hm : P.length = 0
    · rw [hm] at hr
      exact absurd hr (genCandidates_zero h _ _ _)
    · rw [reverse_full] at hr
      obtain ⟨e, L, e1, _, _, _, _⟩ := G.genCandidates_ok P.reverse P.length (by omega)
        (by simp) none r hr
      subst e1
      simp only [ok_bind, compact_of_nonneg I1 h1, compact_of_nonneg I2 h2]

theorem searchText_marker (INVALID : Int) (hI : INVALID < 0) (T P : List α) :
    searchText INVALID T P = searchText (-1) T P := by
  by_cases hT : T = []
  · subst hT
    rw [searchText, searchText, heap_new_nil]
    rfl
  · obtain ⟨h, par, dep, dpar, mr, e1, _, G⟩ := heap_new_spec T hT
    rw [searchText, searchText, e1, ok_bind, ok_bind, G.search_marker INVALID (-1) hI (by omega)]

theorem chain_onChain {da : List downNode} {c0 : Int} {xs : List Nat} (hc : Chain da c0 xs)
    (x : Int) : OnChain da c0 x ↔ ∃ y ∈ xs, x = (y : Int) := by
  constructor
  · intro ho
    induction ho generalizing xs with
    | @here c nd hr =>
      obtain ⟨j, hj, _⟩ := readAt_bound hr
      cases xs with
      | nil =>
        have : c = NOCHILD := hc
        simp only [NOCHILD] at this
        omega
      | cons y ys => exact ⟨y, List.mem_cons_self _ _, hc.1⟩
    | @next c x nd hr _ ih =>
      obtain ⟨j, hj, hj2⟩ := readAt_bound hr
      cases xs with
      | nil =>
        have : c = NOCHILD := hc
        simp only [NOCHILD] at this
        omega
      | cons y ys =>
        obtain ⟨h1, nd1, h2, h3⟩ := hc
        have hjy : j = y := by omega
        subst hjy
        rw [hj2] at h2
        injection h2 with h2
        subst h2
        obtain ⟨w, hw, hxw⟩ := ih h3
        exact ⟨w, List.mem_cons_of_mem _ hw, hxw⟩
  · rintro ⟨y, hy, rfl⟩
    induction xs generalizing c0 with
    | nil => simp at hy
    | cons z zs ih =>
      obtain ⟨h1, nd1, h2, h3⟩ := hc
      subst h1
      rcases List.mem_cons.mp hy with rfl | hy2
      · exact OnChain.here (readAt_cast _ _ _ h2)
      · exact OnChain.next (readAt_cast _ _ _ h2) (ih h3 hy2)

section Paths
variable {h : heap α} {N : Nat} {par dep dpar mr : Nat → Nat}

theorem Good.isChild_iff (G : Good h N par dep dpar mr) (p c : Int) :
    IsChild h p c ↔ ∃ pn cn : Nat, p = (pn : Int) ∧ c = (cn : Int) ∧ pn ≤ N ∧
      cn ∈ kidsOf par N pn := by
  constructor
  · rintro ⟨nd, h1, h2⟩
    obtain ⟨pn, hp, hp2⟩ := readAt_bound h1
    have hpN : pn ≤ N := by
      obtain ⟨hh, _⟩ := List.getElem?_eq_some.mp hp2
      have := G.prim.len_da
      have := G.len
      omega
    obtain ⟨nd1, h3, h4⟩ := G.prim.kids pn hpN
    rw [hp2] at h3
    injection h3 with h3
    subst h3
    obtain ⟨y, hy, hcy⟩ := (chain_onChain h4 c).mp h2
    exact ⟨pn, y, hp, hcy, hpN, hy⟩
  · rintro ⟨pn, cn, rfl, rfl, hpN, hc⟩
    obtain ⟨nd1, h3, h4⟩ := G.prim.kids pn hpN
    exact ⟨nd1, readAt_cast _ _ _ h3, (chain_onChain h4 _).mpr ⟨cn, hc, rfl⟩⟩

theorem Good.rootPath_node (G : Good h N par dep dpar mr) {y : Int} {ls : List α}
    (hp : RootPath h y ls) :
    ∃ z : Nat, y = (z : Int) ∧ z ≤ N ∧ dep z = ls.length ∧
      ∀ k, k < ls.length → ls[k]? = h.text[z - k]? := by
  induction hp with
  | root => exact ⟨0, rfl, Nat.zero_le N, G.shape.dep_zero, fun k hk => by simp at hk⟩
  | @edge p c ls a _ hch hrd ih =>
    obtain ⟨pz, h1, h2, h3, h4⟩ := ih
    obtain ⟨pn, cn, e1, e2, e3, e4⟩ := (G.isChild_iff p c).mp hch
    have hpp : pn = pz := by omega
    subst hpp
    obtain ⟨f1, f2, f3⟩ := (mem_kidsOf par N pn cn).mp e4
    have hd := G.shape.dep_succ cn f1 f2
    have hle := G.shape.dep_le cn f2
    rw [f3] at hd
    obtain ⟨j, hj1, hj2⟩ := readAt_bound hrd
    have hjv : j = cn - ls.length := by omega
    subst hjv
    refine ⟨cn, e2, f2, by simp; omega, ?_⟩
    intro k hk
    simp only [List.length_append, List.length_singleton] at hk
    by_cases hkl : k < ls.length
    · rw [List.getElem?_append_left hkl, h4 k hkl]
      have := G.shape.path cn f1 f2 k (by rw [f3]; omega)
      rw [f3] at this
      exact this
    · have hkeq : k = ls.length := by omega
      subst hkeq
      rw [List.getElem?_append_right (le_refl _)]
      simp [hj2]

theorem Good.rootPath_exists (G : Good h N par dep dpar mr) (z : Nat) (hz : z ≤ N) :
    ∃ ls, RootPath h (z : Int) ls ∧ ls.length = dep z := by
  induction z using Nat.strong_induction_on with
  | _ z ih =>
    by_cases h0 : z = 0
    · subst h0
      exact ⟨[], RootPath.root, G.shape.dep_zero.symm⟩
    · have hp := G.shape.par_lt z (by omega) hz
      have hd := G.shape.dep_succ z (by omega) hz
      have hle := G.shape.dep_le z hz
      obtain ⟨ls, h1, h2⟩ := ih (par z) hp (by omega)
      obtain ⟨a, ha⟩ : ∃ a, h.text[z - ls.length]? = some a :=
        ⟨_, List.getElem?_eq_getElem (by have := G.len; omega)⟩
      refine ⟨ls ++ [a], RootPath.edge h1 ?_ ?_, by simp; omega⟩
      · exact (G.isChild_iff _ _).mpr ⟨par z, z, rfl, rfl, by omega,
          (mem_kidsOf par N (par z) z).mpr ⟨by omega, hz, rfl⟩⟩
      · have : ((z : Int) - (ls.length : Int)) = ((z - ls.length : Nat) : Int) := by omega
        rw [this]
        exact readAt_cast _ _ _ ha

end Paths

/-! ## Properties of the specification -/

theorem aabIndex_built : heap.new "aab".toList = Except.ok aabIndex := by decide!

/-- C1 (soundness of search): every position `x` in the list that `search` returns for
the pattern `P` on the index built from the text `T` is an occurrence of `P`:
`m - 1 ≤ x ≤ n - 1` and `text[x - k] = P[k]` for all `k < m`, `text` being `T`
reversed. -/
theorem search_sound (INVALID : Int) (T P : List α) (l : mylist)
    (hl : searchText INVALID T P = Except.ok l) : ∀ x ∈ l, Occurs T P x :=
  (searchText_ok INVALID T P l hl).2

theorem search_sound_witness :
    searchText (-1) "abracadabra".toList "abra".toList = Except.ok [3, 10] ∧
      ∀ x ∈ ([3, 10] : mylist), Occurs "abracadabra".toList "abra".toList x :=
  ⟨by decide!, search_sound (-1) "abracadabra".toList "abra".toList [3, 10] (by decide!)⟩

/-- C2 (completeness of search) fails on the code: for the text `ab` and the pattern
`ab` the search returns the empty list although position 1 is an occurrence. -/
theorem search_incomplete_at_ab :
    searchText (-1) "ab".toList "ab".toList = Except.ok [] ∧
      Occurs "ab".toList "ab".toList 1 := by decide!

/-- C3 (no duplicates): the list that `search` returns for the pattern `P` on the index
built from the text `T` contains no position twice. -/
theorem search_nodup (INVALID : Int) (T P : List α) (l : mylist)
    (hl : searchText INVALID T P = Except.ok l) : l.Nodup :=
  (searchText_ok INVALID T P l hl).1

theorem search_nodup_witness :
    searchText (-1) "abracadabra".toList "a".toList = Except.ok [0, 3, 10, 7, 5] ∧
      ([0, 3, 10, 7, 5] : mylist).Nodup :=
  ⟨by decide!, search_nodup (-1) "abracadabra".toList "a".toList [0, 3, 10, 7, 5] (by decide!)⟩

/-- C4 (self-search) fails on the code: `ab` is a suffix of length 2 of the text `aab`,
its leftmost character is at position 1, and the search for it returns the empty
list. -/
theorem self_search_fails_at_aab :
    searchText (-1) "aab".toList "ab".toList = Except.ok [] ∧
      Occurs "aab".toList "ab".toList 1 := by decide!

theorem scenario_abra : searchText (-1) "abracadabra".toList "abra".toList
    = Except.ok [3, 10] := by decide!

theorem scenario_a : searchText (-1) "abracadabra".toList "a".toList
    = Except.ok [0, 3, 10, 7, 5] := by decide!

theorem scenario_cad : searchText (-1) "abracadabra".toList "cad".toList
    = Except.ok [6] := by decide!

theorem scenario_aa : searchText (-1) "aaaa".toList "aa".toList
    = Except.ok [1, 2, 3] := by decide!

theorem scenario_issi : searchText (-1) "mississippi".toList "issi".toList
    = Except.ok [6, 9] := by decide!

theorem scenario_ssippix : searchText (-1) "mississippi".toList "ssippix".toList
    = Except.ok [] := by decide!

/-- C5 (end-to-end scenarios): with a marker `INVALID` that is not a position, the
search returns, translated to left-to-right starts `n - 1 - x`, exactly the start set
`{0, 7}` for `abra` in `abracadabra`, `{0, 3, 5, 7, 10}` for `a`, `{4}` for `cad`,
`{0, 1, 2}` for `aa` in `aaaa`, `{1, 4}` for `issi` in `mississippi` and the empty set
for `ssippix`. -/
theorem end_to_end_scenarios (INVALID : Int) (hI : INVALID < 0) :
    (∃ l, searchText INVALID "abracadabra".toList "abra".toList = Except.ok l ∧
      ∀ s, s ∈ startsOf 11 l ↔ s ∈ ([0, 7] : List Int)) ∧
    (∃ l, searchText INVALID "abracadabra".toList "a".toList = Except.ok l ∧
      ∀ s, s ∈ startsOf 11 l ↔ s ∈ ([0, 3, 5, 7, 10] : List Int)) ∧
    (∃ l, searchText INVALID "abracadabra".toList "cad".toList = Except.ok l ∧
      ∀ s, s ∈ startsOf 11 l ↔ s ∈ ([4] : List Int)) ∧
    (∃ l, searchText INVALID "aaaa".toList "aa".toList = Except.ok l ∧
      ∀ s, s ∈ startsOf 4 l ↔ s ∈ ([0, 1, 2] : List Int)) ∧
    (∃ l, searchText INVALID "mississippi".toList "issi".toList = Except.ok l ∧
      ∀ s, s ∈ startsOf 11 l ↔ s ∈ ([1, 4] : List Int)) ∧
    (∃ l, searchText INVALID "mississippi".toList "ssippix".toList = Except.ok l ∧
      ∀ s, s ∈ startsOf 11 l ↔ s ∈ ([] : List Int)) := by
  refine ⟨⟨_, (searchText_marker INVALID hI _ _).trans scenario_abra, ?_⟩,
    ⟨_, (searchText_marker INVALID hI _ _).trans scenario_a, ?_⟩,
    ⟨_, (searchText_marker INVALID hI _ _).trans scenario_cad, ?_⟩,
    ⟨_, (searchText_marker INVALID hI _ _).trans scenario_aa, ?_⟩,
    ⟨_, (searchText_marker INVALID hI _ _).trans scenario_issi, ?_⟩,
    ⟨_, (searchText_marker INVALID hI _ _).trans scenario_ssippix, ?_⟩⟩
  all_goals
    intro s
    simp only [startsOf, List.map_cons, List.map_nil, List.mem_cons, List.mem_nil_iff,
      List.mem_singleton, or_false]
    try omega

theorem end_to_end_scenarios_witness :
    (∃ l, searchText (-1) "abracadabra".toList "abra".toList = Except.ok l ∧
      ∀ s, s ∈ startsOf 11 l ↔ s ∈ ([0, 7] : List Int)) ∧
    (∃ l, searchText (-1) "abracadabra".toList "a".toList = Except.ok l ∧
      ∀ s, s ∈ startsOf 11 l ↔ s ∈ ([0, 3, 5, 7, 10] : List Int)) ∧
    (∃ l, searchText (-1) "abracadabra".toList "cad".toList = Except.ok l ∧
      ∀ s, s ∈ startsOf 11 l ↔ s ∈ ([4] : List Int)) ∧
    (∃ l, searchText (-1) "aaaa".toList "aa".toList = Except.ok l ∧
      ∀ s, s ∈ startsOf 4 l ↔ s ∈ ([0, 1, 2] : List Int)) ∧
    (∃ l, searchText (-1) "mississippi".toList "issi".toList = Except.ok l ∧
      ∀ s, s ∈ startsOf 11 l ↔ s ∈ ([1, 4] : List Int)) ∧
    (∃ l, searchText (-1) "mississippi".toList "ssippix".toList = Except.ok l ∧
      ∀ s, s ∈ startsOf 11 l ↔ s ∈ ([] : List Int)) :=
  end_to_end_scenarios (-1) (by decide)

theorem Good.genCandidates_zero_fault {h : heap α} {N : Nat} {par dep dpar mr : Nat → Nat}
    (G : Good h N par dep dpar mr) (R : List α) (ed : Option Int) :
    genCandidates h R 0 ed = Except.error Fault.outOfBounds := by
  have hmrN : mr 0 ≤ N := by
    have := G.reach.lt 0 (Nat.zero_le _)
    have := G.len
    omega
  have hmr := readInit_cast _ _ _ (G.reachRep.eq 0 (Nat.zero_le _))
  obtain ⟨b, hb, _⟩ := G.isDescendant_spec (mr 0) 0 hmrN (Nat.zero_le _)
  simp only [Nat.cast_zero] at hmr hb
  have hf : patternFuel 0 = 1 + 1 := rfl
  have hrd : readAt R ((0 : Int) - 1 - 0) = Except.error Fault.outOfBounds := by
    simp [readAt]
  rw [genCandidates, indexIntoTrie, if_pos rfl, ok_bind, pathOccurrences, hf,
    pathOccurrences.loop, hmr, ok_bind, hb, ok_bind, hrd]
  rfl

/-- C6 (empty pattern) fails on the code: for every text, the search for the pattern
of length 0 does not return all positions; `pathOccurrences` reads `pattern[-1]`. -/
theorem empty_pattern_faults (INVALID : Int) (T : List α) :
    searchText INVALID T [] = Except.error Fault.outOfBounds := by
  by_cases hT : T = []
  · subst hT
    rw [searchText, heap_new_nil]
    rfl
  · obtain ⟨h, par, dep, dpar, mr, e1, _, G⟩ := heap_new_spec T hT
    rw [searchText, e1, ok_bind, search]
    simp only [List.length_nil, Nat.cast_zero]
    rw [G.genCandidates_zero_fault]
    rfl

theorem Good.absent_fault {h : heap α} {N : Nat} {par dep dpar mr : Nat → Nat}
    (G : Good h N par dep dpar mr) (c : α) (hc : ∀ j : Nat, h.text[j]? ≠ some c)
    (ed : Option Int) :
    genCandidates h [c] 1 ed = Except.error Fault.outOfBounds := by
  have hmrN : mr 0 ≤ N := by
    have := G.reach.lt 0 (Nat.zero_le _)
    have := G.len
    omega
  have hmr := readInit_cast _ _ _ (G.reachRep.eq 0 (Nat.zero_le _))
  obtain ⟨b, hb, _⟩ := G.isDescendant_spec (mr 0) 0 hmrN (Nat.zero_le _)
  have hch := G.primChild 0 (Nat.zero_le _) c
  rw [G.shape.dep_zero] at hch
  have hno : firstOn h.text 0 c (kidsOf par N 0) = NOCHILD :=
    (firstOn_eq_NOCHILD h.text 0 c _).mpr (fun x _ => hc _)
  rw [hno] at hch
  simp only [Nat.cast_zero] at hmr hb hch
  have hf : patternFuel 1 = 2 + 1 := rfl
  have hrd : readAt [c] ((1 : Int) - 1 - 0) = Except.ok c := by
    simp [readAt]
  have hneg : readInit h.maxReach (-1) = Except.error Fault.outOfBounds := by
    simp [readInit, readAt]
  have hne : NOCHILD ≠ (0 : Int) := by decide
  have hidx : indexIntoTrie h [c] 1 ed = Except.ok (0, some 0) := by
    rw [indexIntoTrie, if_neg (by decide), hf, indexIntoTrie.loop, hrd, ok_bind, hch, ok_bind,
      if_neg (by simp), ok_bind, if_pos rfl]
    rfl
  rw [genCandidates, hidx, ok_bind, pathOccurrences, hf, pathOccurrences.loop, hmr, ok_bind,
    hb, ok_bind, hrd, ok_bind, hch, ok_bind, if_pos hne, pathOccurrences.loop, hneg]
  rfl

/-- C7 (absent character) fails on the code: for a non-empty text `T` and a pattern
that is one character `c` not occurring in `T`, the search does not return the empty
list; `pathOccurrences` continues from `NOCHILD` and reads `maxReach[-1]`. -/
theorem absent_character_faults (INVALID : Int) (T : List α) (c : α) (hT : T ≠ [])
    (hc : c ∉ T) : searchText INVALID T [c] = Except.error Fault.outOfBounds := by
  obtain ⟨h, par, dep, dpar, mr, e1, e2, G⟩ := heap_new_spec T hT
  have hc2 : ∀ j : Nat, h.text[j]? ≠ some c := by
    intro j hj
    have := List.getElem?_mem hj
    rw [e2] at this
    exact hc (List.mem_reverse.mp this)
  have hrev : reverse [c] (([c] : List α).length : Int) = [c] := by
    rw [reverse_full]; rfl
  rw [searchText, e1, ok_bind, search, hrev]
  simp only [List.length_singleton, Nat.cast_one]
  rw [G.absent_fault c hc2]
  rfl

theorem absent_character_faults_witness :
    ("ab".toList ≠ [] ∧ 'c' ∉ "ab".toList) ∧
      searchText (-1) "ab".toList ['c'] = Except.error Fault.outOfBounds :=
  ⟨by decide, absent_character_faults (-1) "ab".toList 'c' (by decide) (by decide)⟩

/-- C8 (empty text) fails on the code: the constructor for the text of length 0 is not
defined; `installMaxReaches` indexes the arrays of length 0 at `text[0]`. -/
theorem empty_text_faults : heap.new ([] : List α) = Except.error Fault.outOfBounds := rfl

/-- C9 (pattern left unchanged): for every index, pattern buffer and length, after
`search` has returned the buffer holds exactly the bytes it held before the call. -/
theorem search_keeps_pattern (h : heap α) (INVALID : Int) (pattern : List α)
    (patternLength : Int) (r : mylist × List α)
    (hr : search h INVALID pattern patternLength = Except.ok r) : r.2 = pattern := by
  rw [search] at hr
  obtain ⟨_, _, hr2⟩ := (bind_ok_iff _ _ _).mp hr
  obtain ⟨_, _, hr3⟩ := (bind_ok_iff _ _ _).mp hr2
  obtain ⟨_, _, hr4⟩ := (bind_ok_iff _ _ _).mp hr3
  injection hr4 with hr5
  rw [← hr5]
  exact reverse_reverse pattern patternLength

theorem search_keeps_pattern_witness :
    search aabIndex (-1) "aab".toList 3 = Except.ok ([], "aab".toList) ∧
      search aabIndex (-1) "aa".toList 2 = Except.ok ([2], "aa".toList) ∧
      (([2] : mylist), "aa".toList).2 = "aa".toList :=
  ⟨by decide!, by decide!,
    search_keeps_pattern aabIndex (-1) "aa".toList 2 ([2], "aa".toList) (by decide!)⟩

/-- C10 (max-reach correctness): after the construction for a non-empty text `T`, for
every node `i` the edge labels on the path from `ROOT` to `maxReach[i]` in the final
tree spell a beginning of `text[i], text[i-1], ..., text[0]`, and no node whose root
path spells a beginning of that string is deeper than `maxReach[i]`. -/
theorem maxReach_correct (T : List α) (hT : T ≠ []) :
    ∃ h, heap.new T = Except.ok h ∧ ∀ i : Nat, i < T.length →
      ∃ (y : Int) (ls : List α), readInit h.maxReach (i : Int) = Except.ok y ∧
        RootPath h y ls ∧ ls.length ≤ i + 1 ∧
        (∀ k, k < ls.length → ls[k]? = T.reverse[i - k]?) ∧
        ∀ (z : Int) (ls1 : List α), RootPath h z ls1 → ls1.length ≤ i + 1 →
          (∀ k, k < ls1.length → ls1[k]? = T.reverse[i - k]?) → ls1.length ≤ ls.length := by
  obtain ⟨h, par, dep, dpar, mr, e1, e2, G⟩ := heap_new_spec T hT
  refine ⟨h, e1, ?_⟩
  intro i hi
  have hlen := G.len
  rw [e2, List.length_reverse] at hlen
  have hiN : i ≤ T.length - 1 := by omega
  have hmrN : mr i ≤ T.length - 1 := by
    have := G.reach.lt i hiN
    rw [e2, List.length_reverse] at this
    omega
  obtain ⟨ls, p1, p2⟩ := G.rootPath_exists (mr i) hmrN
  obtain ⟨z0, q1, _, _, q4⟩ := G.rootPath_node p1
  have hz0 : z0 = mr i := by omega
  subst hz0
  refine ⟨_, ls, readInit_cast _ _ _ (G.reachRep.eq i hiN), p1, ?_, ?_, ?_⟩
  · rw [p2]; exact G.reach.dep_le i hiN
  · intro k hk
    rw [q4 k hk, ← e2]
    exact G.reach.path i hiN k (by omega)
  · intro z ls1 hp hl1 hpre
    obtain ⟨zn, r1, r2, r3, r4⟩ := G.rootPath_node hp
    rw [p2, ← r3]
    apply G.reach.max i hiN zn (by rw [e2, List.length_reverse]; omega) (by omega)
    intro k hk
    rw [← r4 k (by omega), hpre k (by omega), e2]

theorem maxReach_correct_witness :
    "ab".toList ≠ [] ∧
    ∃ h, heap.new "ab".toList = Except.ok h ∧ ∀ i : Nat, i < "ab".toList.length →
      ∃ (y : Int) (ls : List Char), readInit h.maxReach (i : Int) = Except.ok y ∧
        RootPath h y ls ∧ ls.length ≤ i + 1 ∧
        (∀ k, k < ls.length → ls[k]? = "ab".toList.reverse[i - k]?) ∧
        ∀ (z : Int) (ls1 : List Char), RootPath h z ls1 → ls1.length ≤ i + 1 →
          (∀ k, k < ls1.length → ls1[k]? = "ab".toList.reverse[i - k]?) →
          ls1.length ≤ ls.length :=
  ⟨by decide, maxReach_correct "ab".toList (by decide)⟩

/-! ## The subtree relation of the final tree -/

section Subtree
variable {h : heap α} {N : Nat} {par dep dpar mr : Nat → Nat}

theorem Good.inSubtree_anc (G : Good h N par dep dpar mr) {b : Nat} {x : Int}
    (hx : InSubtree h (b : Int) x) (hb : b ≤ N) :
    ∃ a : Nat, x = (a : Int) ∧ a ≤ N ∧ Anc par b a := by
  induction hx with
  | self => exact ⟨b, rfl, hb, Anc.refl b⟩
  | @down p c _ hc ih =>
    obtain ⟨a, e1, _, e3⟩ := ih
    obtain ⟨pn, cn, q1, q2, _, q4⟩ := (G.isChild_iff p c).mp hc
    obtain ⟨k1, k2, k3⟩ := (mem_kidsOf par N pn cn).mp q4
    have : pn = a := by omega
    subst this
    exact ⟨cn, q2, k2, Anc.step k1 (by rw [k3]; exact e3)⟩

theorem Good.anc_inSubtree (G : Good h N par dep dpar mr) {b a : Nat} (ha : a ≤ N)
    (hx : Anc par b a) : InSubtree h (b : Int) (a : Int) := by
  induction hx with
  | refl => exact InSubtree.self
  | @step j h1 h2 ih =>
    have hlt := G.shape.par_lt j h1 ha
    refine InSubtree.down (ih (by omega)) ?_
    exact (G.isChild_iff _ _).mpr ⟨par j, j, rfl, rfl, by omega,
      (mem_kidsOf par N (par j) j).mpr ⟨h1, ha, rfl⟩⟩

theorem Good.inSubtree_iff (G : Good h N par dep dpar mr) (a b : Nat) (ha : a ≤ N)
    (hb : b ≤ N) : InSubtree h (b : Int) (a : Int) ↔ Anc par b a := by
  constructor
  · intro hx
    obtain ⟨a1, e1, _, e3⟩ := G.inSubtree_anc hx hb
    have : a1 = a := by omega
    subst this
    exact e3
  · exact G.anc_inSubtree ha

theorem Good.reach_anc (G : Good h N par dep dpar mr) (i : Nat) (hi : i ≤ N) :
    mr i ≤ N ∧ Anc par i (mr i) := by
  have hm : mr i ≤ N := by
    have h1 := G.reach.lt i hi
    have h2 := G.len
    omega
  refine ⟨hm, G.shape.anc_of_path hi hm ?_ ?_⟩
  · exact G.reach.max i hi i (by have := G.len; omega) (by have := G.shape.dep_le i hi; omega)
      (fun _ _ => rfl)
  · intro k hk
    have h3 : dep i ≤ dep (mr i) :=
      G.reach.max i hi i (by have := G.len; omega) (by have := G.shape.dep_le i hi; omega)
        (fun _ _ => rfl)
    exact (G.reach.path i hi k (by omega)).symm

end Subtree

/-- C11 (interval characterisation of descent): after the construction for a non-empty
text, for all nodes `a`, `b` the call `isDescendant (a, b)` returns, and it returns true
if and only if `a` lies in the subtree of `b` of the final tree (`a = b` included); in
particular `isDescendant (a, a)` is true. -/
theorem isDescendant_iff_subtree (T : List α) (hT : T ≠ []) :
    ∃ h, heap.new T = Except.ok h ∧ ∀ a b : Nat, a < T.length → b < T.length →
      (∃ r, isDescendant h (a : Int) (b : Int) = Except.ok r ∧
        (r = true ↔ InSubtree h (b : Int) (a : Int))) ∧
      isDescendant h (a : Int) (a : Int) = Except.ok true := by
  obtain ⟨h, par, dep, dpar, mr, e1, e2, G⟩ := heap_new_spec T hT
  refine ⟨h, e1, ?_⟩
  intro a b ha hb
  have hlen := G.len
  rw [e2, List.length_reverse] at hlen
  have haN : a ≤ T.length - 1 := by omega
  have hbN : b ≤ T.length - 1 := by omega
  constructor
  · obtain ⟨r, r1, r2⟩ := G.isDescendant_spec a b haN hbN
    exact ⟨r, r1, r2.trans (G.inSubtree_iff a b haN hbN).symm⟩
  · obtain ⟨r, r1, r2⟩ := G.isDescendant_spec a a haN haN
    rw [r1, r2.mpr (Anc.refl a)]

theorem isDescendant_iff_subtree_witness :
    "aab".toList ≠ [] ∧
    ∃ h, heap.new "aab".toList = Except.ok h ∧
      ∀ a b : Nat, a < "aab".toList.length → b < "aab".toList.length →
      (∃ r, isDescendant h (a : Int) (b : Int) = Except.ok r ∧
        (r = true ↔ InSubtree h (b : Int) (a : Int))) ∧
      isDescendant h (a : Int) (a : Int) = Except.ok true :=
  ⟨by decide, isDescendant_iff_subtree "aab".toList (by decide)⟩

/-- C14 (max-reach below its node): after the construction for a non-empty text, for
every node `i` the node `maxReach[i]` lies in the subtree of `i` of the final tree
(it may be `i` itself), and `isDescendant (maxReach[i], i)` returns true. -/
theorem maxReach_in_subtree (T : List α) (hT : T ≠ []) :
    ∃ h, heap.new T = Except.ok h ∧ ∀ i : Nat, i < T.length →
      ∃ y : Int, readInit h.maxReach (i : Int) = Except.ok y ∧ InSubtree h (i : Int) y ∧
        isDescendant h y (i : Int) = Except.ok true := by
  obtain ⟨h, par, dep, dpar, mr, e1, e2, G⟩ := heap_new_spec T hT
  refine ⟨h, e1, ?_⟩
  intro i hi
  have hlen := G.len
  rw [e2, List.length_reverse] at hlen
  have hiN : i ≤ T.length - 1 := by omega
  obtain ⟨hm, ha⟩ := G.reach_anc i hiN
  refine ⟨_, readInit_cast _ _ _ (G.reachRep.eq i hiN), G.anc_inSubtree hm ha, ?_⟩
  obtain ⟨r, r1, r2⟩ := G.isDescendant_spec (mr i) i hm hiN
  rw [r1, r2.mpr ha]

theorem maxReach_in_subtree_witness :
    "abab".toList ≠ [] ∧
    ∃ h, heap.new "abab".toList = Except.ok h ∧ ∀ i : Nat, i < "abab".toList.length →
      ∃ y : Int, readInit h.maxReach (i : Int) = Except.ok y ∧ InSubtree h (i : Int) y ∧
        isDescendant h y (i : Int) = Except.ok true :=
  ⟨by decide, maxReach_in_subtree "abab".toList (by decide)⟩

/-- C12 (sibling-label uniqueness): after the construction for a non-empty text, for
every node `p` whose root path has length `d` and every two distinct children `c1`, `c2`
of `p` in the final tree, the edge labels `text[c1 - d]` and `text[c2 - d]` exist and
differ. -/
theorem sibling_labels_differ (T : List α) (hT : T ≠ []) :
    ∃ h, heap.new T = Except.ok h ∧
      ∀ (p c1 c2 : Int) (ls : List α), RootPath h p ls → IsChild h p c1 → IsChild h p c2 →
        c1 ≠ c2 →
        ∃ x1 x2, readAt h.text (c1 - (ls.length : Int)) = Except.ok x1 ∧
          readAt h.text (c2 - (ls.length : Int)) = Except.ok x2 ∧ x1 ≠ x2 := by
  obtain ⟨h, par, dep, dpar, mr, e1, _, G⟩ := heap_new_spec T hT
  refine ⟨h, e1, ?_⟩
  intro p c1 c2 ls hp h1 h2 hne
  obtain ⟨z, z1, z2, z3, _⟩ := G.rootPath_node hp
  obtain ⟨p1, n1, a1, a2, _, a4⟩ := (G.isChild_iff p c1).mp h1
  obtain ⟨p2, n2, b1, b2, _, b4⟩ := (G.isChild_iff p c2).mp h2
  have hp1 : z = p1 := by omega
  have hp2 : z = p2 := by omega
  subst hp1 hp2
  obtain ⟨k1, k2, k3⟩ := (mem_kidsOf par _ z n1).mp a4
  obtain ⟨l1, l2, l3⟩ := (mem_kidsOf par _ z n2).mp b4
  have d1 := G.shape.dep_succ n1 k1 k2
  have d2 := G.shape.dep_succ n2 l1 l2
  have g1 := G.shape.dep_le n1 k2
  have g2 := G.shape.dep_le n2 l2
  have hlen := G.len
  rw [k3] at d1
  rw [l3] at d2
  have r1 : n1 - dep z < h.text.length := by omega
  have r2 : n2 - dep z < h.text.length := by omega
  have s1 : (c1 - (ls.length : Int)) = ((n1 - dep z : Nat) : Int) := by omega
  have s2 : (c2 - (ls.length : Int)) = ((n2 - dep z : Nat) : Int) := by omega
  refine ⟨h.text[n1 - dep z], h.text[n2 - dep z], ?_, ?_, ?_⟩
  · rw [s1]; exact readAt_cast _ _ _ (List.getElem?_eq_getElem r1)
  · rw [s2]; exact readAt_cast _ _ _ (List.getElem?_eq_getElem r2)
  · intro heq
    apply hne
    have : n1 = n2 := by
      apply G.shape.uniq n1 n2 k2 l2 (by omega)
      intro k hk
      by_cases hk1 : k < dep z
      · have q1 := G.shape.path n1 k1 k2 k (by rw [k3]; exact hk1)
        have q2 := G.shape.path n2 l1 l2 k (by rw [l3]; exact hk1)
        rw [k3] at q1
        rw [l3] at q2
        rw [← q1, q2]
      · have hk2 : k = dep z := by omega
        subst hk2
        rw [List.getElem?_eq_getElem r1, List.getElem?_eq_getElem r2, heq]
    omega

theorem sibling_labels_differ_witness :
    "abab".toList ≠ [] ∧
    ∃ h, heap.new "abab".toList = Except.ok h ∧
      ∀ (p c1 c2 : Int) (ls : List Char), RootPath h p ls → IsChild h p c1 →
        IsChild h p c2 → c1 ≠ c2 →
        ∃ x1 x2, readAt h.text (c1 - (ls.length : Int)) = Except.ok x1 ∧
          readAt h.text (c2 - (ls.length : Int)) = Except.ok x2 ∧ x1 ≠ x2 :=
  ⟨by decide, sibling_labels_differ "abab".toList (by decide)⟩

/-- C17 (postcondition of `indexIntoTrie`): on the index of a non-empty text, for every
pattern array `P` of length `m ≥ 1` and every prior content of `endDepth`, the call
returns a node `z` and leaves a value `e` in `endDepth` with `0 ≤ e ≤ m`; the edge labels
from `ROOT` to `z` are `P[m-1], P[m-2], ..., P[m-e]` (so `z` has depth `e`), and either
`e = m` or no child of `z` has the edge label `P[m-1-e]`. -/
theorem indexIntoTrie_post (T : List α) (hT : T ≠ []) :
    ∃ h, heap.new T = Except.ok h ∧ ∀ (P : List α) (endDepth : Option Int), 1 ≤ P.length →
      ∃ (z : Int) (e : Nat),
        indexIntoTrie h P (P.length : Int) endDepth = Except.ok (z, some (e : Int)) ∧
        e ≤ P.length ∧ RootPath h z (P.reverse.take e) ∧ (P.reverse.take e).length = e ∧
        (e = P.length ∨ ∀ (c : Int) (a : α), IsChild h z c →
          readAt h.text (c - (e : Int)) = Except.ok a → some a ≠ P[P.length - 1 - e]?) := by
  obtain ⟨h, par, dep, dpar, mr, e1, _, G⟩ := heap_new_spec T hT
  refine ⟨h, e1, ?_⟩
  intro P ed hP
  obtain ⟨z, e, q1, q2, q3, q4, q5, q6⟩ := G.indexIntoTrie_spec P P.length hP le_rfl ed
  obtain ⟨ls, p1, p2⟩ := G.rootPath_exists z q2
  obtain ⟨z0, r1, _, _, r4⟩ := G.rootPath_node p1
  have hz0 : z = z0 := by omega
  subst hz0
  have hls : ls = P.reverse.take e := by
    apply List.ext_getElem?
    intro k
    by_cases hk : k < e
    · rw [r4 k (by omega), q5 k hk, List.getElem?_take_of_lt hk,
        List.getElem?_reverse (by omega)]
    · rw [List.getElem?_eq_none (by omega), List.getElem?_eq_none]
      rw [List.length_take, List.length_reverse]
      omega
  refine ⟨(z : Int), e, q1, q4, hls ▸ p1, ?_, ?_⟩
  · rw [List.length_take, List.length_reverse]; omega
  · by_cases he : e = P.length
    · exact Or.inl he
    · right
      intro c a hc ha heq
      obtain ⟨pn, cn, a1, a2, _, a4⟩ := (G.isChild_iff _ _).mp hc
      have hpn : z = pn := by omega
      subst hpn
      obtain ⟨b1, b2⟩ := (readAt_ok_iff _ _ _).mp ha
      have hc2 : (c - (e : Int)).toNat = cn - e := by omega
      rw [hc2] at b2
      exact q6 (by omega) cn a4 (by rw [b2, heq])

theorem indexIntoTrie_post_witness :
    "abab".toList ≠ [] ∧
    ∃ h, heap.new "abab".toList = Except.ok h ∧
      ∀ (P : List Char) (endDepth : Option Int), 1 ≤ P.length →
      ∃ (z : Int) (e : Nat),
        indexIntoTrie h P (P.length : Int) endDepth = Except.ok (z, some (e : Int)) ∧
        e ≤ P.length ∧ RootPath h z (P.reverse.take e) ∧ (P.reverse.take e).length = e ∧
        (e = P.length ∨ ∀ (c : Int) (a : Char), IsChild h z c →
          readAt h.text (c - (e : Int)) = Except.ok a → some a ≠ P[P.length - 1 - e]?) :=
  ⟨by decide, indexIntoTrie_post "abab".toList (by decide)⟩

/-- C18 (empty pattern in `indexIntoTrie`) fails on the code: for `patternLength = 0` the
method returns `ROOT` and leaves `endDepth` as it was, it does not set it to 0; a
variable that held 7 still holds 7 and a variable that was never assigned stays so. -/
theorem indexIntoTrie_zero_keeps_endDepth (h : heap α) (P : List α)
    (endDepth : Option Int) :
    indexIntoTrie h P 0 endDepth = Except.ok (ROOT, endDepth) ∧
      indexIntoTrie h P 0 (some 7) ≠ Except.ok (ROOT, some 0) := by
  constructor
  · rfl
  · intro hc
    have h7 : indexIntoTrie h P 0 (some 7) = Except.ok (ROOT, some 7) := rfl
    rw [h7] at hc
    injection hc with hc1
    injection hc1 with _ hc2
    injection hc2 with hc3
    omega

/-- C16 (pruning keeps every occurrence) fails on the code: for the text `ab` and the
pattern `ab`, `genCandidates` returns the list `[1]` with `pathEndDepth = 1`; position 1
is an occurrence of the pattern, and `pruneCandidates` called with the remaining
`2 - 1` pattern bytes, this list and `offset = 1` returns the empty list. -/
theorem prune_discards_occurrence_at_ab :
    (heap.new "ab".toList >>= fun h => genCandidates h (reverse "ab".toList 2) 2 none)
        = Except.ok ([1], some 1) ∧
      Occurs "ab".toList "ab".toList 1 ∧
      (heap.new "ab".toList >>= fun h =>
          pruneCandidates h (reverse "ab".toList 2) (2 - 1) [1] 1) = Except.ok ([], 1) := by
  decide!

/-! ## Total specification of the path walk -/

section PathWalk
variable {h : heap α} {N : Nat} {par dep dpar mr : Nat → Nat}

theorem Shape.kid_label_inj {text : List α} (S : Shape text N par dep dpar) {c x y : Nat}
    (hx : x ∈ kidsOf par N c) (hy : y ∈ kidsOf par N c)
    (hl : text[x - dep c]? = text[y - dep c]?) : x = y := by
  obtain ⟨k1, k2, k3⟩ := (mem_kidsOf par N c x).mp hx
  obtain ⟨l1, l2, l3⟩ := (mem_kidsOf par N c y).mp hy
  have d1 := S.dep_succ x k1 k2
  have d2 := S.dep_succ y l1 l2
  rw [k3] at d1
  rw [l3] at d2
  apply S.uniq x y k2 l2 (by omega)
  intro k hk
  by_cases hk1 : k < dep c
  · have q1 := S.path x k1 k2 k (by rw [k3]; exact hk1)
    have q2 := S.path y l1 l2 k (by rw [l3]; exact hk1)
    rw [k3] at q1
    rw [l3] at q2
    rw [← q1, q2]
  · have hk2 : k = dep c := by omega
    subst hk2
    exact hl

theorem Good.child_toward (G : Good h N par dep dpar mr) {c z : Nat} (hz : z ≤ N)
    (hc : Anc par c z) (hd : dep c < dep z) (letter : α)
    (hl : h.text[z - dep c]? = some letter) :
    ∃ x, x ∈ kidsOf par N c ∧ Anc par x z ∧ dep x = dep c + 1 ∧
      firstOn h.text (dep c) letter (kidsOf par N c) = (x : Int) := by
  rcases anc_kid hc with heq | ⟨x, x1, x2, x3⟩
  · subst heq; omega
  · have hxN : x ≤ N := le_trans (G.shape.anc_le hz x3) hz
    have hdx := G.shape.dep_succ x x1 hxN
    rw [x2] at hdx
    have hxk : x ∈ kidsOf par N c := (mem_kidsOf par N c x).mpr ⟨x1, hxN, x2⟩
    have hlx : h.text[x - dep c]? = some letter := by
      rw [G.shape.anc_path hz x3 (dep c) (by omega), hl]
    have hno : firstOn h.text (dep c) letter (kidsOf par N c) ≠ NOCHILD := by
      intro hcon
      exact (firstOn_eq_NOCHILD h.text (dep c) letter _).mp hcon x hxk hlx
    obtain ⟨y, y1, y2, y3⟩ := firstOn_eq_cast h.text (dep c) letter _ _ rfl hno
    have hxy : x = y := G.shape.kid_label_inj hxk y2 (by rw [hlx, y3])
    subst hxy
    exact ⟨x, hxk, x3, hdx, y1⟩

theorem Good.path_loop_total (G : Good h N par dep dpar mr) (R : List α) (len : Nat)
    (hlen : len ≤ R.length) (z : Nat) (hz : z ≤ N) (hzl : dep z ≤ len)
    (hzp : ∀ k, k < dep z → h.text[z - k]? = R[len - 1 - k]?) :
    ∀ fuel (c d : Nat) (occ : mylist), c ≤ N → dep c = d → Anc par c z → d < dep z →
      dep z - d ≤ fuel →
      ∃ L : List Nat,
        pathOccurrences.loop h R (len : Int) (z : Int) fuel (c : Int) (d : Int) occ
          = Except.ok (occ ++ L.map (fun a : Nat => (a : Int))) ∧
        (∀ a, a ∈ L ↔ (Anc par c a ∧ Anc par a z ∧ a ≠ z ∧ Anc par z (mr a))) ∧
        L.Pairwise (fun a b => dep a < dep b) := by
  intro fuel
  induction fuel with
  | zero => intro c d _ _ _ _ h4 h5; omega
  | succ fuel ih =>
    intro c d occ hc hd hcz hdz hf
    have hmrN : mr c ≤ N := (G.reach_anc c hc).1
    have hmr : readInit h.maxReach (c : Int) = Except.ok ((mr c : Nat) : Int) :=
      readInit_cast _ _ _ (G.reachRep.eq c hc)
    obtain ⟨b, hb, hbiff⟩ := G.isDescendant_spec (mr c) z hmrN hz
    obtain ⟨letter, hl⟩ : ∃ letter, R[len - 1 - d]? = some letter :=
      ⟨_, List.getElem?_eq_getElem (by omega)⟩
    have hidx : ((len : Int) - 1 - (d : Int)) = ((len - 1 - d : Nat) : Int) := by omega
    have hch := G.primChild c hc letter
    rw [hd] at hch
    obtain ⟨x, x1, x2, x3, x4⟩ := G.child_toward hz hcz (by omega) letter
      (by rw [hd, hzp d hdz, hl])
    rw [hd] at x3 x4
    obtain ⟨hx4, hx5, hx6⟩ := (mem_kidsOf par N c x).mp x1
    have hancx : Anc par c x := by rw [← hx6]; exact Anc.step hx4 (Anc.refl _)
    simp only [pathOccurrences.loop, hmr, ok_bind, hb, hidx, readAt_cast _ _ _ hl, hch, x4]
    have hadd : (if b = true then mylist.add occ (c : Int) else occ)
        = occ ++ (if b = true then [c] else []).map (fun a : Nat => (a : Int)) := by
      by_cases hbt : b = true
      · simp [hbt, mylist.add]
      · simp [hbt]
    have hself : ∀ a, a ∈ (if b = true then [c] else []) ↔ (a = c ∧ Anc par z (mr c)) := by
      intro a
      by_cases hbt : b = true
      · simp [hbt, hbiff.mp hbt]
      · rw [if_neg hbt]
        constructor
        · intro hcon; simp at hcon
        · rintro ⟨_, hm⟩
          exact absurd (hbiff.mpr hm) hbt
    have hcne : c ≠ z := by intro hcon; subst hcon; omega
    -- a node between `c` and `z` is `c` or lies below the child `x`
    have hsplit : ∀ a, (Anc par c a ∧ Anc par a z) ↔ (a = c ∨ (Anc par x a ∧ Anc par a z)) := by
      intro a
      constructor
      · rintro ⟨h1, h2⟩
        rcases anc_kid h1 with heq | ⟨y, y1, y2, y3⟩
        · exact Or.inl heq
        · right
          have hyz : Anc par y z := Anc.compose y3 h2
          have hyN : y ≤ N := le_trans (G.shape.anc_le hz hyz) hz
          have hdy := G.shape.dep_succ y y1 hyN
          rw [y2] at hdy
          have : y = x := G.shape.sibling_disjoint hz (by omega) hyz x2
          subst this
          exact ⟨y3, h2⟩
      · rintro (heq | ⟨h1, h2⟩)
        · subst heq; exact ⟨Anc.refl _, hcz⟩
        · exact ⟨Anc.compose hancx h1, h2⟩
    by_cases hxz : x = z
    · subst hxz
      refine ⟨(if b = true then [c] else []), ?_, ?_, ?_⟩
      · simp only [ne_eq, not_true_eq_false, if_false, hadd]
      · intro a
        rw [hself a]
        constructor
        · rintro ⟨rfl, hm⟩
          exact ⟨Anc.refl _, hcz, hcne, hm⟩
        · rintro ⟨h1, h2, h3, h4⟩
          rcases (hsplit a).mp ⟨h1, h2⟩ with heq | ⟨h5, h6⟩
          · subst heq; exact ⟨rfl, h4⟩
          · have haN : a ≤ N := le_trans (G.shape.anc_le hz h6) hz
            have := G.shape.anc_same_dep haN h5 (G.shape.anc_dep_le hz h6)
            exact absurd this.symm h3
      · by_cases hbt : b = true
        · simp [hbt]
        · simp [hbt]
    · have hxz2 : ¬ ((x : Int) = (z : Int)) := by omega
      have hdxz : d + 1 < dep z := by
        by_contra hcon
        exact hxz (G.shape.anc_same_dep hz x2 (by omega))
      have hcast : ((d : Int) + 1) = ((d + 1 : Nat) : Int) := by push_cast; ring
      obtain ⟨L, e1, e2, e3⟩ := ih x (d + 1)
        (if b = true then mylist.add occ (c : Int) else occ) hx5 x3 x2 hdxz (by omega)
      refine ⟨(if b = true then [c] else []) ++ L, ?_, ?_, ?_⟩
      · rw [hadd] at e1
        simp only [ne_eq, hxz2, not_false_eq_true, if_true, hcast, hadd, e1, List.map_append,
          List.append_assoc]
      · intro a
        rw [List.mem_append, hself a, e2 a]
        constructor
        · rintro (⟨rfl, hm⟩ | ⟨h1, h2, h3, h4⟩)
          · exact ⟨Anc.refl _, hcz, hcne, hm⟩
          · exact ⟨Anc.compose hancx h1, h2, h3, h4⟩
        · rintro ⟨h1, h2, h3, h4⟩
          rcases (hsplit a).mp ⟨h1, h2⟩ with heq | ⟨h5, h6⟩
          · subst heq; exact Or.inl ⟨rfl, h4⟩
          · exact Or.inr ⟨h5, h6, h3, h4⟩
      · refine List.pairwise_append.mpr ⟨?_, e3, ?_⟩
        · by_cases hbt : b = true
          · simp [hbt]
          · simp [hbt]
        · intro a ha1 a2 ha2
          obtain ⟨rfl, _⟩ := (hself a).mp ha1
          obtain ⟨h1, h2, _, _⟩ := (e2 a2).mp ha2
          have haN : a2 ≤ N := le_trans (G.shape.anc_le hz h2) hz
          have := G.shape.anc_dep_le haN h1
          omega

end PathWalk

section PathWalk2
variable {h : heap α} {N : Nat} {par dep dpar mr : Nat → Nat}

theorem Good.pathOccurrences_total (G : Good h N par dep dpar mr) (R : List α) (len : Nat)
    (hlen : len ≤ R.length) (z : Nat) (hz : z ≤ N) (hz1 : 1 ≤ dep z) (hzl : dep z ≤ len)
    (hzp : ∀ k, k < dep z → h.text[z - k]? = R[len - 1 - k]?) :
    ∃ L : List Nat,
      pathOccurrences h R (len : Int) (z : Int) = Except.ok (L.map (fun a : Nat => (a : Int))) ∧
      (∀ a, a ∈ L ↔ (Anc par a z ∧ a ≠ z ∧ Anc par z (mr a))) ∧
      L.Pairwise (fun a b => dep a < dep b) := by
  have hf : dep z - 0 ≤ patternFuel (len : Int) := by
    simp only [patternFuel, Int.toNat_ofNat]; omega
  obtain ⟨L, e1, e2, e3⟩ := G.path_loop_total R len hlen z hz hzl hzp _ 0 0 []
    (Nat.zero_le N) G.shape.dep_zero (G.shape.anc_root hz) (by omega) hf
  refine ⟨L, ?_, ?_, e3⟩
  · rw [pathOccurrences]
    simpa using e1
  · intro a
    rw [e2 a]
    constructor
    · rintro ⟨_, h2, h3, h4⟩
      exact ⟨h2, h3, h4⟩
    · rintro ⟨h2, h3, h4⟩
      exact ⟨G.shape.anc_root (le_trans (G.shape.anc_le hz h2) hz), h2, h3, h4⟩

theorem Good.root_fault (G : Good h N par dep dpar mr) (R : List α) (len : Nat) (c : α)
    (hc : R[len - 1]? = some c) (h1 : 1 ≤ len)
    (hno : ∀ x ∈ kidsOf par N 0, h.text[x]? ≠ some c) (ed : Option Int) :
    indexIntoTrie h R (len : Int) ed = Except.ok (ROOT, some 0) ∧
      pathOccurrences h R (len : Int) ROOT = Except.error Fault.outOfBounds := by
  have hmrN : mr 0 ≤ N := (G.reach_anc 0 (Nat.zero_le _)).1
  have hmr := readInit_cast _ _ _ (G.reachRep.eq 0 (Nat.zero_le _))
  obtain ⟨b, hb, _⟩ := G.isDescendant_spec (mr 0) 0 hmrN (Nat.zero_le _)
  have hch := G.primChild 0 (Nat.zero_le _) c
  rw [G.shape.dep_zero] at hch
  have hno2 : firstOn h.text 0 c (kidsOf par N 0) = NOCHILD :=
    (firstOn_eq_NOCHILD h.text 0 c _).mpr (fun x hx => hno x hx)
  rw [hno2] at hch
  simp only [Nat.cast_zero] at hmr hb hch
  have hf : patternFuel (len : Int) = len + 1 + 1 := by
    simp only [patternFuel, Int.toNat_ofNat]
  have hidx : ((len : Int) - 1 - 0) = ((len - 1 : Nat) : Int) := by omega
  have hrd : readAt R ((len : Int) - 1 - 0) = Except.ok c := by
    rw [hidx]; exact readAt_cast _ _ _ hc
  have hneg : readInit h.maxReach (-1) = Except.error Fault.outOfBounds := by
    simp [readInit, readAt]
  have hne : NOCHILD ≠ (0 : Int) := by decide
  have hlen0 : ¬ ((len : Int) = 0) := by omega
  constructor
  · rw [indexIntoTrie, if_neg hlen0, hf, indexIntoTrie.loop, hrd, ok_bind, hch, ok_bind,
      if_neg (by simp), ok_bind, if_pos rfl]
    rfl
  · rw [pathOccurrences, hf, pathOccurrences.loop, hmr, ok_bind, hb, ok_bind, hrd, ok_bind,
      hch, ok_bind, if_pos hne, pathOccurrences.loop, hneg]
    rfl

theorem reverse_tail_mem {T : List α} {x : Nat} {c : α} (hx : 1 ≤ x)
    (hc : T.reverse[x]? = some c) : c ∈ T.dropLast := by
  have hx2 : x < T.reverse.length := by
    by_contra hcon
    rw [List.getElem?_eq_none (by omega)] at hc
    exact absurd hc (by simp)
  rw [List.length_reverse] at hx2
  rw [List.getElem?_reverse hx2] at hc
  have hd : T.dropLast[T.length - 1 - x]? = some c := by
    rw [List.dropLast_eq_take, List.getElem?_take_of_lt (by omega)]
    exact hc
  exact List.getElem?_mem hd

end PathWalk2

/-- C19 (`pathOccurrences`) fails on the code when the indexing path ends at `ROOT`: for
a non-empty text `T` and a pattern array `P` of length `m ≥ 1` whose first indexed
letter `P[m-1]` does not occur in `T` before its last character, `indexIntoTrie`
returns `ROOT` with depth 0, and `pathOccurrences (P, m, ROOT)` does not return the list
of proper ancestors: it passes `NOCHILD` and reads `maxReach[-1]`. -/
theorem pathOccurrences_faults_at_root (T : List α) (hT : T ≠ []) (P : List α) (c : α)
    (hP : P[P.length - 1]? = some c) (hc : c ∉ T.dropLast) :
    ∃ h, heap.new T = Except.ok h ∧
      indexIntoTrie h P (P.length : Int) none = Except.ok (ROOT, some 0) ∧
      pathOccurrences h P (P.length : Int) ROOT = Except.error Fault.outOfBounds := by
  obtain ⟨h, par, dep, dpar, mr, e1, e2, G⟩ := heap_new_spec T hT
  refine ⟨h, e1, ?_⟩
  have hm : 1 ≤ P.length := by
    by_contra hcon
    rw [List.getElem?_eq_none (by omega)] at hP
    exact absurd hP (by simp)
  apply G.root_fault P P.length c hP hm _ none
  intro x hx hcon
  obtain ⟨k1, _, _⟩ := (mem_kidsOf par _ 0 x).mp hx
  rw [e2] at hcon
  exact hc (reverse_tail_mem k1 hcon)

theorem pathOccurrences_faults_at_root_witness :
    "ab".toList ≠ [] ∧ "c".toList["c".toList.length - 1]? = some 'c' ∧
      'c' ∉ "ab".toList.dropLast ∧
    ∃ h, heap.new "ab".toList = Except.ok h ∧
      indexIntoTrie h "c".toList ("c".toList.length : Int) none = Except.ok (ROOT, some 0) ∧
      pathOccurrences h "c".toList ("c".toList.length : Int) ROOT
        = Except.error Fault.outOfBounds :=
  ⟨by decide, by decide, by decide,
    pathOccurrences_faults_at_root "ab".toList (by decide) "c".toList 'c' (by decide)
      (by decide)⟩

/-! ## Exactness when the pattern stays on the tree -/

section OnTree
variable {h : heap α} {N : Nat} {par dep dpar mr : Nat → Nat}

theorem Good.node_of_inSubtree (G : Good h N par dep dpar mr) {x y : Int}
    (hx : InSubtree h x y) : x = y ∨ ∃ a : Nat, x = (a : Int) ∧ a ≤ N := by
  induction hx with
  | self => exact Or.inl rfl
  | @down p c _ hc ih =>
    rcases ih with heq | hnode
    · obtain ⟨pn, _, q1, _, q3, _⟩ := (G.isChild_iff p c).mp hc
      exact Or.inr ⟨pn, by rw [heq, q1], q3⟩
    · exact Or.inr hnode

/-- The positions where the root path of `z` can be read are the nodes below `z` and the
proper ancestors of `z` whose maximal reach lies below `z`. -/
theorem Good.occurs_on_tree (G : Good h N par dep dpar mr) {z a : Nat} (hz : z ≤ N)
    (ha : a ≤ N) :
    (dep z ≤ a + 1 ∧ ∀ k, k < dep z → h.text[a - k]? = h.text[z - k]?) ↔
      (Anc par z a ∨ (Anc par a z ∧ a ≠ z ∧ Anc par z (mr a))) := by
  constructor
  · rintro ⟨h1, h2⟩
    by_cases hd : dep z ≤ dep a
    · left
      obtain ⟨b, b1, b2⟩ := G.shape.anc_at_depth ha (dep z) hd
      have hbN : b ≤ N := le_trans (G.shape.anc_le ha b1) ha
      have hbz : b = z := by
        apply G.shape.uniq b z hbN hz b2
        intro k hk
        rw [G.shape.anc_path ha b1 k hk, h2 k (by omega)]
      rw [← hbz]
      exact b1
    · right
      have haz : Anc par a z := G.shape.anc_of_path ha hz (by omega)
        (fun k hk => h2 k (by omega))
      have hmN := (G.reach_anc a ha).1
      have hmax : dep z ≤ dep (mr a) :=
        G.reach.max a ha z (by have := G.len; omega) h1 (fun k hk => (h2 k hk).symm)
      refine ⟨haz, by intro hcon; subst hcon; omega, G.shape.anc_of_path hz hmN hmax ?_⟩
      intro k hk
      rw [G.reach.path a ha k (by omega), h2 k hk]
  · rintro (h1 | ⟨_, _, h3⟩)
    · exact G.occ_of_sub ha h1
    · exact G.occ_of_reach ha h3

theorem Good.genCandidates_on_tree (G : Good h N par dep dpar mr) (R : List α) (len : Nat)
    (h1 : 1 ≤ len) (hlen : len ≤ R.length) (ed : Option Int) (z : Nat)
    (hidx : indexIntoTrie h R (len : Int) ed = Except.ok ((z : Int), some (len : Int)))
    (hz : z ≤ N) (hdz : dep z = len)
    (hzp : ∀ k, k < len → h.text[z - k]? = R[len - 1 - k]?) :
    ∃ L : List Nat, genCandidates h R (len : Int) ed
        = Except.ok (L.map (fun a : Nat => (a : Int)), some (len : Int)) ∧
      ∀ a, a ∈ L ↔ (a ≤ N ∧ (Anc par z a ∨ (Anc par a z ∧ a ≠ z ∧ Anc par z (mr a)))) := by
  obtain ⟨L1, f1, f2, _⟩ := G.pathOccurrences_total R len hlen z hz (by omega) (by omega)
    (by rw [hdz]; exact hzp)
  obtain ⟨L2, g1, g2, _⟩ := (subtree_spec G.shape h (fun p hp => G.prim.kids p hp)
    h.deepFuel).1 z (L1.map (fun a : Nat => (a : Int))) hz (G.deepFuel_ok z)
  refine ⟨L1 ++ L2, ?_, ?_⟩
  · rw [genCandidates, hidx, ok_bind, f1, ok_bind]
    simp only [initialised, ok_bind, if_true, g1, List.map_append]
  · intro a
    rw [List.mem_append, f2 a, g2 a]
    constructor
    · rintro (⟨q1, q2, q3⟩ | ⟨q1, q2⟩)
      · exact ⟨le_trans (G.shape.anc_le hz q1) hz, Or.inr ⟨q1, q2, q3⟩⟩
      · exact ⟨q1, Or.inl q2⟩
    · rintro ⟨q1, q2 | q3⟩
      · exact Or.inr ⟨q1, q2⟩
      · exact Or.inl q3

end OnTree

/-- C15 (exactness when the pattern stays on the tree): for a non-empty text `T` and a
pattern `P` of length `m ≥ 1`, if `indexIntoTrie` consumes all of `P` (it leaves
`pathEndDepth = m`), then `genCandidates` returns a list, `search` returns this list
unchanged, and the list holds exactly the occurrences of `P`, which are exactly the
proper ancestors of `pathEndNode` whose `maxReach` lies in the subtree of `pathEndNode`
together with `pathEndNode` and all nodes below it.  The marker `INVALID` of the list
container is taken to be no text position. -/
theorem genCandidates_exact_on_tree (INVALID : Int) (hI : INVALID < 0) (T : List α)
    (hT : T ≠ []) (P : List α) (hP : 1 ≤ P.length) :
    ∃ (h : heap α) (z : Int) (e : Nat), heap.new T = Except.ok h ∧
      indexIntoTrie h (reverse P (P.length : Int)) (P.length : Int) none
        = Except.ok (z, some (e : Int)) ∧
      (e = P.length →
        ∃ l : mylist,
          genCandidates h (reverse P (P.length : Int)) (P.length : Int) none
            = Except.ok (l, some (P.length : Int)) ∧
          search h INVALID P (P.length : Int) = Except.ok (l, P) ∧
          (∀ x : Int, x ∈ l ↔ Occurs T P x) ∧
          (∀ x : Int, x ∈ l ↔ ((x ≠ z ∧ InSubtree h x z ∧
              ∃ y, readInit h.maxReach x = Except.ok y ∧ InSubtree h z y) ∨
            InSubtree h z x))) := by
  obtain ⟨h, par, dep, dpar, mr, e1, e2, G⟩ := heap_new_spec T hT
  have hlenT := G.len
  rw [e2, List.length_reverse] at hlenT
  have hR : reverse P (P.length : Int) = P.reverse := reverse_full P
  obtain ⟨z, e, q1, q2, q3, q4, q5, _⟩ :=
    G.indexIntoTrie_spec P.reverse P.length hP (by rw [List.length_reverse]) none
  refine ⟨h, (z : Int), e, e1, by rw [hR]; exact q1, ?_⟩
  intro he
  subst he
  have hpath : ∀ k, k < P.length → h.text[z - k]? = P[k]? := by
    intro k hk
    rw [q5 k hk, List.getElem?_reverse (by omega)]
    congr 1
    omega
  obtain ⟨L, g1, g2⟩ := G.genCandidates_on_tree P.reverse P.length hP
    (by rw [List.length_reverse]) none z q1 q2 q3 q5
  refine ⟨L.map (fun a : Nat => (a : Int)), by rw [hR]; exact g1, ?_, ?_, ?_⟩
  · rw [search, hR, g1]
    simp only [ok_bind, initialised, lt_self_iff_false, not_false_eq_true, if_true,
      compact_of_nonneg INVALID hI L]
    rw [← hR, reverse_reverse]
  · intro x
    rw [List.mem_map]
    constructor
    · rintro ⟨a, a1, rfl⟩
      obtain ⟨a2, a3⟩ := (g2 a).mp a1
      obtain ⟨b1, b2⟩ := (G.occurs_on_tree q2 a2).mpr a3
      refine ⟨by omega, ?_, ?_, ?_⟩
      · simp only [Int.toNat_ofNat]; omega
      · simp only [Int.toNat_ofNat]; omega
      · intro k hk
        simp only [Int.toNat_ofNat]
        rw [← e2, b2 k (by omega), hpath k hk]
    · rintro ⟨o1, o2, o3, o4⟩
      refine ⟨x.toNat, ?_, by omega⟩
      apply (g2 _).mpr
      refine ⟨by omega, (G.occurs_on_tree q2 (by omega)).mp ⟨by omega, ?_⟩⟩
      intro k hk
      rw [hpath k (by omega), e2]
      exact o4 k (by omega)
  · intro x
    rw [List.mem_map]
    constructor
    · rintro ⟨a, a1, rfl⟩
      obtain ⟨a2, a3⟩ := (g2 a).mp a1
      rcases a3 with a4 | ⟨a5, a6, a7⟩
      · exact Or.inr (G.anc_inSubtree a2 a4)
      · left
        refine ⟨by omega, G.anc_inSubtree q2 a5, _,
          readInit_cast _ _ _ (G.reachRep.eq a a2), ?_⟩
        exact G.anc_inSubtree (G.reach_anc a a2).1 a7
    · rintro (⟨c1, c2, y, c3, c4⟩ | c5)
      · rcases G.node_of_inSubtree c2 with heq | ⟨a, a1, a2⟩
        · exact absurd heq c1
        · subst a1
          have hy : readInit h.maxReach (a : Int) = Except.ok ((mr a : Nat) : Int) :=
            readInit_cast _ _ _ (G.reachRep.eq a a2)
          rw [hy] at c3
          injection c3 with c3
          subst c3
          refine ⟨a, (g2 a).mpr ⟨a2, Or.inr ⟨?_, by omega, ?_⟩⟩, rfl⟩
          · exact (G.inSubtree_iff z a q2 a2).mp c2
          · exact (G.inSubtree_iff (mr a) z (G.reach_anc a a2).1 q2).mp c4
      · obtain ⟨a, a1, a2, a3⟩ := G.inSubtree_anc c5 q2
        exact ⟨a, (g2 a).mpr ⟨a2, Or.inl a3⟩, a1.symm⟩

theorem genCandidates_exact_on_tree_witness :
    (-1 : Int) < 0 ∧ "abab".toList ≠ [] ∧ 1 ≤ "ab".toList.length ∧
    (heap.new "abab".toList >>= fun h =>
        indexIntoTrie h (reverse "ab".toList 2) 2 none) = Except.ok (3, some 2) ∧
    (heap.new "abab".toList >>= fun h =>
        genCandidates h (reverse "ab".toList 2) 2 none) = Except.ok ([1, 3], some 2) ∧
    ∃ (h : heap Char) (z : Int) (e : Nat), heap.new "abab".toList = Except.ok h ∧
      indexIntoTrie h (reverse "ab".toList ("ab".toList.length : Int))
        ("ab".toList.length : Int) none = Except.ok (z, some (e : Int)) ∧
      (e = "ab".toList.length →
        ∃ l : mylist,
          genCandidates h (reverse "ab".toList ("ab".toList.length : Int))
            ("ab".toList.length : Int) none
            = Except.ok (l, some ("ab".toList.length : Int)) ∧
          search h (-1) "ab".toList ("ab".toList.length : Int)
            = Except.ok (l, "ab".toList) ∧
          (∀ x : Int, x ∈ l ↔ Occurs "abab".toList "ab".toList x) ∧
          (∀ x : Int, x ∈ l ↔ ((x ≠ z ∧ InSubtree h x z ∧
              ∃ y, readInit h.maxReach x = Except.ok y ∧ InSubtree h z y) ∨
            InSubtree h z x))) :=
  ⟨by decide, by decide, by decide, by decide!, by decide!,
    genCandidates_exact_on_tree (-1) (by decide) "abab".toList (by decide) "ab".toList
      (by decide)⟩

/-! ## The keep rule of `pruneCandidates` -/

section Prune
variable {h : heap α} {N : Nat} {par dep dpar mr : Nat → Nat}

theorem Good.keep_spec (G : Good h N par dep dpar mr) (z : Nat) (hz : z ≤ N) (fell : Bool)
    (offset c : Int) (hc : c - offset ≤ (N : Int)) :
    ∃ b, pruneCandidates.keep h (z : Int) fell offset c = Except.ok b ∧
      (b = true ↔ (0 ≤ c - offset ∧
        ((Anc par (c - offset).toNat z ∧ Anc par z (mr (c - offset).toNat)) ∨
          (fell = false ∧ Anc par z (c - offset).toNat)))) := by
  by_cases h0 : c - offset ≥ 0
  · obtain ⟨w, hw⟩ : ∃ w : Nat, c - offset = (w : Int) := ⟨(c - offset).toNat, by omega⟩
    have hwN : w ≤ N := by omega
    rw [pruneCandidates.keep, if_pos h0, hw]
    simp only [Int.toNat_ofNat]
    obtain ⟨r1, p1, q1⟩ := G.isDescendant_spec z w hz hwN
    obtain ⟨r2, p2, q2⟩ := G.isDescendant_spec (mr w) z (G.reach_anc w hwN).1 hz
    obtain ⟨r3, p3, q3⟩ := G.isDescendant_spec w z hwN hz
    have hmr : readInit h.maxReach (w : Int) = Except.ok ((mr w : Nat) : Int) :=
      readInit_cast _ _ _ (G.reachRep.eq w hwN)
    rw [p1, ok_bind]
    cases r1 with
    | false =>
      have n1 : ¬ Anc par w z := fun hcon => by simpa using q1.mpr hcon
      simp only [Bool.false_eq_true, if_false, ok_bind]
      cases fell with
      | false =>
        refine ⟨r3, by simpa using p3, ?_⟩
        rw [q3]
        constructor
        · intro h3; exact ⟨by omega, Or.inr ⟨rfl, h3⟩⟩
        · rintro ⟨_, ⟨h4, _⟩ | ⟨_, h5⟩⟩
          · exact absurd h4 n1
          · exact h5
      | true =>
        refine ⟨false, by simp, ?_⟩
        constructor
        · intro hcon; exact absurd hcon (by simp)
        · rintro ⟨_, ⟨h4, _⟩ | ⟨h5, _⟩⟩
          · exact absurd h4 n1
          · exact absurd h5 (by simp)
    | true =>
      have y1 : Anc par w z := q1.mp rfl
      simp only [if_true, hmr, ok_bind, p2]
      cases r2 with
      | true =>
        refine ⟨true, by simp, ?_⟩
        constructor
        · intro _; exact ⟨by omega, Or.inl ⟨y1, q2.mp rfl⟩⟩
        · intro _; rfl
      | false =>
        have n2 : ¬ Anc par z (mr w) := fun hcon => by simpa using q2.mpr hcon
        simp only [Bool.false_eq_true, if_false]
        cases fell with
        | false =>
          refine ⟨r3, by simpa using p3, ?_⟩
          rw [q3]
          constructor
          · intro h3; exact ⟨by omega, Or.inr ⟨rfl, h3⟩⟩
          · rintro ⟨_, ⟨_, h4⟩ | ⟨_, h5⟩⟩
            · exact absurd h4 n2
            · exact h5
        | true =>
          refine ⟨false, by simp, ?_⟩
          constructor
          · intro hcon; exact absurd hcon (by simp)
          · rintro ⟨_, ⟨_, h4⟩ | ⟨h5, _⟩⟩
            · exact absurd h4 n2
            · exact absurd h5 (by simp)
  · refine ⟨false, by rw [pruneCandidates.keep, if_neg h0], ?_⟩
    constructor
    · intro hcon; exact absurd hcon (by simp)
    · rintro ⟨h1, _⟩; exact absurd h1 h0

theorem prune_loop_filter (hp : heap α) (z : Int) (fell : Bool) (offset : Int)
    (kp : Int → Bool) :
    ∀ (cs : List Int) (acc : mylist),
      (∀ c ∈ cs, pruneCandidates.keep hp z fell offset c = Except.ok (kp c)) →
      pruneCandidates.loop hp z fell offset cs acc = Except.ok (acc ++ cs.filter kp) := by
  intro cs
  induction cs with
  | nil => intro acc _; simp [pruneCandidates.loop]
  | cons c rest ih =>
    intro acc hk
    rw [pruneCandidates.loop, hk c (List.mem_cons_self _ _), ok_bind,
      ih _ (fun c1 hc1 => hk c1 (List.mem_cons_of_mem _ hc1))]
    cases hkc : kp c with
    | true => simp [List.filter, hkc, mylist.add]
    | false => simp [List.filter, hkc]

end Prune

section Naive
variable {text : List α} {N : Nat} {par dep dpar : Nat → Nat}

theorem Shape.naiveDescend_eq (S : Shape text N par dep dpar) (i : Nat) (hi1 : 1 ≤ i)
    (hiN : i ≤ N) (ps : List Nat) (hlen : ps.length = i)
    (hps : ∀ j, 1 ≤ j → j < i → ps[j]? = some (par j)) :
    ∀ fuel p, p ≤ N → Anc par p (par i) → dep (par i) - dep p ≤ fuel →
      naiveDescend text ps i fuel p (dep p) = (par i, dep (par i)) := by
  have hpi := S.par_lt i hi1 hiN
  have hpiN : par i ≤ N := by omega
  have hik : i ∈ kidsOf par N (par i) := (mem_kidsOf par N (par i) i).mpr ⟨hi1, hiN, rfl⟩
  -- the child of `p` on the way to `par i` carries the next letter of `text[i..0]`
  have hnext : ∀ p, Anc par p (par i) → dep p < dep (par i) →
      ∃ x, x ∈ kidsOf par N p ∧ x < i ∧ Anc par x (par i) ∧ dep x = dep p + 1 ∧
        text[x - dep p]? = text[i - dep p]? := by
    intro p hp hd
    rcases anc_kid hp with heq | ⟨x, x1, x2, x3⟩
    · rw [heq] at hd; omega
    · have hxle := S.anc_le hpiN x3
      have hdx := S.dep_succ x x1 (by omega)
      rw [x2] at hdx
      refine ⟨x, (mem_kidsOf par N p x).mpr ⟨x1, by omega, x2⟩, by omega, x3, hdx, ?_⟩
      rw [S.anc_path hpiN x3 (dep p) (by omega), S.path i hi1 hiN (dep p) hd]
  intro fuel
  induction fuel with
  | zero =>
    intro p _ hp hf
    have : p = par i := S.anc_same_dep hpiN hp (by omega)
    rw [naiveDescend, this]
  | succ fuel ih =>
    intro p hpN hp hf
    rw [naiveDescend]
    cases hfind : (List.range ps.length).find?
        (fun c => decide (1 ≤ c ∧ ps[c]? = some p ∧ dep p ≤ i ∧
          text[c - dep p]? = text[i - dep p]?)) with
    | none =>
      simp only
      by_cases hd : dep p < dep (par i)
      · obtain ⟨x, x1, x2, _, _, x5⟩ := hnext p hp hd
        obtain ⟨k1, _, k3⟩ := (mem_kidsOf par N p x).mp x1
        have hall := List.find?_eq_none.mp hfind x (List.mem_range.mpr (by omega))
        have hdi := S.dep_le (par i) hpiN
        exact absurd (decide_eq_true ⟨k1, by rw [hps x k1 x2, k3], by omega, x5⟩) hall
      · have : p = par i := S.anc_same_dep hpiN hp (by omega)
        rw [this]
    | some c =>
      simp only
      have hc0 := List.find?_some hfind
      obtain ⟨c1, c2, _, c4⟩ := of_decide_eq_true hc0
      have hci : c < i := by
        have := List.mem_range.mp (List.mem_of_find?_eq_some hfind)
        omega
      have hpc : par c = p := by
        rw [hps c c1 hci] at c2
        injection c2
      have hck : c ∈ kidsOf par N p := (mem_kidsOf par N p c).mpr ⟨c1, by omega, hpc⟩
      have hd : dep p < dep (par i) := by
        by_contra hcon
        have hpe : p = par i := S.anc_same_dep hpiN hp (by omega)
        rw [hpe] at hck c4
        have := S.kid_label_inj hck hik c4
        omega
      obtain ⟨x, x1, _, x3, x4, x5⟩ := hnext p hp hd
      have hcx : c = x := S.kid_label_inj hck x1 (by rw [c4, x5])
      subst hcx
      have := ih c (by omega) x3 (by omega)
      rw [x4] at this
      exact this

theorem Shape.naiveParents_eq (S : Shape text N par dep dpar) :
    ∀ k, k ≤ N → (naiveParents text k).length = k + 1 ∧
      ∀ j, 1 ≤ j → j ≤ k → (naiveParents text k)[j]? = some (par j) := by
  intro k
  induction k with
  | zero =>
    intro _
    exact ⟨rfl, fun j h1 h2 => by omega⟩
  | succ k ih =>
    intro hk
    obtain ⟨l1, l2⟩ := ih (by omega)
    have hpi := S.par_lt (k + 1) (by omega) hk
    have hdi := S.dep_le (par (k + 1)) (by omega)
    have hd := S.naiveDescend_eq (k + 1) (by omega) hk (naiveParents text k) l1
      (fun j h1 h2 => l2 j h1 (by omega)) (k + 1) 0 (Nat.zero_le N)
      (S.anc_root (by omega)) (by omega)
    rw [S.dep_zero] at hd
    rw [naiveParents, hd]
    constructor
    · rw [List.length_append, l1]; rfl
    · intro j h1 h2
      by_cases hj : j ≤ k
      · rw [List.getElem?_append_left (by omega)]
        exact l2 j h1 hj
      · have : j = k + 1 := by omega
        subst this
        rw [List.getElem?_append_right (by omega), l1]
        simp

end Naive

/-- C13 (the construction refines naive insertion): after the construction for a
non-empty text, for every node `i` in `1..n-1` with parent `p` in the final tree, the
root path `S_i` of `i` spells a beginning of `text[i], text[i-1], ..., text[0]`; `p` is an
earlier node and no earlier node whose root path spells a beginning of that string is
deeper than `p`; `p` is the parent that naive insertion gives to `i` (the node where
indexing `text[i..0]` into the heap of the nodes `0..i-1` falls off); `S_i` is the root
path of no earlier node, and every shorter beginning of `S_i` is the root path of an
earlier node. -/
theorem build_refines_naive (T : List α) (hT : T ≠ []) :
    ∃ h, heap.new T = Except.ok h ∧ ∀ i : Nat, 1 ≤ i → i < T.length →
      ∃ (p : Nat) (ls : List α) (a : α),
        IsChild h (p : Int) (i : Int) ∧ RootPath h (p : Int) ls ∧
        RootPath h (i : Int) (ls ++ [a]) ∧ (ls ++ [a]).length ≤ i + 1 ∧
        (∀ k, k < (ls ++ [a]).length → (ls ++ [a])[k]? = T.reverse[i - k]?) ∧
        p < i ∧
        (∀ (y : Nat) (ls1 : List α), y < i → RootPath h (y : Int) ls1 →
          (∀ k, k < ls1.length → ls1[k]? = T.reverse[i - k]?) → ls1.length ≤ ls.length) ∧
        (naiveParents T.reverse (T.length - 1))[i]? = some p ∧
        (∀ y : Nat, y < i → ¬ RootPath h (y : Int) (ls ++ [a])) ∧
        (∀ k, k ≤ ls.length → ∃ y : Nat, y < i ∧ RootPath h (y : Int) ((ls ++ [a]).take k)) := by
  obtain ⟨h, par, dep, dpar, mr, e1, e2, G⟩ := heap_new_spec T hT
  refine ⟨h, e1, ?_⟩
  intro i hi1 hi
  have hlen := G.len
  rw [e2, List.length_reverse] at hlen
  have hiN : i ≤ T.length - 1 := by omega
  have hpi := G.shape.par_lt i hi1 hiN
  have hpN : par i ≤ T.length - 1 := by omega
  have hdi := G.shape.dep_succ i hi1 hiN
  have hdle := G.shape.dep_le i hiN
  have hchild : IsChild h ((par i : Nat) : Int) (i : Int) :=
    (G.isChild_iff _ _).mpr ⟨par i, i, rfl, rfl, hpN, (mem_kidsOf par _ (par i) i).mpr
      ⟨hi1, hiN, rfl⟩⟩
  obtain ⟨ls, p1, p2⟩ := G.rootPath_exists (par i) hpN
  have hrd : i - dep (par i) < h.text.length := by rw [e2, List.length_reverse]; omega
  have hidx : ((i : Int) - (ls.length : Int)) = ((i - dep (par i) : Nat) : Int) := by omega
  have pi : RootPath h (i : Int) (ls ++ [h.text[i - dep (par i)]]) :=
    RootPath.edge p1 hchild (by rw [hidx]; exact readAt_cast _ _ _ (List.getElem?_eq_getElem hrd))
  obtain ⟨i0, s1, _, s3, s4⟩ := G.rootPath_node pi
  have hi0 : i0 = i := by omega
  subst hi0
  obtain ⟨p0, t1, _, _, t4⟩ := G.rootPath_node p1
  have hp0 : p0 = par i0 := by omega
  subst hp0
  have hSlen : (ls ++ [h.text[i0 - dep (par i0)]]).length = dep i0 := s3.symm
  refine ⟨par i0, ls, h.text[i0 - dep (par i0)], hchild, p1, pi, by omega, ?_, hpi, ?_, ?_,
    ?_, ?_⟩
  · intro k hk
    rw [s4 k hk, e2]
  · intro y ls1 hy hp1 hpre
    obtain ⟨y0, u1, u2, u3, u4⟩ := G.rootPath_node hp1
    have hy0 : y0 = y := by omega
    subst hy0
    rw [p2, ← u3]
    have hyp : ∀ k, k < dep y0 → h.text[y0 - k]? = h.text[i0 - k]? := by
      intro k hk
      rw [← u4 k (by omega), hpre k (by omega), e2]
    by_cases hdy : dep y0 ≤ dep i0
    · have hanc := G.shape.anc_of_path u2 hiN hdy hyp
      rcases hanc.inv with heq | ⟨_, h2⟩
      · omega
      · exact G.shape.anc_dep_le hpN h2
    · obtain ⟨b, b1, b2⟩ := G.shape.anc_at_depth u2 (dep i0) (by omega)
      have hby := G.shape.anc_le u2 b1
      have hbi : b = i0 := by
        apply G.shape.uniq b i0 (by omega) hiN b2
        intro k hk
        rw [G.shape.anc_path u2 b1 k hk, hyp k (by omega)]
      omega
  · have := (G.shape.naiveParents_eq (T.length - 1) le_rfl).2 i0 hi1 hiN
    rw [← e2]
    exact this
  · intro y hy hcon
    obtain ⟨y0, u1, u2, u3, u4⟩ := G.rootPath_node hcon
    have hy0 : y0 = y := by omega
    subst hy0
    have : y0 = i0 := by
      apply G.shape.uniq y0 i0 u2 hiN (by omega)
      intro k hk
      rw [← u4 k (by omega), s4 k (by omega)]
    omega
  · intro k hk
    obtain ⟨b, b1, b2⟩ := G.shape.anc_at_depth hpN k (by omega)
    have hbp := G.shape.anc_le hpN b1
    obtain ⟨lb, v1, v2⟩ := G.rootPath_exists b (by omega)
    obtain ⟨b0, w1, _, _, w4⟩ := G.rootPath_node v1
    have hb0 : b0 = b := by omega
    subst hb0
    have hlb : lb = (ls ++ [h.text[i0 - dep (par i0)]]).take k := by
      apply List.ext_getElem?
      intro j
      by_cases hj : j < k
      · rw [List.getElem?_take_of_lt hj, List.getElem?_append_left (by omega), w4 j (by omega),
          t4 j (by omega), G.shape.anc_path hpN b1 j (by omega)]
      · rw [List.getElem?_eq_none (by omega), List.getElem?_eq_none]
        rw [List.length_take]
        omega
    exact ⟨b0, by omega, hlb ▸ v1⟩

theorem build_refines_naive_witness :
    "abab".toList ≠ [] ∧
    naiveParents "abab".toList.reverse ("abab".toList.length - 1) = [0, 0, 0, 1] ∧
    ∃ h, heap.new "abab".toList = Except.ok h ∧ ∀ i : Nat, 1 ≤ i → i < "abab".toList.length →
      ∃ (p : Nat) (ls : List Char) (a : Char),
        IsChild h (p : Int) (i : Int) ∧ RootPath h (p : Int) ls ∧
        RootPath h (i : Int) (ls ++ [a]) ∧ (ls ++ [a]).length ≤ i + 1 ∧
        (∀ k, k < (ls ++ [a]).length → (ls ++ [a])[k]? = "abab".toList.reverse[i - k]?) ∧
        p < i ∧
        (∀ (y : Nat) (ls1 : List Char), y < i → RootPath h (y : Int) ls1 →
          (∀ k, k < ls1.length → ls1[k]? = "abab".toList.reverse[i - k]?) →
          ls1.length ≤ ls.length) ∧
        (naiveParents "abab".toList.reverse ("abab".toList.length - 1))[i]? = some p ∧
        (∀ y : Nat, y < i → ¬ RootPath h (y : Int) (ls ++ [a])) ∧
        (∀ k, k ≤ ls.length →
          ∃ y : Nat, y < i ∧ RootPath h (y : Int) ((ls ++ [a]).take k)) :=
  ⟨by decide, by decide, build_refines_naive "abab".toList (by decide)⟩

/-! ## Total specification of `pruneCandidates` -/

section PruneTotal
variable {h : heap α} {N : Nat} {par dep dpar mr : Nat → Nat}

theorem Good.prune_total (G : Good h N par dep dpar mr) (R : List α) (s : Nat)
    (cands : mylist) (offset : Int) (hc : ∀ c ∈ cands, c - offset ≤ (N : Int)) (z e : Nat)
    (hidx : indexIntoTrie h R (s : Int) none = Except.ok ((z : Int), some (e : Int)))
    (hz : z ≤ N) (he : 0 < e) :
    ∃ kp : Int → Bool,
      pruneCandidates h R (s : Int) cands offset
        = Except.ok (cands.filter kp, offset + (e : Int)) ∧
      ∀ c ∈ cands, (kp c = true ↔ (0 ≤ c - offset ∧
        ((Anc par (c - offset).toNat z ∧ Anc par z (mr (c - offset).toNat)) ∨
          (¬ e < s ∧ Anc par z (c - offset).toNat)))) := by
  have hkeep : ∀ c ∈ cands, ∃ b,
      pruneCandidates.keep h (z : Int) (decide ((e : Int) < (s : Int))) offset c
        = Except.ok b ∧
      (b = true ↔ (0 ≤ c - offset ∧
        ((Anc par (c - offset).toNat z ∧ Anc par z (mr (c - offset).toNat)) ∨
          (¬ e < s ∧ Anc par z (c - offset).toNat)))) := by
    intro c hcm
    obtain ⟨b, b1, b2⟩ := G.keep_spec z hz (decide ((e : Int) < (s : Int))) offset c (hc c hcm)
    refine ⟨b, b1, ?_⟩
    rw [b2]
    have hd : (decide ((e : Int) < (s : Int)) = false) ↔ ¬ e < s := by
      simp only [decide_eq_false_iff_not]
      omega
    rw [hd]
  obtain ⟨kp, hkp⟩ : ∃ kp : Int → Bool, ∀ c, kp c = decide (pruneCandidates.keep h (z : Int)
      (decide ((e : Int) < (s : Int))) offset c = Except.ok true) := ⟨_, fun _ => rfl⟩
  have hkb : ∀ c b, pruneCandidates.keep h (z : Int) (decide ((e : Int) < (s : Int)))
      offset c = Except.ok b → kp c = b := by
    intro c b hb
    rw [hkp c, hb]
    cases b <;> simp
  refine ⟨kp, ?_, ?_⟩
  · rw [pruneCandidates, hidx]
    simp only [ok_bind, initialised]
    rw [if_pos (by omega), prune_loop_filter h (z : Int) _ offset kp cands []]
    · simp only [ok_bind, List.nil_append]
    · intro c hcm
      obtain ⟨b, b1, _⟩ := hkeep c hcm
      rw [hkb c b b1, b1]
  · intro c hcm
    obtain ⟨b, b1, b2⟩ := hkeep c hcm
    rw [hkb c b b1, b2]

theorem prune_zero (h : heap α) (R : List α) (s : Nat)
    (cands : mylist) (offset : Int) (z : Int)
    (hidx : indexIntoTrie h R (s : Int) none = Except.ok (z, some 0)) :
    pruneCandidates h R (s : Int) cands offset = Except.ok ([], offset) := by
  rw [pruneCandidates, hidx]
  simp only [ok_bind, initialised]
  rw [if_neg (by omega)]

end PruneTotal

/-- C22 (`pruneCandidates` and `offset`): on the index of a non-empty text, for a suffix
of length `s ≥ 1`, indexing the suffix leaves `pathEndDepth = 0` exactly when no child of
`ROOT` is labelled with the first indexed character `suffix[s-1]`; in that case the call
returns the empty list and leaves `offset` unchanged, for every candidate list; otherwise,
for an `offset ≥ 0` with `offset + s` within the range of `int` and candidates that are
positions `h ≥ 0` with `h - offset` below the text length, it returns with `offset`
increased by exactly `pathEndDepth`, and the sum is within the range of `int`, so the
addition `offset += pathEndDepth` of the code does not overflow. -/
theorem pruneCandidates_offset (T : List α) (hT : T ≠ []) (suffix : List α) (s : Nat)
    (hs : 1 ≤ s) (hsl : s ≤ suffix.length) :
    ∃ (h : heap α) (z : Int) (e : Nat), heap.new T = Except.ok h ∧
      indexIntoTrie h suffix (s : Int) none = Except.ok (z, some (e : Int)) ∧
      (e = 0 ↔ ∀ (c : Int) (a : α), IsChild h ROOT c → readAt h.text c = Except.ok a →
        some a ≠ suffix[s - 1]?) ∧
      (e = 0 → ∀ (candidates : mylist) (offset : Int),
        pruneCandidates h suffix (s : Int) candidates offset = Except.ok ([], offset)) ∧
      (0 < e → ∀ (candidates : mylist) (offset : Int),
        (∀ c ∈ candidates, 0 ≤ c ∧ c - offset < (T.length : Int)) →
        0 ≤ offset → offset + (s : Int) ≤ INT_MAX →
        ∃ l, pruneCandidates h suffix (s : Int) candidates offset
          = Except.ok (l, offset + (e : Int)) ∧
          offset < offset + (e : Int) ∧ offset + (e : Int) ≤ INT_MAX) := by
  obtain ⟨h, par, dep, dpar, mr, e1, e2, G⟩ := heap_new_spec T hT
  have hlenT := G.len
  rw [e2, List.length_reverse] at hlenT
  obtain ⟨z, e, q1, q2, q3, q4, q5, q6⟩ := G.indexIntoTrie_spec suffix s hs hsl none
  refine ⟨h, (z : Int), e, e1, q1, ?_, ?_, ?_⟩
  · constructor
    · intro he c a hc ha heq
      have hz0 : z = 0 := G.shape.dep_eq_zero q2 (by omega)
      obtain ⟨pn, cn, a1, a2, _, a4⟩ := (G.isChild_iff _ _).mp hc
      have hpn : pn = 0 := by simp only [ROOT] at a1; omega
      subst hpn
      subst a2
      obtain ⟨_, b2⟩ := (readAt_ok_iff _ _ _).mp ha
      simp only [Int.toNat_ofNat] at b2
      have := q6 (by omega) cn (by rw [hz0]; exact a4)
      rw [he] at this
      exact this (by rw [Nat.sub_zero, Nat.sub_zero, b2, heq])
    · intro hno
      by_contra he
      obtain ⟨b, b1, b2⟩ := G.shape.anc_at_depth q2 1 (by omega)
      have hbN : b ≤ T.length - 1 := le_trans (G.shape.anc_le q2 b1) q2
      have hb1 : 1 ≤ b := by
        by_contra hcon
        have hb0 : b = 0 := by omega
        rw [hb0, G.shape.dep_zero] at b2
        omega
      have hdb := G.shape.dep_succ b hb1 hbN
      have hpb : par b = 0 := G.shape.dep_eq_zero
        (by have := G.shape.par_lt b hb1 hbN; omega) (by omega)
      have hchild : IsChild h ROOT (b : Int) :=
        (G.isChild_iff _ _).mpr ⟨0, b, rfl, rfl, Nat.zero_le _,
          (mem_kidsOf par _ 0 b).mpr ⟨hb1, hbN, hpb⟩⟩
      have hbl : b < h.text.length := by rw [e2, List.length_reverse]; omega
      have hlab : h.text[b]? = suffix[s - 1]? := by
        have h1 := G.shape.anc_path q2 b1 0 (by omega)
        have h2 := q5 0 (by omega)
        simp only [Nat.sub_zero] at h1 h2
        rw [h1, h2]
      apply hno (b : Int) h.text[b] hchild (readAt_cast _ _ _ (List.getElem?_eq_getElem hbl))
      rw [← hlab, List.getElem?_eq_getElem hbl]
  · intro he candidates offset
    subst he
    exact prune_zero h suffix s candidates offset _ q1
  · intro he candidates offset hc _ hmax
    obtain ⟨kp, k1, _⟩ := G.prune_total suffix s candidates offset
      (fun c hcm => by have := (hc c hcm).2; omega) z e q1 q2 he
    exact ⟨_, k1, by omega, by omega⟩

theorem pruneCandidates_offset_witness :
    "abab".toList ≠ [] ∧ 1 ≤ 1 ∧ 1 ≤ "a".toList.length ∧
    (heap.new "abab".toList >>= fun h => pruneCandidates h "c".toList 1 [3, 2] 1)
      = Except.ok ([], 1) ∧
    (heap.new "abab".toList >>= fun h => pruneCandidates h "a".toList 1 [3, 2, 1, 0] 1)
      = Except.ok ([2], 2) ∧
    (heap.new "abab".toList >>= fun h =>
        pruneCandidates h "a".toList 1 [] (INT_MAX - 1)) = Except.ok ([], INT_MAX) ∧
    ∃ (h : heap Char) (z : Int) (e : Nat), heap.new "abab".toList = Except.ok h ∧
      indexIntoTrie h "a".toList ((1 : Nat) : Int) none = Except.ok (z, some (e : Int)) ∧
      (e = 0 ↔ ∀ (c : Int) (a : Char), IsChild h ROOT c → readAt h.text c = Except.ok a →
        some a ≠ "a".toList[1 - 1]?) ∧
      (e = 0 → ∀ (candidates : mylist) (offset : Int),
        pruneCandidates h "a".toList ((1 : Nat) : Int) candidates offset
          = Except.ok ([], offset)) ∧
      (0 < e → ∀ (candidates : mylist) (offset : Int),
        (∀ c ∈ candidates, 0 ≤ c ∧ c - offset < ("abab".toList.length : Int)) →
        0 ≤ offset → offset + ((1 : Nat) : Int) ≤ INT_MAX →
        ∃ l, pruneCandidates h "a".toList ((1 : Nat) : Int) candidates offset
          = Except.ok (l, offset + (e : Int)) ∧
          offset < offset + (e : Int) ∧ offset + (e : Int) ≤ INT_MAX) :=
  ⟨by decide, by decide, by decide, by decide!, by decide!, by decide!,
    pruneCandidates_offset "abab".toList (by decide) "a".toList 1 (by decide) (by decide)⟩

/-- C27 (depth bound and text access in bounds): after the construction for a non-empty
text of length `n`, every node `c` whose root path in the final tree has length `d`
satisfies `d ≤ c`; for every child `c` of a node at depth `d` the label index `c - d`
lies in `1..n-1` and `text[c - d]` is read inside the array; and `indexIntoTrie` returns
for every pattern array of every length, also one longer than the text: it reads no
cell outside the arrays. -/
theorem depth_bound_text_access (T : List α) (hT : T ≠ []) :
    ∃ h, heap.new T = Except.ok h ∧
      (∀ (c : Int) (ls : List α), RootPath h c ls → (ls.length : Int) ≤ c) ∧
      (∀ (p c : Int) (ls : List α), RootPath h p ls → IsChild h p c →
        1 ≤ c - (ls.length : Int) ∧ c - (ls.length : Int) ≤ (T.length : Int) - 1 ∧
        ∃ a, readAt h.text (c - (ls.length : Int)) = Except.ok a) ∧
      (∀ (P : List α) (endDepth : Option Int),
        ∃ r, indexIntoTrie h P (P.length : Int) endDepth = Except.ok r) := by
  obtain ⟨h, par, dep, dpar, mr, e1, e2, G⟩ := heap_new_spec T hT
  have hlenT := G.len
  rw [e2, List.length_reverse] at hlenT
  refine ⟨h, e1, ?_, ?_, ?_⟩
  · intro c ls hp
    obtain ⟨z, z1, z2, z3, _⟩ := G.rootPath_node hp
    have := G.shape.dep_le z z2
    omega
  · intro p c ls hp hc
    obtain ⟨z, z1, z2, z3, _⟩ := G.rootPath_node hp
    obtain ⟨pn, cn, a1, a2, _, a4⟩ := (G.isChild_iff p c).mp hc
    have hpn : z = pn := by omega
    subst hpn
    obtain ⟨k1, k2, k3⟩ := (mem_kidsOf par _ z cn).mp a4
    have d1 := G.shape.dep_succ cn k1 k2
    have g1 := G.shape.dep_le cn k2
    rw [k3] at d1
    have r1 : cn - dep z < h.text.length := by rw [e2, List.length_reverse]; omega
    have s1 : (c - (ls.length : Int)) = ((cn - dep z : Nat) : Int) := by omega
    refine ⟨by omega, by omega, h.text[cn - dep z], ?_⟩
    rw [s1]
    exact readAt_cast _ _ _ (List.getElem?_eq_getElem r1)
  · intro P ed
    by_cases hP : P.length = 0
    · refine ⟨(ROOT, ed), ?_⟩
      rw [hP]
      rfl
    · obtain ⟨z, e, q1, _⟩ := G.indexIntoTrie_spec P P.length (by omega) le_rfl ed
      exact ⟨_, q1⟩

theorem depth_bound_text_access_witness :
    "ab".toList ≠ [] ∧
    (heap.new "ab".toList >>= fun h => indexIntoTrie h "aaaa".toList 4 none)
      = Except.ok (1, some 1) ∧
    ∃ h, heap.new "ab".toList = Except.ok h ∧
      (∀ (c : Int) (ls : List Char), RootPath h c ls → (ls.length : Int) ≤ c) ∧
      (∀ (p c : Int) (ls : List Char), RootPath h p ls → IsChild h p c →
        1 ≤ c - (ls.length : Int) ∧ c - (ls.length : Int) ≤ ("ab".toList.length : Int) - 1 ∧
        ∃ a, readAt h.text (c - (ls.length : Int)) = Except.ok a) ∧
      (∀ (P : List Char) (endDepth : Option Int),
        ∃ r, indexIntoTrie h P (P.length : Int) endDepth = Except.ok r) :=
  ⟨by decide, by decide!, depth_bound_text_access "ab".toList (by decide)⟩

/-! ## Sibling chains are finite lists without repetition -/

theorem chain_det (da : List downNode) : ∀ (xs ys : List Nat) (c : Int),
    Chain da c xs → Chain da c ys → xs = ys := by
  intro xs
  induction xs with
  | nil =>
    intro ys c h1 h2
    cases ys with
    | nil => rfl
    | cons y ys =>
      simp only [Chain] at h1
      obtain ⟨h3, _⟩ := h2
      simp only [NOCHILD] at h1
      omega
  | cons x xs ih =>
    intro ys c h1 h2
    cases ys with
    | nil =>
      simp only [Chain] at h2
      obtain ⟨h3, _⟩ := h1
      simp only [NOCHILD] at h2
      omega
    | cons y ys =>
      obtain ⟨a1, nd, a2, a3⟩ := h1
      obtain ⟨b1, nd1, b2, b3⟩ := h2
      have hxy : x = y := by omega
      subst hxy
      rw [a2] at b2
      injection b2 with b2
      subst b2
      rw [ih ys _ a3 b3]

theorem chain_tail (da : List downNode) : ∀ (xs : List Nat) (c : Int) (x : Nat),
    Chain da c xs → x ∈ xs →
    x < da.length ∧ ∃ suf, Chain da (x : Int) (x :: suf) ∧ suf.length < xs.length := by
  intro xs
  induction xs with
  | nil => intro c x _ hx; simp at hx
  | cons y ys ih =>
    intro c x hc hx
    obtain ⟨a1, nd, a2, a3⟩ := hc
    rcases List.mem_cons.mp hx with heq | hmem
    · subst heq
      refine ⟨(List.getElem?_eq_some.mp a2).1, ys, ⟨rfl, nd, a2, a3⟩, ?_⟩
      simp
    · obtain ⟨g1, suf, g2, g3⟩ := ih _ x a3 hmem
      exact ⟨g1, suf, g2, by simp only [List.length_cons]; omega⟩

theorem chain_nodup (da : List downNode) : ∀ (xs : List Nat) (c : Int),
    Chain da c xs → xs.Nodup := by
  intro xs
  induction xs with
  | nil => intro c _; exact List.nodup_nil
  | cons x xs ih =>
    intro c hc
    have hc0 := hc
    obtain ⟨a1, nd, a2, a3⟩ := hc
    refine List.nodup_cons.mpr ⟨?_, ih _ a3⟩
    intro hmem
    obtain ⟨_, suf, g2, g3⟩ := chain_tail da xs _ x a3 hmem
    rw [a1] at hc0
    have := chain_det da _ _ _ g2 hc0
    injection this with _ h2
    rw [h2] at g3
    omega

theorem chain_length_le (da : List downNode) (xs : List Nat) (c : Int)
    (hc : Chain da c xs) : xs.length ≤ da.length := by
  have hnd := chain_nodup da xs c hc
  have hsub : xs.toFinset ⊆ Finset.range da.length := by
    intro x hx
    rw [List.mem_toFinset] at hx
    exact Finset.mem_range.mpr (chain_tail da xs c x hc hx).1
  have := Finset.card_le_card hsub
  rw [List.toFinset_card_of_nodup hnd, Finset.card_range] at this
  exact this

/-- C25 (`childOnLetter`): in every state of the heap object (`downArray` has
`textLength` cells), for every node whose sibling chain from `firstChild[node]` is `xs`
and ends in `NOCHILD`, and every `nodeDepth` and `letter` such that the label indices
`x - nodeDepth` of the chain lie inside the text, `childOnLetter` returns the first node
`x` of the chain with `text[x - nodeDepth] = letter`; it returns `NOCHILD` if and only if
no node of the chain has this label. -/
theorem childOnLetter_first_match (h : heap α) (node nodeDepth : Nat) (letter : α)
    (xs : List Nat) (hlen : (h.downArray.length : Int) = h.textLength)
    (hk : Kids h.downArray node xs)
    (hb : ∀ x ∈ xs, nodeDepth ≤ x ∧ x < h.text.length) :
    ∃ r, childOnLetter h (node : Int) (nodeDepth : Int) letter = Except.ok r ∧
      (r = NOCHILD ↔ ∀ x ∈ xs, h.text[x - nodeDepth]? ≠ some letter) ∧
      (r ≠ NOCHILD → ∃ (pre suf : List Nat) (x : Nat), xs = pre ++ x :: suf ∧ r = (x : Int) ∧
        h.text[x - nodeDepth]? = some letter ∧
        ∀ y ∈ pre, h.text[y - nodeDepth]? ≠ some letter) := by
  obtain ⟨nd, k1, k2⟩ := hk
  have hl := chain_length_le h.downArray xs _ k2
  have hf : xs.length < h.fuel := by
    simp only [heap.fuel]
    omega
  refine ⟨_, childOnLetter_spec h node nodeDepth letter xs ⟨nd, k1, k2⟩ hb hf,
    firstOn_eq_NOCHILD h.text nodeDepth letter xs, ?_⟩
  intro hne
  cases hfind : xs.find? (fun x => decide (h.text[x - nodeDepth]? = some letter)) with
  | none =>
    exfalso
    apply hne
    simp only [firstOn, hfind]
  | some x =>
    obtain ⟨p1, pre, suf, p2, p3⟩ := List.find?_eq_some.mp hfind
    refine ⟨pre, suf, x, p2, by simp only [firstOn, hfind], of_decide_eq_true p1, ?_⟩
    intro y hy hcon
    have := p3 y hy
    simp only [hcon, decide_True, Bool.not_true] at this
    exact absurd this (by simp)

theorem childOnLetter_first_match_witness :
    ((aabIndex.downArray.length : Int) = aabIndex.textLength) ∧
    Kids aabIndex.downArray 0 [1] ∧
    (∀ x ∈ [1], 0 ≤ x ∧ x < aabIndex.text.length) ∧
    ∃ r, childOnLetter aabIndex ((0 : Nat) : Int) ((0 : Nat) : Int) 'a' = Except.ok r ∧
      (r = NOCHILD ↔ ∀ x ∈ [1], aabIndex.text[x - 0]? ≠ some 'a') ∧
      (r ≠ NOCHILD → ∃ (pre suf : List Nat) (x : Nat), [1] = pre ++ x :: suf ∧ r = (x : Int) ∧
        aabIndex.text[x - 0]? = some 'a' ∧
        ∀ y ∈ pre, aabIndex.text[y - 0]? ≠ some 'a') :=
  ⟨by decide, ⟨_, rfl, rfl, _, rfl, rfl⟩, by decide,
    childOnLetter_first_match aabIndex 0 0 'a' [1] (by decide) ⟨_, rfl, rfl, _, rfl, rfl⟩
      (by decide)⟩

/-! ## Termination of the prune loop -/

section PruneLoop
variable {h : heap α} {N : Nat} {par dep dpar mr : Nat → Nat}

/-- One call of `pruneCandidates` from the prune loop: it returns, the new list is a part
of the old one, and it is empty or `offset` has grown, staying at most `m`. -/
theorem Good.prune_call (G : Good h N par dep dpar mr) (R : List α) (m : Nat)
    (hm : m ≤ R.length) (cands : mylist) (o : Nat) (ho : o < m)
    (hc : ∀ c ∈ cands, c ≤ (N : Int)) :
    ∃ (l : mylist) (o1 : Nat),
      pruneCandidates h R ((m : Int) - (o : Int)) cands (o : Int) = Except.ok (l, (o1 : Int)) ∧
      (l = [] ∨ o + 1 ≤ o1) ∧ o ≤ o1 ∧ o1 ≤ m ∧ l.Sublist cands := by
  have hlen : ((m : Int) - (o : Int)) = ((m - o : Nat) : Int) := by omega
  obtain ⟨z, e, q1, q2, _, q4, _, _⟩ := G.indexIntoTrie_spec R (m - o) (by omega) (by omega) none
  rw [hlen]
  by_cases he : e = 0
  · subst he
    exact ⟨[], o, prune_zero h R (m - o) cands (o : Int) _ q1, Or.inl rfl, le_rfl, by omega,
      List.nil_sublist _⟩
  · obtain ⟨kp, k1, _⟩ := G.prune_total R (m - o) cands (o : Int)
      (fun c hcm => by have := hc c hcm; omega) z e q1 q2 (by omega)
    refine ⟨cands.filter kp, o + e, ?_, Or.inr (by omega), by omega, by omega,
      List.filter_sublist _⟩
    rw [k1]
    push_cast
    rfl

theorem Good.pruneLoop_total (G : Good h N par dep dpar mr) (R : List α) (m : Nat)
    (hm : m ≤ R.length) :
    ∀ (k : Nat) (cands : mylist) (o : Nat), m - o ≤ k → (∀ c ∈ cands, c ≤ (N : Int)) →
      ∃ l : mylist, l.Sublist cands ∧
        ∀ fuel, k + 1 ≤ fuel →
          search.pruneLoop h R (m : Int) fuel cands (o : Int) = Except.ok l := by
  intro k
  induction k with
  | zero =>
    intro cands o hk _
    refine ⟨cands, List.Sublist.refl _, ?_⟩
    intro fuel hf
    obtain ⟨f, rfl⟩ : ∃ f, fuel = f + 1 := ⟨fuel - 1, by omega⟩
    rw [search.pruneLoop, if_neg (by rintro ⟨h1, _⟩; omega)]
  | succ k ih =>
    intro cands o hk hc
    by_cases hcond : (o : Int) < (m : Int) ∧ mylist.size cands > 0
    · obtain ⟨l1, o1, p1, p2, p3, p4, p5⟩ := G.prune_call R m hm cands o (by omega) hc
      rcases p2 with hnil | hgrow
      · subst hnil
        refine ⟨[], List.nil_sublist _, ?_⟩
        intro fuel hf
        obtain ⟨f, rfl⟩ : ∃ f, fuel = f + 1 + 1 := ⟨fuel - 2, by omega⟩
        rw [search.pruneLoop, if_pos hcond, p1, ok_bind, search.pruneLoop,
          if_neg (by rintro ⟨_, h2⟩; simp [mylist.size] at h2)]
      · obtain ⟨l, g1, g2⟩ := ih l1 o1 (by omega) (fun c hcm => hc c (p5.subset hcm))
        refine ⟨l, g1.trans p5, ?_⟩
        intro fuel hf
        obtain ⟨f, rfl⟩ : ∃ f, fuel = f + 1 := ⟨fuel - 1, by omega⟩
        rw [search.pruneLoop, if_pos hcond, p1, ok_bind]
        exact g2 f (by omega)
    · refine ⟨cands, List.Sublist.refl _, ?_⟩
      intro fuel hf
      obtain ⟨f, rfl⟩ : ∃ f, fuel = f + 1 := ⟨fuel - 1, by omega⟩
      rw [search.pruneLoop, if_neg hcond]

end PruneLoop

/-- C28 (the prune loop terminates): on the index of a non-empty text, for a pattern of
length `m ≥ 1`, every call of `pruneCandidates` with `offset < m` and a list of positions
returns, and it returns the empty list or increases `offset` by at least 1, keeping
`offset ≤ m`; and when `genCandidates` has returned the candidates with `pathEndDepth`,
the loop `while (offset < patternLength && candidates->size() > 0)` started from them
ends within `m` iterations (`m + 1` evaluations of the loop test are enough), so that
`search` returns. -/
theorem prune_loop_terminates (INVALID : Int) (T : List α) (hT : T ≠ []) (P : List α)
    (hP : 1 ≤ P.length) :
    ∃ h, heap.new T = Except.ok h ∧
      (∀ (candidates : mylist) (offset : Nat), offset < P.length →
        (∀ c ∈ candidates, c < (T.length : Int)) →
        ∃ (l : mylist) (offset1 : Nat),
          pruneCandidates h (reverse P (P.length : Int)) ((P.length : Int) - (offset : Int))
            candidates (offset : Int) = Except.ok (l, (offset1 : Int)) ∧
          (l = [] ∨ offset + 1 ≤ offset1) ∧ offset1 ≤ P.length) ∧
      (∀ (candidates : mylist) (pathEndDepth : Int),
        genCandidates h (reverse P (P.length : Int)) (P.length : Int) none
          = Except.ok (candidates, some pathEndDepth) →
        ∃ l : mylist,
          (∀ fuel, P.length + 1 ≤ fuel →
            search.pruneLoop h (reverse P (P.length : Int)) (P.length : Int) fuel candidates
              pathEndDepth = Except.ok l) ∧
          (pathEndDepth < (P.length : Int) →
            search h INVALID P (P.length : Int) = Except.ok (l, P))) := by
  obtain ⟨h, par, dep, dpar, mr, e1, e2, G⟩ := heap_new_spec T hT
  have hlenT := G.len
  rw [e2, List.length_reverse] at hlenT
  have hR : reverse P (P.length : Int) = P.reverse := reverse_full P
  refine ⟨h, e1, ?_, ?_⟩
  · intro candidates offset ho hc
    obtain ⟨l, o1, p1, p2, _, p4, _⟩ := G.prune_call P.reverse P.length
      (by rw [List.length_reverse]) candidates offset ho
      (fun c hcm => by have := hc c hcm; omega)
    exact ⟨l, o1, by rw [hR]; exact p1, p2, p4⟩
  · intro candidates ped hgen
    rw [hR] at hgen
    obtain ⟨e, L, g1, g2, g3, _, g5⟩ := G.genCandidates_ok P.reverse P.length hP
      (by rw [List.length_reverse]) none _ hgen
    injection g1 with g1a g1b
    injection g1b with g1c
    subst g1a g1c
    obtain ⟨l, _, f2⟩ := G.pruneLoop_total P.reverse P.length (by rw [List.length_reverse])
      P.length (L.map (fun a : Nat => (a : Int))) e (by omega)
      (fun c hcm => by
        obtain ⟨a, a1, a2⟩ := List.mem_map.mp hcm
        have := (g5 a a1).1
        omega)
    refine ⟨l, by rw [hR]; exact f2, ?_⟩
    intro hlt
    rw [search, hR, hgen]
    simp only [ok_bind, initialised]
    rw [if_neg (by simp only [not_not]; exact hlt),
      f2 (patternFuel (P.length : Int)) (by simp only [patternFuel, Int.toNat_ofNat]; omega)]
    simp only [ok_bind]
    rw [← hR, reverse_reverse]

theorem prune_loop_terminates_witness :
    "abab".toList ≠ [] ∧ 1 ≤ "abb".toList.length ∧
    (heap.new "abab".toList >>= fun h => genCandidates h (reverse "abb".toList 3) 3 none)
      = Except.ok ([1, 3], some 2) ∧
    ∃ h, heap.new "abab".toList = Except.ok h ∧
      (∀ (candidates : mylist) (offset : Nat), offset < "abb".toList.length →
        (∀ c ∈ candidates, c < ("abab".toList.length : Int)) →
        ∃ (l : mylist) (offset1 : Nat),
          pruneCandidates h (reverse "abb".toList ("abb".toList.length : Int))
            (("abb".toList.length : Int) - (offset : Int))
            candidates (offset : Int) = Except.ok (l, (offset1 : Int)) ∧
          (l = [] ∨ offset + 1 ≤ offset1) ∧ offset1 ≤ "abb".toList.length) ∧
      (∀ (candidates : mylist) (pathEndDepth : Int),
        genCandidates h (reverse "abb".toList ("abb".toList.length : Int))
          ("abb".toList.length : Int) none = Except.ok (candidates, some pathEndDepth) →
        ∃ l : mylist,
          (∀ fuel, "abb".toList.length + 1 ≤ fuel →
            search.pruneLoop h (reverse "abb".toList ("abb".toList.length : Int))
              ("abb".toList.length : Int) fuel candidates pathEndDepth = Except.ok l) ∧
          (pathEndDepth < ("abb".toList.length : Int) →
            search h (-1) "abb".toList ("abb".toList.length : Int)
              = Except.ok (l, "abb".toList))) :=
  ⟨by decide, by decide, by decide!,
    prune_loop_terminates (-1) "abab".toList (by decide) "abb".toList (by decide)⟩

/-! ## The stages of the construction -/

theorem heap_new_unfold (T : List α) :
    heap.new T = (build.construct (heap.fresh T) >>= fun s =>
      installMaxReaches s.1 >>= fun h1 =>
      clearNode h1 0 >>= fun h2 =>
      forRange 1 h2.textLength build.convertStep h2 >>= fun h3 =>
      setDiscoveryFinishing (build.allocTimes h3)) := rfl

theorem insertChild_parent (h h1 : heap α) (c p : Int)
    (he : insertChild h c p = Except.ok h1) : h1.parent = h.parent := by
  rw [insertChild] at he
  obtain ⟨_, _, he⟩ := (bind_ok_iff _ _ _).mp he
  obtain ⟨_, _, he⟩ := (bind_ok_iff _ _ _).mp he
  obtain ⟨_, _, he⟩ := (bind_ok_iff _ _ _).mp he
  obtain ⟨_, _, he⟩ := (bind_ok_iff _ _ _).mp he
  obtain ⟨_, _, he⟩ := (bind_ok_iff _ _ _).mp he
  injection he with he
  rw [← he]

theorem writeAt_other {β : Type} (a a1 : List β) (i : Int) (v : β) (hi : 1 ≤ i)
    (he : writeAt a i v = Except.ok a1) : a1[0]? = a[0]? := by
  rw [writeAt, if_neg (by omega)] at he
  by_cases hl : i.toNat < a.length
  · rw [if_pos hl] at he
    injection he with he
    rw [← he, List.getElem?_set_ne (by omega)]
  · rw [if_neg hl] at he
    exact absurd he (by simp)

theorem build_step_parent0 (i : Int) (hi : 1 ≤ i) (s s1 : heap α × Option Int)
    (he : build.step i s = Except.ok s1) : s1.1.parent[0]? = s.1.parent[0]? := by
  rw [build.step] at he
  obtain ⟨c, _, he⟩ := (bind_ok_iff _ _ _).mp he
  obtain ⟨r, _, he⟩ := (bind_ok_iff _ _ _).mp he
  by_cases hr : r = NOCHILD
  · rw [if_pos hr] at he
    obtain ⟨p1, hp1, he⟩ := (bind_ok_iff _ _ _).mp he
    obtain ⟨h1, hh1, he⟩ := (bind_ok_iff _ _ _).mp he
    injection he with he
    rw [← he]
    show h1.parent[0]? = _
    rw [insertChild_parent _ _ _ _ hh1]
    exact writeAt_other _ _ _ _ hi hp1
  · rw [if_neg hr] at he
    obtain ⟨_, _, he⟩ := (bind_ok_iff _ _ _).mp he
    obtain ⟨_, _, he⟩ := (bind_ok_iff _ _ _).mp he
    obtain ⟨p1, hp1, he⟩ := (bind_ok_iff _ _ _).mp he
    obtain ⟨h1, hh1, he⟩ := (bind_ok_iff _ _ _).mp he
    injection he with he
    rw [← he]
    show h1.parent[0]? = _
    rw [insertChild_parent _ _ _ _ hh1]
    exact writeAt_other _ _ _ _ hi hp1

theorem build_loop_parent0 (k : Nat) : ∀ (i : Int) (s s1 : heap α × Option Int), 1 ≤ i →
    forLoop build.step k i s = Except.ok s1 → s1.1.parent[0]? = s.1.parent[0]? := by
  induction k with
  | zero =>
    intro i s s1 _ he
    rw [forLoop] at he
    injection he with he
    rw [he]
  | succ k ih =>
    intro i s s1 hi he
    rw [forLoop] at he
    obtain ⟨s2, h2, he⟩ := (bind_ok_iff _ _ _).mp he
    rw [ih (i + 1) s2 s1 (by omega) he, build_step_parent0 i hi s s2 h2]

/-- The run of the constructor for a non-empty text, stage by stage: the state `s` after
the construction loop holds the primal tree `par` in `parent` (with `parent[ROOT]` still
unassigned) and the dual tree `dpar` in `downArray`; `installMaxReaches` then returns
`h1` with the same trees; the finished index `hfin` satisfies `Good` for the same
`par`. -/
theorem heap_new_stages (T : List α) (hT : T ≠ []) :
    ∃ (s : heap α × Option Int) (h1 hfin : heap α) (par dep dpar mr : Nat → Nat),
      build.construct (heap.fresh T) = Except.ok s ∧ installMaxReaches s.1 = Except.ok h1 ∧
      heap.new T = Except.ok hfin ∧ s.1.text = T.reverse ∧
      Shape s.1.text (T.length - 1) par dep dpar ∧ DualRep s.1 (T.length - 1) par dpar ∧
      s.1.parent[0]? = some none ∧ h1.parent = s.1.parent ∧ h1.downArray = s.1.downArray ∧
      h1.text = s.1.text ∧ hfin.text = T.reverse ∧
      Good hfin (T.length - 1) par dep dpar mr := by
  have hpos : 0 < T.length := List.length_pos.mpr hT
  obtain ⟨N, hN⟩ : ∃ N, T.length = N + 1 := ⟨T.length - 1, by omega⟩
  have hNe : T.length - 1 = N := by omega
  rw [hNe]
  have hlen : (heap.fresh T).text.length = N + 1 := by simp [heap.fresh, hN]
  have htl : (heap.fresh T).textLength = ((N + 1 : Nat) : Int) := by
    show (T.length : Int) = _
    rw [hN]
  have hp : (heap.fresh T).parent.length = N + 1 := by simp [heap.fresh, hN]
  have hda : (heap.fresh T).downArray = List.replicate (N + 1) downNode.new := by
    show List.replicate T.length downNode.new = _
    rw [hN]
  have hmr : (heap.fresh T).maxReach.length = N + 1 := by simp [heap.fresh, hN]
  have hp0 : (heap.fresh T).parent[0]? = some none := by
    show (List.replicate T.length (none : Option Int))[0]? = _
    rw [hN]
    simp [List.replicate_succ]
  have S0 := initial_shape (heap.fresh T).text (by omega)
  have R0 := initial_rep (heap.fresh T) (N + 1) htl hlen hp hda
  obtain ⟨h1, pn1, par, dep, dpar, e1, e2, S, R⟩ :=
    build_loop_spec N 0 (heap.fresh T) none _ _ _ S0 R0 (by omega) (fun hc => by omega)
  simp only [Nat.zero_add] at S R
  have hlen1 : h1.text.length = N + 1 := by rw [e2.text]; exact hlen
  rw [← e2.text] at S
  have hfr : build.construct (heap.fresh T) = Except.ok (h1, pn1) := by
    rw [build.construct, htl, forRange_one]
    exact e1
  have hpar0 : h1.parent[0]? = some none := by
    rw [← hp0]
    exact build_loop_parent0 N _ _ _ (by simp) e1
  obtain ⟨h2, mr, e3, a1, a2, a3, a4, Q, QR⟩ := installMaxReaches_ok S (by omega) R
    (by rw [e2.maxReach, e2.text, hmr, hlen])
  obtain ⟨h3, e4, b1, b2, b3, P⟩ := @convert_ok α _ h2 N par
    (by rw [a3]; omega) (by rw [a4, a3]; exact R.tl) (by rw [a2, a3]; exact R.len_da)
    (fun j j1 j2 => by rw [a1]; exact R.parent_eq j j1 j2) (fun j j1 j2 => S.par_lt j j1 j2)
  have S3 : Shape h3.text N par dep dpar := by rw [b1, a3]; exact S
  obtain ⟨h5, e5, c1, c2, c3, c4, l1, l2, T1, T2⟩ := labelling_ok S3 (by rw [b1, a3]; omega)
    (by rw [b2, b1, a4, a3]; exact R.tl) P
  have htext : h1.text = T.reverse := by rw [e2.text]; rfl
  refine ⟨(h1, pn1), h2, h5, par, dep, dpar, mr, hfr, e3, ?_, htext, S, R, hpar0, a1, a2, a3,
    ?_, ?_⟩
  · rw [heap_new_unfold, hfr, ok_bind]
    show (installMaxReaches h1 >>= _) = _
    rw [e3, ok_bind]
    rw [bind_ok_iff] at e4
    obtain ⟨hc, e41, e42⟩ := e4
    rw [e41, ok_bind, e42, ok_bind]
    exact e5
  · rw [c1, b1, a3]; exact htext
  · refine ⟨by rw [c1, b1, a3]; omega, by rw [c2, c1, b2, b1, a4, a3]; exact R.tl,
      by rw [c1]; exact S3, by rw [c1, b1, a3]; exact Q, ?_, ?_, l1, l2, T1, T2⟩
    · refine ⟨?_, ?_⟩
      · rw [c3, b3, c1, b1]; exact QR.len
      · intro j hj; rw [c3, b3]; exact QR.eq j hj
    · refine ⟨?_, ?_⟩
      · rw [c4, c1]; exact P.len_da
      · intro p hp1; rw [c4]; exact P.kids p hp1

theorem forLoop_split {σ : Type} (body : Int → σ → Except Fault σ) (a b : Nat) :
    ∀ (i : Int) (s : σ), forLoop body (a + b) i s
      = (forLoop body a i s >>= fun s1 => forLoop body b (i + (a : Int)) s1) := by
  induction a with
  | zero =>
    intro i s
    simp only [Nat.zero_add, forLoop, ok_bind, Nat.cast_zero, add_zero]
  | succ a ih =>
    intro i s
    have h1 : a + 1 + b = (a + b) + 1 := by omega
    rw [h1, forLoop, forLoop]
    cases hb : body i s with
    | error e => rfl
    | ok s2 =>
      simp only [ok_bind]
      rw [ih (i + 1) s2]
      have h2 : i + 1 + (a : Int) = i + ((a + 1 : Nat) : Int) := by push_cast; ring
      rw [h2]

/-- C26 (the climbs are safe and terminate): for every non-empty text the construction
loop of `build` and `installMaxReaches` return, in an embedding where a read of the
unassigned `parent[ROOT]`, a use of the unassigned `pathNode` and a climb that does not
end are faults; `parent[ROOT]` is unassigned in every state in which a climb runs; at
every position `i ≥ 1` the step of the construction loop, with its climb, returns; and
after the construction loop `ROOT` has a dual child on `text[i]` for every `i ≥ 1`, so a
climb that reaches `ROOT` stops there. -/
theorem climbs_safe (T : List α) (hT : T ≠ []) :
    ∃ (s : heap α × Option Int) (h1 : heap α),
      build.construct (heap.fresh T) = Except.ok s ∧ installMaxReaches s.1 = Except.ok h1 ∧
      readInit s.1.parent ROOT = Except.error Fault.uninitialised ∧
      readInit h1.parent ROOT = Except.error Fault.uninitialised ∧
      (∀ i : Nat, 1 ≤ i → i < T.length →
        ∃ si si1, forRange 1 (i : Int) build.step (heap.fresh T, none) = Except.ok si ∧
          readInit si.1.parent ROOT = Except.error Fault.uninitialised ∧
          build.step (i : Int) si = Except.ok si1) ∧
      (∀ i : Nat, 1 ≤ i → i < T.length →
        ∃ c x, readAt s.1.text (i : Int) = Except.ok c ∧
          childOnLetter s.1 ROOT 0 c = Except.ok x ∧ x ≠ NOCHILD) := by
  obtain ⟨s, h1, hfin, par, dep, dpar, mr, e1, e2, _, e4, S, R, p0, a1, _, _, _, G⟩ :=
    heap_new_stages T hT
  have hun : ∀ a : List (Option Int), a[0]? = some none →
      readInit a ROOT = Except.error Fault.uninitialised := by
    intro a ha
    have : readAt a ROOT = Except.ok none := readAt_cast a 0 none ha
    rw [readInit, this]
    rfl
  have hlen : s.1.text.length = T.length := by rw [e4, List.length_reverse]
  refine ⟨s, h1, e1, e2, hun _ p0, hun _ (by rw [a1]; exact p0), ?_, ?_⟩
  · intro i hi1 hi
    have hfresh0 : (heap.fresh T).parent[0]? = some none := by
      obtain ⟨N, hN⟩ : ∃ N, T.length = N + 1 := ⟨T.length - 1, by omega⟩
      show (List.replicate T.length (none : Option Int))[0]? = _
      rw [hN]
      simp [List.replicate_succ]
    have htl : (heap.fresh T).textLength = (T.length : Int) := rfl
    have hsplit : T.length - 1 = (i - 1) + ((T.length - 1 - i) + 1) := by omega
    have e1b := e1
    rw [build.construct, htl, forRange_one, hsplit, forLoop_split] at e1b
    obtain ⟨si, h2, h3⟩ := (bind_ok_iff _ _ _).mp e1b
    rw [forLoop] at h3
    obtain ⟨si1, h4, _⟩ := (bind_ok_iff _ _ _).mp h3
    have hidx : (((0 + 1 : Nat) : Int) + ((i - 1 : Nat) : Int)) = (i : Int) := by omega
    rw [hidx] at h4
    refine ⟨si, si1, ?_, hun _ ?_, h4⟩
    · rw [forRange_one]
      exact h2
    · rw [← hfresh0]
      exact build_loop_parent0 (i - 1) _ _ _ (by simp) h2
  · intro i hi1 hi
    have hil : i < s.1.text.length := by omega
    have hroot := S.root_child hi1 (by omega) s.1.text[i] (List.getElem?_eq_getElem hil)
    have hch := R.dualChild (by omega) 0 (by omega) s.1.text[i]
    refine ⟨s.1.text[i], _, readAt_cast _ _ _ (List.getElem?_eq_getElem hil), hch, hroot⟩

theorem climbs_safe_witness :
    "abab".toList ≠ [] ∧
    ∃ (s : heap Char × Option Int) (h1 : heap Char),
      build.construct (heap.fresh "abab".toList) = Except.ok s ∧
      installMaxReaches s.1 = Except.ok h1 ∧
      readInit s.1.parent ROOT = Except.error Fault.uninitialised ∧
      readInit h1.parent ROOT = Except.error Fault.uninitialised ∧
      (∀ i : Nat, 1 ≤ i → i < "abab".toList.length →
        ∃ si si1,
          forRange 1 (i : Int) build.step (heap.fresh "abab".toList, none) = Except.ok si ∧
          readInit si.1.parent ROOT = Except.error Fault.uninitialised ∧
          build.step (i : Int) si = Except.ok si1) ∧
      (∀ i : Nat, 1 ≤ i → i < "abab".toList.length →
        ∃ c x, readAt s.1.text (i : Int) = Except.ok c ∧
          childOnLetter s.1 ROOT 0 c = Except.ok x ∧ x ≠ NOCHILD) :=
  ⟨by decide, climbs_safe "abab".toList (by decide)⟩

theorem kidsOf_sorted (f : Nat → Nat) (i p : Nat) :
    (kidsOf f i p).Pairwise (fun a b => b < a) := by
  induction i with
  | zero => exact List.Pairwise.nil
  | succ i ih =>
    rw [kidsOf]
    by_cases hf : f (i + 1) = p
    · rw [if_pos hf]
      refine List.pairwise_cons.mpr ⟨?_, ih⟩
      intro b hb
      have := ((mem_kidsOf f i p b).mp hb).2.1
      omega
    · rw [if_neg hf]
      exact ih

/-- C24 (conversion to the downward tree): after the construction for a non-empty text of
length `n`, for every node `p` the sibling chain of the finished index that starts at
`firstChild[p]` is a list `xs` ending in `NOCHILD`; it holds exactly the nodes `c` in
`1..n-1` with `parent[c] = p`, where `parent` is the array left by the construction
loop, and its node ids are strictly decreasing (so each node occurs once and no child of
the dual tree remains). -/
theorem conversion_chains (T : List α) (hT : T ≠ []) :
    ∃ (s : heap α × Option Int) (h : heap α),
      build.construct (heap.fresh T) = Except.ok s ∧ heap.new T = Except.ok h ∧
      ∀ p : Nat, p < T.length → ∃ xs : List Nat, Kids h.downArray p xs ∧
        (∀ c : Nat, c ∈ xs ↔
          (1 ≤ c ∧ c < T.length ∧ readInit s.1.parent (c : Int) = Except.ok (p : Int))) ∧
        xs.Pairwise (fun a b => b < a) := by
  obtain ⟨s, h1, hfin, par, dep, dpar, mr, e1, _, e3, _, _, R, _, _, _, _, _, G⟩ :=
    heap_new_stages T hT
  refine ⟨s, hfin, e1, e3, ?_⟩
  intro p hp
  refine ⟨kidsOf par (T.length - 1) p, G.prim.kids p (by omega), ?_, kidsOf_sorted _ _ _⟩
  intro c
  rw [mem_kidsOf]
  constructor
  · rintro ⟨c1, c2, c3⟩
    refine ⟨c1, by omega, ?_⟩
    rw [← c3]
    exact readInit_cast _ _ _ (R.parent_eq c c1 c2)
  · rintro ⟨c1, c2, c3⟩
    have := readInit_cast _ _ _ (R.parent_eq c c1 (by omega))
    rw [this] at c3
    injection c3 with c3
    exact ⟨c1, by omega, by omega⟩

theorem conversion_chains_witness :
    "abab".toList ≠ [] ∧
    ∃ (s : heap Char × Option Int) (h : heap Char),
      build.construct (heap.fresh "abab".toList) = Except.ok s ∧
      heap.new "abab".toList = Except.ok h ∧
      ∀ p : Nat, p < "abab".toList.length → ∃ xs : List Nat, Kids h.downArray p xs ∧
        (∀ c : Nat, c ∈ xs ↔
          (1 ≤ c ∧ c < "abab".toList.length ∧
            readInit s.1.parent (c : Int) = Except.ok (p : Int))) ∧
        xs.Pairwise (fun a b => b < a) :=
  ⟨by decide, conversion_chains "abab".toList (by decide)⟩

/-! ## The dual tree during the construction -/

section Dual
variable {h : heap α} {N : Nat} {par dep dpar : Nat → Nat}

theorem DualRep.dualChild_iff (R : DualRep h N par dpar) (hN : N + 1 = h.text.length)
    (p c : Int) :
    IsChild h p c ↔ ∃ pn cn : Nat, p = (pn : Int) ∧ c = (cn : Int) ∧ pn ≤ N ∧
      cn ∈ kidsOf dpar N pn := by
  constructor
  · rintro ⟨nd, h1, h2⟩
    obtain ⟨pn, hp, hp2⟩ := readAt_bound h1
    have hpN : pn < h.text.length := by
      obtain ⟨hh, _⟩ := List.getElem?_eq_some.mp hp2
      have := R.len_da
      omega
    obtain ⟨nd1, h3, h4⟩ := R.kids pn hpN
    rw [hp2] at h3
    injection h3 with h3
    subst h3
    obtain ⟨y, hy, hcy⟩ := (chain_onChain h4 c).mp h2
    exact ⟨pn, y, hp, hcy, by omega, hy⟩
  · rintro ⟨pn, cn, rfl, rfl, hpN, hc⟩
    obtain ⟨nd1, h3, h4⟩ := R.kids pn (by omega)
    exact ⟨nd1, readAt_cast _ _ _ h3, (chain_onChain h4 _).mpr ⟨cn, hc, rfl⟩⟩

theorem DualRep.upPath_node (R : DualRep h N par dpar) (S : Shape h.text N par dep dpar)
    (hN : N + 1 = h.text.length) (hp0 : h.parent[0]? = some none) {y : Int} {ls : List α}
    (hp : UpPath h y ls) :
    ∃ z : Nat, y = (z : Int) ∧ z ≤ N ∧ dep z = ls.length ∧
      ∀ k, k < ls.length → ls[k]? = h.text[z - k]? := by
  induction hp with
  | root => exact ⟨0, rfl, Nat.zero_le _, S.dep_zero, fun k hk => by simp at hk⟩
  | @edge p c ls a _ hpar hrd ih =>
    obtain ⟨pn, i1, i2, i3, i4⟩ := ih
    obtain ⟨cn, c1, c2⟩ := readInit_bound hpar
    have hc1 : 1 ≤ cn := by
      by_contra hcon
      have : cn = 0 := by omega
      rw [this, hp0] at c2
      injection c2 with c2
      exact absurd c2 (by simp)
    have hcN : cn ≤ N := by
      obtain ⟨hh, _⟩ := List.getElem?_eq_some.mp c2
      have := R.len_parent
      omega
    rw [R.parent_eq cn hc1 hcN] at c2
    injection c2 with c2
    injection c2 with c2
    have hpn : par cn = pn := by omega
    have hd := S.dep_succ cn hc1 hcN
    rw [hpn] at hd
    obtain ⟨_, b2⟩ := (readAt_ok_iff _ _ _).mp hrd
    have hidx : (c - (ls.length : Int)).toNat = cn - ls.length := by omega
    rw [hidx] at b2
    refine ⟨cn, c1, hcN, by simp; omega, ?_⟩
    intro k hk
    by_cases hkl : k < ls.length
    · rw [List.getElem?_append_left hkl, i4 k hkl]
      have := S.path cn hc1 hcN k (by rw [hpn]; omega)
      rw [hpn] at this
      exact this
    · have hke : k = ls.length := by simp at hk; omega
      subst hke
      rw [List.getElem?_append_right le_rfl, b2]
      simp

theorem DualRep.upPath_exists (R : DualRep h N par dpar) (S : Shape h.text N par dep dpar)
    (hN : N + 1 = h.text.length) (z : Nat) (hz : z ≤ N) :
    ∃ ls, UpPath h (z : Int) ls ∧ ls.length = dep z := by
  induction z using Nat.strong_induction_on with
  | _ z ih =>
    by_cases h0 : z = 0
    · subst h0
      exact ⟨[], UpPath.root, S.dep_zero.symm⟩
    · have hp := S.par_lt z (by omega) hz
      have hd := S.dep_succ z (by omega) hz
      have hle := S.dep_le z hz
      obtain ⟨ls, h1, h2⟩ := ih (par z) hp (by omega)
      obtain ⟨a, ha⟩ : ∃ a, h.text[z - ls.length]? = some a :=
        ⟨_, List.getElem?_eq_getElem (by omega)⟩
      refine ⟨ls ++ [a], UpPath.edge h1 ?_ ?_, by simp; omega⟩
      · exact readInit_cast _ _ _ (R.parent_eq z (by omega) hz)
      · have : ((z : Int) - (ls.length : Int)) = ((z - ls.length : Nat) : Int) := by omega
        rw [this]
        exact readAt_cast _ _ _ ha

theorem DualRep.dualPath_node (R : DualRep h N par dpar) (S : Shape h.text N par dep dpar)
    (hN : N + 1 = h.text.length) {y : Int} {dl : List α} (hp : DualPath h y dl) :
    ∃ z : Nat, y = (z : Int) ∧ z ≤ N ∧ dep z = dl.length ∧
      ∀ k, k < dl.length → dl[k]? = h.text[z - (dl.length - 1 - k)]? := by
  induction hp with
  | root => exact ⟨0, rfl, Nat.zero_le _, S.dep_zero, fun k hk => by simp at hk⟩
  | @edge p c dl a _ hc hrd ih =>
    obtain ⟨pn, i1, i2, i3, i4⟩ := ih
    obtain ⟨pn1, cn, a1, a2, _, a4⟩ := (R.dualChild_iff hN p c).mp hc
    have hpn : pn1 = pn := by omega
    subst hpn
    obtain ⟨k1, k2, k3⟩ := (mem_kidsOf dpar N pn1 cn).mp a4
    have hd := S.dep_dpar cn k1 k2
    rw [k3] at hd
    obtain ⟨_, b2⟩ := (readAt_ok_iff _ _ _).mp hrd
    have hidx : c.toNat = cn := by omega
    rw [hidx] at b2
    refine ⟨cn, a2, k2, by simp; omega, ?_⟩
    intro k hk
    have hlen : (dl ++ [a]).length = dl.length + 1 := by simp
    rw [hlen]
    by_cases hkl : k < dl.length
    · rw [List.getElem?_append_left hkl, i4 k hkl]
      have := S.dpath cn k1 k2 (dl.length - 1 - k) (by rw [k3]; omega)
      rw [k3] at this
      have e1 : cn - 1 - (dl.length - 1 - k) = cn - (dl.length + 1 - 1 - k) := by omega
      rw [this, e1]
    · have hke : k = dl.length := by simp at hk; omega
      subst hke
      have e2 : cn - (dl.length + 1 - 1 - dl.length) = cn := by omega
      rw [List.getElem?_append_right le_rfl, e2, b2]
      simp

theorem DualRep.dualPath_exists (R : DualRep h N par dpar) (S : Shape h.text N par dep dpar)
    (hN : N + 1 = h.text.length) (z : Nat) (hz : z ≤ N) :
    ∃ dl, DualPath h (z : Int) dl ∧ dl.length = dep z := by
  induction z using Nat.strong_induction_on with
  | _ z ih =>
    by_cases h0 : z = 0
    · subst h0
      exact ⟨[], DualPath.root, S.dep_zero.symm⟩
    · have hp := S.dpar_lt z (by omega) hz
      have hd := S.dep_dpar z (by omega) hz
      obtain ⟨dl, h1, h2⟩ := ih (dpar z) hp (by omega)
      obtain ⟨a, ha⟩ : ∃ a, h.text[z]? = some a :=
        ⟨_, List.getElem?_eq_getElem (by omega)⟩
      refine ⟨dl ++ [a], DualPath.edge h1 ?_ (readAt_cast _ _ _ ha), by simp; omega⟩
      exact (R.dualChild_iff hN _ _).mpr ⟨dpar z, z, rfl, rfl, by omega,
        (mem_kidsOf dpar N (dpar z) z).mpr ⟨by omega, hz, rfl⟩⟩

end Dual

/-- C23 (the dual heap is the reverse of the primal): for every non-empty text, in the
state at the end of the construction loop of `build`, every node `i` has exactly one
primal path label `ls` (read through `parent`), it spells `text[i], text[i-1], ...,
text[i-d+1]` with `d` the primal depth of `i`; and the path from `ROOT` to `i` in the
child and sibling arrays, the dual edge into a node `c` being labelled `text[c]`, exists,
is unique and its labels read from the root are `ls` reversed (so it has length `d`). -/
theorem dual_is_reverse (T : List α) (hT : T ≠ []) :
    ∃ s : heap α × Option Int, build.construct (heap.fresh T) = Except.ok s ∧
      ∀ i : Nat, i < T.length →
        ∃ ls : List α, UpPath s.1 (i : Int) ls ∧ ls.length ≤ i ∧
          (∀ k, k < ls.length → ls[k]? = T.reverse[i - k]?) ∧
          DualPath s.1 (i : Int) ls.reverse ∧
          (∀ ls1, UpPath s.1 (i : Int) ls1 → ls1 = ls) ∧
          (∀ dl, DualPath s.1 (i : Int) dl → dl = ls.reverse) := by
  obtain ⟨s, h1, hfin, par, dep, dpar, mr, e1, _, _, e4, S, R, p0, _, _, _, _, _⟩ :=
    heap_new_stages T hT
  refine ⟨s, e1, ?_⟩
  intro i hi
  have hlen : s.1.text.length = T.length := by rw [e4, List.length_reverse]
  have hN : T.length - 1 + 1 = s.1.text.length := by omega
  have hiN : i ≤ T.length - 1 := by omega
  obtain ⟨ls, u1, u2⟩ := R.upPath_exists S hN i hiN
  obtain ⟨dl, d1, d2⟩ := R.dualPath_exists S hN i hiN
  obtain ⟨z, z1, _, _, z4⟩ := R.upPath_node S hN p0 u1
  have hz : z = i := by omega
  subst hz
  have hdual : ∀ dl1, DualPath s.1 (z : Int) dl1 → dl1 = ls.reverse := by
    intro dl1 hd1
    obtain ⟨y, y1, _, y3, y4⟩ := R.dualPath_node S hN hd1
    have hy : y = z := by omega
    subst hy
    apply List.ext_getElem?
    intro k
    by_cases hk : k < dl1.length
    · rw [y4 k hk, List.getElem?_reverse (by omega), z4 _ (by omega)]
      congr 2
      omega
    · rw [List.getElem?_eq_none (by omega), List.getElem?_eq_none]
      rw [List.length_reverse]
      omega
  refine ⟨ls, u1, by rw [u2]; exact S.dep_le z hiN, ?_, ?_, ?_, hdual⟩
  · intro k hk
    rw [z4 k hk, e4]
  · rw [← hdual dl d1]
    exact d1
  · intro ls1 hu1
    obtain ⟨y, y1, _, y3, y4⟩ := R.upPath_node S hN p0 hu1
    have hy : y = z := by omega
    subst hy
    apply List.ext_getElem?
    intro k
    by_cases hk : k < ls1.length
    · rw [y4 k hk, z4 k (by omega)]
    · rw [List.getElem?_eq_none (by omega), List.getElem?_eq_none (by omega)]

theorem dual_is_reverse_witness :
    "abab".toList ≠ [] ∧
    ∃ s : heap Char × Option Int, build.construct (heap.fresh "abab".toList) = Except.ok s ∧
      ∀ i : Nat, i < "abab".toList.length →
        ∃ ls : List Char, UpPath s.1 (i : Int) ls ∧ ls.length ≤ i ∧
          (∀ k, k < ls.length → ls[k]? = "abab".toList.reverse[i - k]?) ∧
          DualPath s.1 (i : Int) ls.reverse ∧
          (∀ ls1, UpPath s.1 (i : Int) ls1 → ls1 = ls) ∧
          (∀ dl, DualPath s.1 (i : Int) dl → dl = ls.reverse) :=
  ⟨by decide, dual_is_reverse "abab".toList (by decide)⟩

end PositionHeap
